import Mathlib

/-!
Verification of the maze-pathfinding core (maze generator plus DFS / BFS /
A-star / Monte Carlo / Q-Learning engines) against its design document.

The TypeScript sources `src/utils/mazeGenerator.ts` and
`src/utils/algorithms.ts` are shallowly embedded here:

* a `MazeGrid` (array of arrays of cells) becomes a `Grid`: explicit
  dimensions plus a total cell function indexed by `Int × Int`
  (JavaScript array indices are numbers and the code probes negative
  indices before bounds checks, so positions are integers);
* machine numbers used as counters and lengths become `Nat`, learned values
  and rewards (JavaScript floats that are only added, multiplied and
  compared in the algorithms) become `ℚ`;
* `Math.random()` is modelled by explicit oracle streams that are
  threaded through every computation: `σ : Nat → Nat` supplies the value
  of `Math.floor(Math.random() * n)` as `σ k % n` for the k-th draw, and
  `τ : Nat → Bool` supplies the outcome of an `Math.random() < epsilon`
  test.  Every behaviour of the program corresponds to some pair of
  oracles, so theorems quantifying over `σ` and `τ` cover every run;
* the string keys `r,c` used by the
  value-function / q-table / visited-set objects become the position
  itself: those objects become total functions (`Option` values model
  key absence where the code distinguishes it);
* the `onStep` UI callback becomes an accumulated list of emitted
  snapshots.  Each snapshot records the grid and metrics values passed,
  plus a `gridFresh` flag that is `true` exactly when the source passes
  a `cloneGrid(...)` result (a freshly allocated deep copy) and `false`
  when it passes the caller's own `initialGrid` object;
* `performance.now()` timing, the cosmetic `delay(ms)` pacing and
  `console.log` calls are dropped: no claim mentions them and they do
  not influence any other state;
* unbounded `while` loops are run on explicit fuel; for each engine the
  fuel is provably sufficient (a potential function strictly decreases
  every iteration), so the embedding is total and extensionally equal
  to the JavaScript loop.
-/

namespace Maze

/-- Position in the grid: (row, column), as integers because the source
probes out-of-bounds (negative) indices before its bounds checks. -/
abbrev Pos : Type := Int × Int

/-- Cell record, from `mazeGenerator.ts` lines 1-9. -/
structure Cell where
  row : Int
  col : Int
  isWall : Bool
  isStart : Bool
  isEnd : Bool
  isVisited : Bool
  isPath : Bool
deriving DecidableEq, Repr

/-- Grid: dimensions plus a total cell map (embedding of `MazeGrid`,
an array of `rows` arrays of `cols` cells). -/
structure Grid where
  rows : Nat
  cols : Nat
  cell : Pos → Cell

/-- Direction row deltas, from `const dx = [-1, 0, 1, 0]`. -/
def dxv : Nat → Int
  | 0 => -1
  | 1 => 0
  | 2 => 1
  | 3 => 0
  | _ => 0

/-- Direction column deltas, from `const dy = [0, 1, 0, -1]`. -/
def dyv : Nat → Int
  | 0 => 0
  | 1 => 1
  | 2 => 0
  | 3 => -1
  | _ => 0

/-- Neighbour of `p` in direction `d`. -/
def stepPos (p : Pos) (d : Nat) : Pos := (p.1 + dxv d, p.2 + dyv d)

/-- Bounds test `r >= 0 && r < rows && c >= 0 && c < cols`. -/
def inBounds (g : Grid) (p : Pos) : Prop :=
  0 ≤ p.1 ∧ p.1 < (g.rows : Int) ∧ 0 ≤ p.2 ∧ p.2 < (g.cols : Int)

instance (g : Grid) (p : Pos) : Decidable (inBounds g p) := by
  unfold inBounds; infer_instance

/-- Update one cell of a grid. -/
def setCell (g : Grid) (p : Pos) (c : Cell) : Grid :=
  { g with cell := fun q => if q = p then c else g.cell q }

/-- Set the `isWall` flag of one cell. -/
def setWall (g : Grid) (p : Pos) (b : Bool) : Grid :=
  setCell g p { g.cell p with isWall := b }

/-- Set the `isVisited` flag of one cell. -/
def setVisited (g : Grid) (p : Pos) (b : Bool) : Grid :=
  setCell g p { g.cell p with isVisited := b }

/-- Set the `isPath` flag of one cell. -/
def setPath (g : Grid) (p : Pos) (b : Bool) : Grid :=
  setCell g p { g.cell p with isPath := b }

/-- Allowed move of a search: the target is one orthogonal step away,
in bounds and not a wall (the wall/bounds status of the source is never
consulted by the loops of `algorithms.ts`). -/
def gstep (g : Grid) (p q : Pos) : Prop :=
  (∃ d : Fin 4, q = stepPos p d.val) ∧ inBounds g q ∧ (g.cell q).isWall = false

instance (g : Grid) (p q : Pos) : Decidable (gstep g p q) := by
  unfold gstep; infer_instance

/-- Walks of a given number of steps from `s`, each step an allowed move. -/
inductive StepsTo (g : Grid) (s : Pos) : Pos → Nat → Prop
  | refl : StepsTo g s s 0
  | tail {p q : Pos} {n : Nat} : StepsTo g s p n → gstep g p q → StepsTo g s q (n + 1)

/-- Reachability along non-wall cells. -/
def Reach (g : Grid) (s p : Pos) : Prop := ∃ n, StepsTo g s p n

/-- Number of distinct in-bounds positions of a grid. -/
def boundsFinset (g : Grid) : Finset Pos :=
  Finset.Icc (0 : Int) ((g.rows : Int) - 1) ×ˢ Finset.Icc (0 : Int) ((g.cols : Int) - 1)

theorem mem_boundsFinset {g : Grid} {p : Pos} :
    p ∈ boundsFinset g ↔ inBounds g p := by
  cases p with
  | mk a b =>
    simp only [boundsFinset, Finset.mem_product, Finset.mem_Icc, inBounds]
    omega

theorem boundsFinset_card (g : Grid) : (boundsFinset g).card = g.rows * g.cols := by
  simp only [boundsFinset, Finset.card_product, Int.card_Icc]
  cases g.rows <;> cases g.cols <;> simp

/-- Chains: `p` lists the successive positions of a walk (as the `path`
arrays carried by the search frontiers do).  `Chain'` requires each
consecutive pair to be an allowed move. -/
def ValidChain (g : Grid) (s : Pos) (l : List Pos) : Prop :=
  l.head? = some s ∧ l.Chain' (gstep g)

theorem validChain_singleton (g : Grid) (s : Pos) : ValidChain g s [s] := by
  constructor <;> simp

theorem validChain_append {g : Grid} {s q : Pos} {l : List Pos}
    (h : ValidChain g s l) {v : Pos} (hlast : l.getLast? = some v)
    (hq : gstep g v q) : ValidChain g s (l ++ [q]) := by
  obtain ⟨h1, h2⟩ := h
  refine ⟨?_, ?_⟩
  · cases l with
    | nil => simp at h1
    | cons a t => simpa using h1
  · exact List.Chain'.append h2 (by simp) (by
      intro x hx y hy
      simp at hy
      subst hy
      rw [hlast] at hx
      simp at hx
      subst hx
      exact hq)

theorem validChain_stepsTo {g : Grid} {s : Pos} {l : List Pos} (h : ValidChain g s l)
    {v : Pos} (hlast : l.getLast? = some v) : StepsTo g s v (l.length - 1) := by
  induction l using List.reverseRecOn generalizing v with
  | nil => simp at hlast
  | append_singleton t q ih =>
    have hvq : v = q := by
      rw [List.getLast?_append_cons] at hlast
      simpa using hlast.symm
    subst hvq
    cases t with
    | nil =>
      obtain ⟨h1, _⟩ := h
      simp at h1
      subst h1
      simpa using StepsTo.refl (g := g) (s := v)
    | cons a r =>
      obtain ⟨h1, h2⟩ := h
      have hsplit := List.chain'_append.mp (show List.Chain' (gstep g) ((a :: r) ++ [v]) from h2)
      have hlast2 : (a :: r).getLast? = some ((a :: r).getLast (by simp)) :=
        List.getLast?_eq_getLast _ _
      have hchain : ValidChain g s (a :: r) := ⟨by simpa using h1, hsplit.1⟩
      have hstep : gstep g ((a :: r).getLast (by simp)) v :=
        hsplit.2.2 _ hlast2 _ rfl
      have := (ih hchain hlast2).tail hstep
      have hlen : (a :: r).length - 1 + 1 = ((a :: r) ++ [v]).length - 1 := by
        simp
      rw [hlen] at this
      exact this

/-- Walls-monotonicity: removing walls (and keeping dimensions) preserves
every walk. -/
theorem stepsTo_mono {g g' : Grid} (hr : g'.rows = g.rows) (hc : g'.cols = g.cols)
    (hw : ∀ p, (g.cell p).isWall = false → (g'.cell p).isWall = false)
    {s p : Pos} {n : Nat} (h : StepsTo g s p n) : StepsTo g' s p n := by
  induction h with
  | refl => exact .refl
  | tail _ hq ih =>
    refine ih.tail ?_
    obtain ⟨hd, hb, hwq⟩ := hq
    exact ⟨hd, by unfold inBounds at hb ⊢; rw [hr, hc]; exact hb, hw _ hwq⟩

theorem reach_mono {g g' : Grid} (hr : g'.rows = g.rows) (hc : g'.cols = g.cols)
    (hw : ∀ p, (g.cell p).isWall = false → (g'.cell p).isWall = false)
    {s p : Pos} (h : Reach g s p) : Reach g' s p := by
  obtain ⟨n, hn⟩ := h
  exact ⟨n, stepsTo_mono hr hc hw hn⟩

/-! ### findPositions (`algorithms.ts` lines 38-54)

The source scans every cell in row-major order and overwrites the
accumulators whenever it sees an `isStart` / `isEnd` flag; both
accumulators start at `[0, 0]` and are returned unconditionally (the
function cannot fail). -/

/-- Characterisation of `inBounds` on a literal pair. -/
theorem inBounds_mk {g : Grid} {a b : Int} :
    inBounds g (a, b) ↔ 0 ≤ a ∧ a < (g.rows : Int) ∧ 0 ≤ b ∧ b < (g.cols : Int) :=
  Iff.rfl

theorem inBounds_natPair {g : Grid} {i j : Nat} (hi : i < g.rows) (hj : j < g.cols) :
    inBounds g ((i : Int), (j : Int)) := by
  rw [inBounds_mk]
  omega

/-- Row-major list of all in-bounds positions, the iteration order of the
nested `for` loops. -/
def allPositions (rows cols : Nat) : List Pos :=
  (List.range rows).flatMap fun (i : Nat) =>
    (List.range cols).map fun (j : Nat) => ((i : Int), (j : Int))

theorem mem_allPositions {g : Grid} {p : Pos} :
    p ∈ allPositions g.rows g.cols ↔ inBounds g p := by
  constructor
  · intro h
    rw [allPositions, List.mem_flatMap] at h
    obtain ⟨i, hi, hmem⟩ := h
    rw [List.mem_map] at hmem
    obtain ⟨j, hj, hpj⟩ := hmem
    subst hpj
    exact inBounds_natPair (List.mem_range.mp hi) (List.mem_range.mp hj)
  · intro h
    obtain ⟨a, b⟩ := p
    rw [inBounds_mk] at h
    rw [allPositions, List.mem_flatMap]
    refine ⟨a.toNat, List.mem_range.mpr (by omega), ?_⟩
    rw [List.mem_map]
    refine ⟨b.toNat, List.mem_range.mpr (by omega), ?_⟩
    rw [Int.toNat_of_nonneg h.1, Int.toNat_of_nonneg h.2.2.1]

/-- Single scan step of `findPositions`: overwrite the accumulator when the
flag is set. -/
def scanFlag (f : Pos → Bool) (acc : Pos) (p : Pos) : Pos :=
  if f p then p else acc

/-- Embedding of `findPositions`: returns the last flagged start and end
positions in row-major order, defaulting to `(0, 0)`. -/
def findPositions (g : Grid) : Pos × Pos :=
  ((allPositions g.rows g.cols).foldl (scanFlag fun p => (g.cell p).isStart) (0, 0),
   (allPositions g.rows g.cols).foldl (scanFlag fun p => (g.cell p).isEnd) (0, 0))

theorem foldl_scanFlag_of_none {f : Pos → Bool} :
    ∀ (l : List Pos) (acc : Pos), (∀ q ∈ l, f q = false) →
      l.foldl (scanFlag f) acc = acc := by
  intro l
  induction l with
  | nil => intro acc _; rfl
  | cons a t ih =>
    intro acc h
    have ha : scanFlag f acc a = acc := by simp [scanFlag, h a (by simp)]
    rw [List.foldl_cons, ha]
    exact ih acc fun q hq => h q (List.mem_cons_of_mem a hq)

theorem foldl_scanFlag_cases {f : Pos → Bool} :
    ∀ (l : List Pos) (acc : Pos),
      l.foldl (scanFlag f) acc = acc ∨
        (l.foldl (scanFlag f) acc ∈ l ∧ f (l.foldl (scanFlag f) acc) = true) := by
  intro l
  induction l with
  | nil => intro acc; exact .inl rfl
  | cons a t ih =>
    intro acc
    simp only [List.foldl_cons]
    rcases ih (scanFlag f acc a) with h | h
    · rw [h]
      by_cases ha : f a = true
      · have hsf : scanFlag f acc a = a := by simp [scanFlag, ha]
        rw [hsf]
        exact .inr ⟨by simp, ha⟩
      · have hsf : scanFlag f acc a = acc := by simp [scanFlag, ha]
        rw [hsf]
        exact .inl rfl
    · exact .inr ⟨by simp [h.1], h.2⟩

theorem foldl_scanFlag_unique {f : Pos → Bool} :
    ∀ (l : List Pos) (acc : Pos) (p : Pos), p ∈ l → f p = true →
      (∀ q ∈ l, f q = true → q = p) → l.foldl (scanFlag f) acc = p := by
  intro l
  induction l with
  | nil => intro _ _ h; simp at h
  | cons a t ih =>
    intro acc p hp hf huniq
    simp only [List.foldl_cons]
    by_cases hpt : p ∈ t
    · exact ih _ p hpt hf fun q hq hfq => huniq q (by simp [hq]) hfq
    · have hpa : p = a := by
        rcases List.mem_cons.mp hp with h | h
        · exact h
        · exact absurd h hpt
      subst hpa
      have hnone : ∀ q ∈ t, f q = false := by
        intro q hq
        by_contra hc
        have : q = p := huniq q (by simp [hq]) (by simpa using hc)
        exact hpt (this ▸ hq)
      rw [foldl_scanFlag_of_none t _ hnone]
      simp [scanFlag, hf]

/-- There is exactly one start flag, and it sits at `p`. -/
def UniqueStart (g : Grid) (p : Pos) : Prop :=
  inBounds g p ∧ (g.cell p).isStart = true ∧
    ∀ q, inBounds g q → (g.cell q).isStart = true → q = p

/-- There is exactly one end flag, and it sits at `p`. -/
def UniqueEnd (g : Grid) (p : Pos) : Prop :=
  inBounds g p ∧ (g.cell p).isEnd = true ∧
    ∀ q, inBounds g q → (g.cell q).isEnd = true → q = p

theorem flagProp_iff_bounded (g : Grid) (p : Pos) (f : Pos → Bool) :
    (∀ q, inBounds g q → f q = true → q = p) ↔
      (∀ i, i < g.rows → ∀ j, j < g.cols →
        f ((i : Int), (j : Int)) = true → ((i : Int), (j : Int)) = p) := by
  constructor
  · intro h i hi j hj hf
    exact h _ (inBounds_natPair hi hj) hf
  · rintro h ⟨a, b⟩ hb hf
    rw [inBounds_mk] at hb
    have h1 : ((a.toNat : Int)) = a := Int.toNat_of_nonneg hb.1
    have h2 : ((b.toNat : Int)) = b := Int.toNat_of_nonneg hb.2.2.1
    have := h a.toNat (by omega) b.toNat (by omega)
    rw [h1, h2] at this
    exact this hf

instance (g : Grid) (p : Pos) : Decidable (UniqueStart g p) :=
  decidable_of_iff
    (inBounds g p ∧ (g.cell p).isStart = true ∧
      ∀ i, i < g.rows → ∀ j, j < g.cols →
        (g.cell ((i : Int), (j : Int))).isStart = true → ((i : Int), (j : Int)) = p)
    (and_congr_right fun _ => and_congr_right fun _ =>
      (flagProp_iff_bounded g p fun q => (g.cell q).isStart).symm)

instance (g : Grid) (p : Pos) : Decidable (UniqueEnd g p) :=
  decidable_of_iff
    (inBounds g p ∧ (g.cell p).isEnd = true ∧
      ∀ i, i < g.rows → ∀ j, j < g.cols →
        (g.cell ((i : Int), (j : Int))).isEnd = true → ((i : Int), (j : Int)) = p)
    (and_congr_right fun _ => and_congr_right fun _ =>
      (flagProp_iff_bounded g p fun q => (g.cell q).isEnd).symm)

theorem findPositions_fst_of_uniqueStart {g : Grid} {p : Pos} (h : UniqueStart g p) :
    (findPositions g).1 = p := by
  obtain ⟨h1, h2, h3⟩ := h
  exact foldl_scanFlag_unique _ _ p (mem_allPositions.mpr h1) h2
    fun q hq hfq => h3 q (mem_allPositions.mp hq) hfq

theorem findPositions_snd_of_uniqueEnd {g : Grid} {p : Pos} (h : UniqueEnd g p) :
    (findPositions g).2 = p := by
  obtain ⟨h1, h2, h3⟩ := h
  exact foldl_scanFlag_unique _ _ p (mem_allPositions.mpr h1) h2
    fun q hq hfq => h3 q (mem_allPositions.mp hq) hfq

theorem findPositions_fst_inBounds {g : Grid} (hr : 1 ≤ g.rows) (hc : 1 ≤ g.cols) :
    inBounds g (findPositions g).1 := by
  rcases foldl_scanFlag_cases (f := fun p => (g.cell p).isStart)
      (allPositions g.rows g.cols) (0, 0) with h | h
  · rw [show (findPositions g).1 =
      (allPositions g.rows g.cols).foldl (scanFlag fun p => (g.cell p).isStart) (0, 0) from rfl, h]
    rw [inBounds_mk]
    omega
  · exact mem_allPositions.mp h.1

theorem foldl_scanFlag_of_exists {f : Pos → Bool} :
    ∀ (l : List Pos) (acc : Pos), (∃ q ∈ l, f q = true) →
      f (l.foldl (scanFlag f) acc) = true := by
  intro l
  induction l with
  | nil => rintro acc ⟨q, hq, _⟩; simp at hq
  | cons a t ih =>
    intro acc h
    simp only [List.foldl_cons]
    by_cases ht : ∃ q ∈ t, f q = true
    · exact ih _ ht
    · obtain ⟨q, hq, hfq⟩ := h
      have hqa : q = a := by
        rcases List.mem_cons.mp hq with h | h
        · exact h
        · exact absurd ⟨q, h, hfq⟩ ht
      subst hqa
      have hnone : ∀ x ∈ t, f x = false := by
        intro x hx
        by_contra hc
        exact ht ⟨x, hx, by simpa using hc⟩
      rw [foldl_scanFlag_of_none t _ hnone]
      simp [scanFlag, hfq]

theorem findPositions_fst_isStart {g : Grid}
    (h : ∃ p, inBounds g p ∧ (g.cell p).isStart = true) :
    (g.cell (findPositions g).1).isStart = true := by
  obtain ⟨p, hp, hs⟩ := h
  exact foldl_scanFlag_of_exists (f := fun q => (g.cell q).isStart) _ _
    ⟨p, mem_allPositions.mpr hp, hs⟩

theorem findPositions_snd_isEnd {g : Grid}
    (h : ∃ p, inBounds g p ∧ (g.cell p).isEnd = true) :
    (g.cell (findPositions g).2).isEnd = true := by
  obtain ⟨p, hp, hs⟩ := h
  exact foldl_scanFlag_of_exists (f := fun q => (g.cell q).isEnd) _ _
    ⟨p, mem_allPositions.mpr hp, hs⟩

/-! ### List swap helper (for the Fisher-Yates-style direction shuffles) -/

/-- Swap the entries at indices `i` and `j`; identity when an index is out
of range (the source always swaps in range).  Transcribes
`[d[i], d[r]] = [d[r], d[i]]`. -/
def swapIdx (l : List Nat) (i j : Nat) : List Nat :=
  match l.get? i, l.get? j with
  | some a, some b => (l.set i b).set j a
  | _, _ => l

theorem cons_set_perm {α : Type} :
    ∀ (t : List α) (m : Nat) (hm : m < t.length) (b : α),
      (t.get ⟨m, hm⟩ :: t.set m b).Perm (b :: t) := by
  intro t
  induction t with
  | nil => intro m hm; simp at hm
  | cons c r ih =>
    intro m hm b
    cases m with
    | zero => simpa using List.Perm.swap b c r
    | succ m =>
      have hm2 : m < r.length := by simpa using hm
      have step1 : (r.get ⟨m, hm2⟩ :: c :: r.set m b).Perm (c :: r.get ⟨m, hm2⟩ :: r.set m b) :=
        List.Perm.swap c _ _
      have step2 : (c :: r.get ⟨m, hm2⟩ :: r.set m b).Perm (c :: b :: r) :=
        (ih m hm2 b).cons c
      have step3 : (c :: b :: r).Perm (b :: c :: r) := List.Perm.swap b c r
      simpa using (step1.trans step2).trans step3

theorem set_set_perm {α : Type} :
    ∀ (l : List α) (i j : Nat) (hi : i < l.length) (hj : j < l.length),
      ((l.set i (l.get ⟨j, hj⟩)).set j (l.get ⟨i, hi⟩)).Perm l := by
  intro l
  induction l with
  | nil => intro i j hi; simp at hi
  | cons a t ih =>
    intro i j hi hj
    cases i with
    | zero =>
      cases j with
      | zero => simp
      | succ m =>
        have hm : m < t.length := by simpa using hj
        simpa using cons_set_perm t m hm a
    | succ k =>
      cases j with
      | zero =>
        have hk : k < t.length := by simpa using hi
        simpa using cons_set_perm t k hk a
      | succ m =>
        have hk : k < t.length := by simpa using hi
        have hm : m < t.length := by simpa using hj
        simpa using (ih k m hk hm).cons a

theorem swapIdx_perm (l : List Nat) (i j : Nat) : (swapIdx l i j).Perm l := by
  unfold swapIdx
  cases hi : l.get? i with
  | none => simp
  | some a =>
    cases hj : l.get? j with
    | none => simp
    | some b =>
      simp only []
      have hi2 : i < l.length := List.get?_eq_some.mp hi |>.1
      have hj2 : j < l.length := List.get?_eq_some.mp hj |>.1
      have ha : l.get ⟨i, hi2⟩ = a := List.get?_eq_some.mp hi |>.2
      have hb : l.get ⟨j, hj2⟩ = b := List.get?_eq_some.mp hj |>.2
      rw [← ha, ← hb]
      exact set_set_perm l i j hi2 hj2

/-- Direction shuffle of `runDFS` / `carvePath`: four sequential swaps with
random partners, transcribing the `for` loop over `[0, 1, 2, 3]`.  The
k-th `Math.random()` draw is `σ k`. -/
def shuffleDirs (σ : Nat → Nat) (k : Nat) : List Nat :=
  (List.range 4).foldl (fun acc i => swapIdx acc i (σ (k + i) % 4)) [0, 1, 2, 3]

theorem shuffleDirs_perm (σ : Nat → Nat) (k : Nat) :
    (shuffleDirs σ k).Perm [0, 1, 2, 3] := by
  unfold shuffleDirs
  have : ∀ (idxs : List Nat) (acc : List Nat),
      (idxs.foldl (fun acc i => swapIdx acc i (σ (k + i) % 4)) acc).Perm acc := by
    intro idxs
    induction idxs with
    | nil => intro acc; exact List.Perm.refl acc
    | cons a t ih =>
      intro acc
      exact (ih _).trans (swapIdx_perm acc a _)
  exact this _ _

theorem mem_shuffleDirs {σ : Nat → Nat} {k d : Nat} :
    d ∈ shuffleDirs σ k ↔ d ∈ [0, 1, 2, 3] :=
  (shuffleDirs_perm σ k).mem_iff

/-! ### Metrics, snapshots and grid-frame predicates

The `executionTime` field (wall-clock milliseconds from
`performance.now()`) is dropped from the metrics records: it influences
no other state and no claim mentions it. -/

/-- Embedding of `AlgorithmMetrics` (`algorithms.ts` lines 6-11). -/
structure AlgorithmMetrics where
  nodesVisited : Nat
  pathLength : Nat
  isPathFound : Bool
deriving DecidableEq, Repr

/-- One `onStep` callback invocation.  `gridFresh` records whether the
source passes a `cloneGrid(...)` result (a freshly allocated deep copy,
`true`) or the caller's own `initialGrid` object (`false`). -/
structure StepSnapshot (M : Type) where
  gridFresh : Bool
  grid : Grid
  metrics : M

/-- Value returned by an engine: the final metrics, the engine's working
grid at return time, and every snapshot emitted through `onStep`. -/
structure RunResult (M : Type) where
  metrics : M
  grid : Grid
  snapshots : List (StepSnapshot M)

/-- Embedding of `cloneGrid` (`algorithms.ts` lines 57-59): the spread
copy rebuilds every cell with identical field values, so on values it is
the identity; the freshness of the allocation is recorded separately by
`StepSnapshot.gridFresh`. -/
def cloneGrid (g : Grid) : Grid :=
  { rows := g.rows, cols := g.cols, cell := fun p => g.cell p }

theorem cloneGrid_eq (g : Grid) : cloneGrid g = g := rfl

/-- Dimensions, walls and the start/end flags of `h` agree with `g`
(the engines only ever touch `isVisited` and `isPath`). -/
def FlagsEq (g h : Grid) : Prop :=
  h.rows = g.rows ∧ h.cols = g.cols ∧
  (∀ p, (h.cell p).isWall = (g.cell p).isWall) ∧
  (∀ p, (h.cell p).isStart = (g.cell p).isStart) ∧
  (∀ p, (h.cell p).isEnd = (g.cell p).isEnd)

/-- The `isPath` annotations of `h` agree with `g`. -/
def PathsEq (g h : Grid) : Prop :=
  ∀ p, (h.cell p).isPath = (g.cell p).isPath

/-- Any `isPath` mark of `h` that is not inherited from `g` sits on a
non-wall cell. -/
def PathSafe (g h : Grid) : Prop :=
  ∀ p, (h.cell p).isPath = true → (g.cell p).isPath = true ∨ (h.cell p).isWall = false

theorem flagsEq_refl (g : Grid) : FlagsEq g g :=
  ⟨rfl, rfl, fun _ => rfl, fun _ => rfl, fun _ => rfl⟩

theorem flagsEq_trans {g h k : Grid} (h1 : FlagsEq g h) (h2 : FlagsEq h k) : FlagsEq g k :=
  ⟨h2.1.trans h1.1, h2.2.1.trans h1.2.1,
   fun p => (h2.2.2.1 p).trans (h1.2.2.1 p),
   fun p => (h2.2.2.2.1 p).trans (h1.2.2.2.1 p),
   fun p => (h2.2.2.2.2 p).trans (h1.2.2.2.2 p)⟩

theorem pathsEq_pathSafe {g h : Grid} (h1 : PathsEq g h) : PathSafe g h :=
  fun p hp => .inl ((h1 p).symm.trans hp)

theorem setCell_rows (g : Grid) (p : Pos) (c : Cell) : (setCell g p c).rows = g.rows := rfl

theorem setCell_cols (g : Grid) (p : Pos) (c : Cell) : (setCell g p c).cols = g.cols := rfl

theorem setCell_cell_self (g : Grid) (p : Pos) (c : Cell) : (setCell g p c).cell p = c := by
  simp [setCell]

theorem setCell_cell_other (g : Grid) {p q : Pos} (hne : q ≠ p) (c : Cell) :
    (setCell g p c).cell q = g.cell q := by
  simp [setCell, hne]

/-- Marking of the current cell, transcribing
`if (!grid[r][c].isStart && !grid[r][c].isEnd) grid[r][c].isVisited = true`. -/
def markVisitedAt (g : Grid) (p : Pos) : Grid :=
  if (g.cell p).isStart = false ∧ (g.cell p).isEnd = false then setVisited g p true else g

theorem markVisitedAt_flagsEq (g : Grid) (p : Pos) : FlagsEq g (markVisitedAt g p) := by
  unfold markVisitedAt
  split
  · refine ⟨rfl, rfl, ?_, ?_, ?_⟩ <;> intro q <;> unfold setVisited <;>
      by_cases hq : q = p
    · subst hq; rw [setCell_cell_self]
    · rw [setCell_cell_other g hq]
    · subst hq; rw [setCell_cell_self]
    · rw [setCell_cell_other g hq]
    · subst hq; rw [setCell_cell_self]
    · rw [setCell_cell_other g hq]
  · exact flagsEq_refl g

theorem markVisitedAt_pathsEq (g : Grid) (p : Pos) : PathsEq g (markVisitedAt g p) := by
  unfold markVisitedAt
  split
  · intro q
    unfold setVisited
    by_cases hq : q = p
    · subst hq; rw [setCell_cell_self]
    · rw [setCell_cell_other g hq]
  · intro q; rfl

/-- Path marking loop shared by the engines, transcribing
`for ([r, c] of path) if (!isStart && !isEnd) isPath = true`. -/
def markPathList (g : Grid) (l : List Pos) : Grid :=
  l.foldl (fun gg p =>
    if (gg.cell p).isStart = false ∧ (gg.cell p).isEnd = false then setPath gg p true else gg) g

theorem setPath_flagsEq (g : Grid) (p : Pos) (b : Bool) : FlagsEq g (setPath g p b) := by
  refine ⟨rfl, rfl, ?_, ?_, ?_⟩ <;> intro q <;> unfold setPath <;> by_cases hq : q = p
  · subst hq; rw [setCell_cell_self]
  · rw [setCell_cell_other g hq]
  · subst hq; rw [setCell_cell_self]
  · rw [setCell_cell_other g hq]
  · subst hq; rw [setCell_cell_self]
  · rw [setCell_cell_other g hq]

theorem markPathList_flagsEq (g : Grid) (l : List Pos) : FlagsEq g (markPathList g l) := by
  unfold markPathList
  induction l generalizing g with
  | nil => exact flagsEq_refl g
  | cons a t ih =>
    rw [List.foldl_cons]
    split
    · exact flagsEq_trans (setPath_flagsEq g a true) (ih (setPath g a true))
    · exact ih g

theorem markPathList_path_iff (g : Grid) (l : List Pos) (p : Pos) :
    ((markPathList g l).cell p).isPath = true ↔
      (g.cell p).isPath = true ∨
        (p ∈ l ∧ (g.cell p).isStart = false ∧ (g.cell p).isEnd = false) := by
  unfold markPathList
  induction l generalizing g with
  | nil => simp
  | cons a t ih =>
    rw [List.foldl_cons]
    have hflag : ∀ q, ((setPath g a true).cell q).isStart = (g.cell q).isStart ∧
        ((setPath g a true).cell q).isEnd = (g.cell q).isEnd := by
      intro q
      have := setPath_flagsEq g a true
      exact ⟨this.2.2.2.1 q, this.2.2.2.2 q⟩
    split
    · rename_i hcond
      rw [ih (setPath g a true)]
      constructor
      · rintro (hp | ⟨hmem, hs, he⟩)
        · by_cases hpa : p = a
          · subst hpa
            exact .inr ⟨by simp, hcond.1, hcond.2⟩
          · rw [setPath, setCell_cell_other g hpa] at hp
            exact .inl hp
        · exact .inr ⟨by simp [hmem], ((hflag p).1) ▸ hs, ((hflag p).2) ▸ he⟩
      · rintro (hp | ⟨hmem, hs, he⟩)
        · left
          by_cases hpa : p = a
          · subst hpa; rw [setPath, setCell_cell_self]
          · rw [setPath, setCell_cell_other g hpa]; exact hp
        · by_cases hpa : p = a
          · subst hpa
            left
            rw [setPath, setCell_cell_self]
          · have hpt : p ∈ t := by
              rcases List.mem_cons.mp hmem with h | h
              · exact absurd h hpa
              · exact h
            exact .inr ⟨hpt, ((hflag p).1).symm ▸ hs, ((hflag p).2).symm ▸ he⟩
    · rename_i hcond
      rw [ih g]
      constructor
      · rintro (hp | hmem)
        · exact .inl hp
        · exact .inr ⟨by simp [hmem.1], hmem.2⟩
      · rintro (hp | ⟨hmem, hs, he⟩)
        · exact .inl hp
        · rcases List.mem_cons.mp hmem with h | h
          · subst h
            exact absurd ⟨hs, he⟩ hcond
          · exact .inr ⟨h, hs, he⟩

/-! ### Step inversions and congruence -/

theorem stepsTo_zero {g : Grid} {s u : Pos} (h : StepsTo g s u 0) : u = s := by
  cases h; rfl

theorem stepsTo_succ_inv {g : Grid} {s u : Pos} {n : Nat} (h : StepsTo g s u (n + 1)) :
    ∃ z, StepsTo g s z n ∧ gstep g z u := by
  cases h with
  | tail hz hq => exact ⟨_, hz, hq⟩

theorem gstep_exists_dir {g : Grid} {p q : Pos} (h : gstep g p q) :
    ∃ d ∈ [0, 1, 2, 3], q = stepPos p d := by
  obtain ⟨⟨d, hd⟩, _, _⟩ := h
  exact ⟨d.val, by have := d.isLt; interval_cases h2 : d.val <;> simp, hd⟩

theorem gstep_congr {g h : Grid} (hf : FlagsEq g h) (p q : Pos) :
    gstep h p q ↔ gstep g p q := by
  unfold gstep
  have hb : inBounds h q ↔ inBounds g q := by
    unfold inBounds
    rw [hf.1, hf.2.1]
  rw [hb, hf.2.2.1 q]

/-! ### BFS and DFS engines (`algorithms.ts` lines 62-264)

Both engines carry `(row, col, path)` entries; BFS pops from the front
of a FIFO queue and pushes at the back, DFS pops the most recently
pushed entry.  The frontier is a `List` whose head is the next entry to
be popped: BFS appends new entries at the end, DFS prepends them (the
JavaScript `push`/`pop` pair works at the array end, so entries pushed
later are popped earlier, which the reversed prepend reproduces). -/

/-- Neighbour expansion loop shared by DFS and BFS: for each direction in
`ds`, check bounds, wall and the visited array, then mark-and-collect.
Transcribes the `for (dir of directions)` loops. -/
def expandNeighbors (g : Grid) (vis : Pos → Bool) (v : Pos) (p : List Pos) :
    List Nat → ((Pos → Bool) × List (Pos × List Pos))
  | [] => (vis, [])
  | d :: ds =>
    let q := stepPos v d
    if inBounds g q ∧ (g.cell q).isWall = false ∧ vis q = false then
      let r2 := expandNeighbors g (fun x => if x = q then true else vis x) v p ds
      (r2.1, (q, p ++ [q]) :: r2.2)
    else
      expandNeighbors g vis v p ds

/-- Complete behavioural description of `expandNeighbors`: the pushed
cells `ws` are fresh, distinct, legal moves; the visited array gains
exactly `ws`; and every legal neighbour in a tried direction is visited
afterwards. -/
theorem expandNeighbors_spec (g : Grid) (v : Pos) (p : List Pos) :
    ∀ (ds : List Nat) (vis : Pos → Bool), (∀ d ∈ ds, d < 4) →
      ∃ ws : List Pos,
        (expandNeighbors g vis v p ds).2 = ws.map (fun w => (w, p ++ [w])) ∧
        ws.Nodup ∧
        (∀ w ∈ ws, gstep g v w ∧ vis w = false) ∧
        (∀ x, (expandNeighbors g vis v p ds).1 x = (vis x || decide (x ∈ ws))) ∧
        (∀ d ∈ ds, gstep g v (stepPos v d) →
          (expandNeighbors g vis v p ds).1 (stepPos v d) = true) := by
  intro ds
  induction ds with
  | nil =>
    intro vis _
    refine ⟨[], rfl, List.nodup_nil, by simp, ?_, by simp⟩
    intro x
    unfold expandNeighbors
    simp
  | cons d ds ih =>
    intro vis hd4
    by_cases hc : inBounds g (stepPos v d) ∧ (g.cell (stepPos v d)).isWall = false ∧
        vis (stepPos v d) = false
    · obtain ⟨ws, h1, h2, h3, h4, h5⟩ :=
        ih (fun x => if x = stepPos v d then true else vis x)
          (fun x hx => hd4 x (List.mem_cons_of_mem d hx))
      have hq : gstep g v (stepPos v d) :=
        ⟨⟨⟨d, hd4 d (by simp)⟩, rfl⟩, hc.1, hc.2.1⟩
      have hqws : stepPos v d ∉ ws := by
        intro hmem
        have := (h3 _ hmem).2
        simp at this
      have heq : expandNeighbors g vis v p (d :: ds) =
          ((expandNeighbors g (fun x => if x = stepPos v d then true else vis x) v p ds).1,
           (stepPos v d, p ++ [stepPos v d]) ::
             (expandNeighbors g (fun x => if x = stepPos v d then true else vis x) v p ds).2) := by
        simp only [expandNeighbors]
        rw [if_pos hc]
      refine ⟨stepPos v d :: ws, ?_, ?_, ?_, ?_, ?_⟩
      · rw [heq, h1]; rfl
      · exact List.nodup_cons.mpr ⟨hqws, h2⟩
      · intro w hw
        rcases List.mem_cons.mp hw with hwq | hwm
        · subst hwq; exact ⟨hq, hc.2.2⟩
        · refine ⟨(h3 w hwm).1, ?_⟩
          have := (h3 w hwm).2
          by_cases hwq : w = stepPos v d
          · rw [hwq] at this; simp at this
          · simpa [hwq] using this
      · intro x
        rw [heq]
        rw [h4 x]
        by_cases hx : x = stepPos v d
        · subst hx
          simp
        · simp [hx]
      · intro d2 hd2 hg2
        rcases List.mem_cons.mp hd2 with hdd | hdm
        · subst hdd
          rw [heq, h4]
          simp
        · rw [heq]
          exact h5 d2 hdm hg2
    · have heq : expandNeighbors g vis v p (d :: ds) = expandNeighbors g vis v p ds := by
        simp only [expandNeighbors]
        rw [if_neg hc]
      obtain ⟨ws, h1, h2, h3, h4, h5⟩ :=
        ih vis (fun x hx => hd4 x (List.mem_cons_of_mem d hx))
      refine ⟨ws, by rw [heq]; exact h1, h2, h3, by rw [heq]; exact h4, ?_⟩
      intro d2 hd2 hg2
      rcases List.mem_cons.mp hd2 with hdd | hdm
      · subst hdd
        obtain ⟨_, hb, hw⟩ := hg2
        have hv : vis (stepPos v d2) = true := by
          by_contra hv
          exact hc ⟨hb, hw, by simpa using hv⟩
        rw [heq, h4]
        simp [hv]
      · rw [heq]
        exact h5 d2 hdm hg2

/-- State of the BFS / DFS loops. -/
structure SearchState where
  grid : Grid
  frontier : List (Pos × List Pos)
  visited : Pos → Bool
  metrics : AlgorithmMetrics
  snaps : List (StepSnapshot AlgorithmMetrics)

/-- Terminal result when the frontier is exhausted (`No path found`). -/
def finalizeNotFound (st : SearchState) : RunResult AlgorithmMetrics :=
  { metrics := { st.metrics with isPathFound := false },
    grid := st.grid,
    snapshots := st.snaps ++
      [⟨true, cloneGrid st.grid, { st.metrics with isPathFound := false }⟩] }

/-- Terminal result when the end cell is popped: the current cell was
already marked and counted and its snapshot emitted, then the carried
path is marked and a final snapshot emitted. -/
def finalizeFound (st : SearchState) (v : Pos) (p : List Pos) : RunResult AlgorithmMetrics :=
  let g1 := markVisitedAt st.grid v
  let m1 := { st.metrics with nodesVisited := st.metrics.nodesVisited + 1 }
  let sn1 := st.snaps ++ [⟨true, cloneGrid g1, m1⟩]
  let g2 := markPathList g1 p
  let m2 := { m1 with isPathFound := true, pathLength := p.length - 1 }
  { metrics := m2, grid := g2, snapshots := sn1 ++ [⟨true, cloneGrid g2, m2⟩] }

/-- Loop of `runBFS` (`algorithms.ts` lines 195-252), on fuel.  Each
iteration: shift the front entry, mark it visited on the grid (unless
start/end), count it, emit a snapshot, test `isEnd`, otherwise push the
unvisited legal neighbours in the fixed order up, right, down, left at
the back of the queue. -/
def bfsGo : Nat → SearchState → Option (RunResult AlgorithmMetrics)
  | 0, _ => none
  | fuel + 1, st =>
    match st.frontier with
    | [] => some (finalizeNotFound st)
    | (v, p) :: rest =>
      let g1 := markVisitedAt st.grid v
      let m1 := { st.metrics with nodesVisited := st.metrics.nodesVisited + 1 }
      let sn1 := st.snaps ++ [⟨true, cloneGrid g1, m1⟩]
      if (g1.cell v).isEnd = true then
        some (finalizeFound st v p)
      else
        let ex := expandNeighbors g1 st.visited v p [0, 1, 2, 3]
        bfsGo fuel
          { grid := g1,
            frontier := rest ++ ex.2,
            visited := ex.1,
            metrics := m1,
            snaps := sn1 }

/-- Number of in-bounds cells not yet in the visited array. -/
def unvisitedCard (g : Grid) (vis : Pos → Bool) : Nat :=
  ((boundsFinset g).filter fun p => vis p = false).card

/-- Potential of a search state: strictly decreases every iteration. -/
def searchPot (g0 : Grid) (st : SearchState) : Nat :=
  unvisitedCard g0 st.visited + st.frontier.length

theorem unvisitedCard_expand {g0 : Grid} {vis vis2 : Pos → Bool} {ws : List Pos}
    (hpt : ∀ x, vis2 x = (vis x || decide (x ∈ ws)))
    (hnd : ws.Nodup) (hfresh : ∀ w ∈ ws, vis w = false)
    (hbd : ∀ w ∈ ws, inBounds g0 w) :
    unvisitedCard g0 vis2 + ws.length = unvisitedCard g0 vis := by
  classical
  unfold unvisitedCard
  have hset : ((boundsFinset g0).filter fun p => vis2 p = false) =
      ((boundsFinset g0).filter fun p => vis p = false) \ ws.toFinset := by
    ext x
    simp only [Finset.mem_filter, Finset.mem_sdiff, List.mem_toFinset, hpt x]
    constructor
    · rintro ⟨hb, hv⟩
      simp only [Bool.or_eq_false_iff, decide_eq_false_iff_not] at hv
      exact ⟨⟨hb, hv.1⟩, hv.2⟩
    · rintro ⟨⟨hb, hv⟩, hw⟩
      refine ⟨hb, ?_⟩
      simp only [Bool.or_eq_false_iff, decide_eq_false_iff_not]
      exact ⟨hv, hw⟩
  have hsub : ws.toFinset ⊆ ((boundsFinset g0).filter fun p => vis p = false) := by
    intro x hx
    rw [List.mem_toFinset] at hx
    exact Finset.mem_filter.mpr ⟨mem_boundsFinset.mpr (hbd x hx), hfresh x hx⟩
  rw [hset, Finset.card_sdiff hsub, List.toFinset_card_of_nodup hnd]
  have hle : ws.length ≤ ((boundsFinset g0).filter fun p => vis p = false).card := by
    rw [← List.toFinset_card_of_nodup hnd]
    exact Finset.card_le_card hsub
  omega

theorem inBounds_of_dims {g h : Grid} (hr : h.rows = g.rows) (hc : h.cols = g.cols)
    (p : Pos) : inBounds h p ↔ inBounds g p := by
  unfold inBounds
  rw [hr, hc]

/-- Fuel for the traversal loops: one more than the largest possible
potential, so the loop always completes. -/
def bfsFuel (g : Grid) : Nat := g.rows * g.cols + 2

/-- Embedding of `runBFS` (`algorithms.ts` lines 168-264). -/
def runBFS (g0 : Grid) : RunResult AlgorithmMetrics :=
  let g := cloneGrid g0
  let s := (findPositions g).1
  let st0 : SearchState :=
    { grid := g,
      frontier := [(s, [s])],
      visited := fun x => decide (x = s),
      metrics := ⟨0, 0, false⟩,
      snaps := [] }
  match bfsGo (bfsFuel g) st0 with
  | some r => r
  | none => finalizeNotFound st0

theorem bfsGo_isSome (g0 : Grid) :
    ∀ (fuel : Nat) (st : SearchState), st.grid.rows = g0.rows → st.grid.cols = g0.cols →
      searchPot g0 st < fuel → (bfsGo fuel st).isSome := by
  intro fuel
  induction fuel with
  | zero => intro st _ _ h; omega
  | succ fuel ih =>
    intro st hr hc hpot
    cases hf : st.frontier with
    | nil => simp [bfsGo, hf]
    | cons e rest =>
      obtain ⟨v, p⟩ := e
      by_cases hend : ((markVisitedAt st.grid v).cell v).isEnd = true
      · simp [bfsGo, hf, hend]
      · have hflags := markVisitedAt_flagsEq st.grid v
        obtain ⟨ws, h1, h2, h3, h4, h5⟩ :=
          expandNeighbors_spec (markVisitedAt st.grid v) v p [0, 1, 2, 3] st.visited
            (by intro d hd; fin_cases hd <;> norm_num)
        have hbd : ∀ w ∈ ws, inBounds g0 w := by
          intro w hw
          have := (h3 w hw).1.2.1
          rw [inBounds_of_dims (hflags.1.trans hr) (hflags.2.1.trans hc)] at this
          exact this
        have hcard := unvisitedCard_expand h4 h2 (fun w hw => (h3 w hw).2) hbd
        have hlen : (expandNeighbors (markVisitedAt st.grid v) st.visited v p [0, 1, 2, 3]).2.length
            = ws.length := by
          rw [h1, List.length_map]
        have hgoal : bfsGo (fuel + 1) st = bfsGo fuel
            { grid := markVisitedAt st.grid v,
              frontier := rest ++
                (expandNeighbors (markVisitedAt st.grid v) st.visited v p [0, 1, 2, 3]).2,
              visited := (expandNeighbors (markVisitedAt st.grid v) st.visited v p [0, 1, 2, 3]).1,
              metrics := { st.metrics with nodesVisited := st.metrics.nodesVisited + 1 },
              snaps := st.snaps ++ [⟨true, cloneGrid (markVisitedAt st.grid v),
                { st.metrics with nodesVisited := st.metrics.nodesVisited + 1 }⟩] } := by
          conv_lhs => rw [bfsGo]
          rw [hf]
          simp only [hend, Bool.false_eq_true, if_false]
        rw [hgoal]
        apply ih _ (hflags.1.trans hr) (hflags.2.1.trans hc)
        unfold searchPot at hpot ⊢
        rw [hf] at hpot
        simp only [List.length_cons] at hpot
        simp only [List.length_append, hlen]
        omega

theorem runBFS_eq_go (g0 : Grid) (hsome : (bfsGo (bfsFuel (cloneGrid g0))
    { grid := cloneGrid g0,
      frontier := [((findPositions (cloneGrid g0)).1, [(findPositions (cloneGrid g0)).1])],
      visited := fun x => decide (x = (findPositions (cloneGrid g0)).1),
      metrics := ⟨0, 0, false⟩,
      snaps := [] }).isSome) :
    some (runBFS g0) = bfsGo (bfsFuel (cloneGrid g0))
      { grid := cloneGrid g0,
        frontier := [((findPositions (cloneGrid g0)).1, [(findPositions (cloneGrid g0)).1])],
        visited := fun x => decide (x = (findPositions (cloneGrid g0)).1),
        metrics := ⟨0, 0, false⟩,
        snaps := [] } := by
  unfold runBFS
  cases hgo : bfsGo (bfsFuel (cloneGrid g0))
      { grid := cloneGrid g0,
        frontier := [((findPositions (cloneGrid g0)).1, [(findPositions (cloneGrid g0)).1])],
        visited := fun x => decide (x = (findPositions (cloneGrid g0)).1),
        metrics := ⟨0, 0, false⟩,
        snaps := [] } with
  | none => rw [hgo] at hsome; simp at hsome
  | some r => simp [hgo]

theorem visitedCard_expand {g0 : Grid} {vis vis2 : Pos → Bool} {ws : List Pos}
    (hpt : ∀ x, vis2 x = (vis x || decide (x ∈ ws)))
    (hnd : ws.Nodup) (hfresh : ∀ w ∈ ws, vis w = false)
    (hbd : ∀ w ∈ ws, inBounds g0 w) :
    ((boundsFinset g0).filter fun p => vis2 p = true).card =
      ((boundsFinset g0).filter fun p => vis p = true).card + ws.length := by
  classical
  have hset : ((boundsFinset g0).filter fun p => vis2 p = true) =
      ((boundsFinset g0).filter fun p => vis p = true) ∪ ws.toFinset := by
    ext x
    simp only [Finset.mem_filter, Finset.mem_union, List.mem_toFinset, hpt x,
      Bool.or_eq_true, decide_eq_true_eq]
    constructor
    · rintro ⟨hb, hv | hw⟩
      · exact .inl ⟨hb, hv⟩
      · exact .inr hw
    · rintro (⟨hb, hv⟩ | hw)
      · exact ⟨hb, .inl hv⟩
      · exact ⟨mem_boundsFinset.mpr (hbd x hw), .inr hw⟩
  have hdis : Disjoint ((boundsFinset g0).filter fun p => vis p = true) ws.toFinset := by
    rw [Finset.disjoint_left]
    intro x hx hxw
    rw [List.mem_toFinset] at hxw
    have := hfresh x hxw
    have := (Finset.mem_filter.mp hx).2
    simp_all
  rw [hset, Finset.card_union_of_disjoint hdis, List.toFinset_card_of_nodup hnd]

theorem validChain_length_pos {g : Grid} {s : Pos} {l : List Pos} (h : ValidChain g s l) :
    1 ≤ l.length := by
  cases l with
  | nil => simp [ValidChain] at h
  | cons a t => simp

theorem chain_tail_nonwall {g : Grid} :
    ∀ (l : List Pos), l.Chain' (gstep g) → ∀ q ∈ l.tail, (g.cell q).isWall = false := by
  intro l
  induction l with
  | nil => intro _ q hq; simp at hq
  | cons a t ih =>
    intro hch q hq
    cases t with
    | nil => simp at hq
    | cons b r =>
      rw [List.chain'_cons] at hch
      simp only [List.tail_cons] at hq
      rcases List.mem_cons.mp hq with hqb | hqr
      · subst hqb
        exact hch.1.2.2
      · exact ih hch.2 q (by simpa using hqr)

theorem validChain_mem_cases {g : Grid} {s : Pos} {l : List Pos} (h : ValidChain g s l)
    {q : Pos} (hq : q ∈ l) : q = s ∨ (g.cell q).isWall = false := by
  obtain ⟨h1, h2⟩ := h
  cases l with
  | nil => simp at hq
  | cons a t =>
    have ha : a = s := by simpa using h1
    rcases List.mem_cons.mp hq with hqa | hqt
    · exact .inl (hqa.trans ha)
    · exact .inr (chain_tail_nonwall (a :: t) h2 q (by simpa using hqt))

/-- Number of non-wall cells of a grid. -/
def nonWallCount (g : Grid) : Nat :=
  ((boundsFinset g).filter fun p => (g.cell p).isWall = false).card

theorem nonWallCount_le (g : Grid) : nonWallCount g ≤ g.rows * g.cols := by
  rw [← boundsFinset_card g]
  exact Finset.card_filter_le _ _

theorem sorted_head_le {l : List (Pos × List Pos)}
    (hs : (l.map fun e => e.2.length).Sorted (· ≤ ·))
    {e0 : Pos × List Pos} (h0 : l.head? = some e0)
    {e : Pos × List Pos} (he : e ∈ l) : e0.2.length ≤ e.2.length := by
  cases l with
  | nil => simp at h0
  | cons a t =>
    have ha : e0 = a := by simpa using h0.symm
    subst ha
    rcases List.mem_cons.mp he with h | h
    · rw [h]
    · rw [List.map_cons, List.sorted_cons] at hs
      exact hs.1 _ (List.mem_map_of_mem _ h)

theorem pairwise_const_le {α : Type} (l : List α) (c : Nat) :
    (l.map fun _ => c).Pairwise (· ≤ ·) := by
  induction l with
  | nil => simp
  | cons a t ih =>
    rw [List.map_cons, List.pairwise_cons]
    exact ⟨fun b hb => by
      obtain ⟨x, _, rfl⟩ := List.mem_map.mp hb
      exact le_refl c, ih⟩

/-- Start-safety side condition under which the path-marking loop can
never paint a wall: the cell the search departs from is either flagged
as the start (so the marking guard skips it) or not a wall. -/
def StartSafe (g0 : Grid) (s : Pos) : Prop :=
  (g0.cell s).isStart = true ∨ (g0.cell s).isWall = false

/-- Loop invariant of the BFS queue (`runBFS`).

* every queue entry carries a valid chain from `s` ending at its cell,
  of minimal length among all walks to that cell, and its cell is in the
  visited array;
* entry path lengths are non-decreasing along the queue and never exceed
  the front length plus one;
* a visited cell that is no longer queued has had all its legal
  neighbours visited (it was fully expanded);
* every cell within the front entry's distance of `s` is already
  visited;
* `nodesVisited` plus the queue length equals the number of visited
  cells (each cell is counted at most once);
* visited cells are in bounds and non-wall (except possibly `s`);
* every emitted snapshot was a fresh clone whose walls and flags agree
  with the input grid, with `isPath` marks only on non-wall cells. -/
structure BfsInv (g0 : Grid) (s : Pos) (st : SearchState) : Prop where
  flags : FlagsEq g0 st.grid
  paths : PathsEq g0 st.grid
  entries : ∀ e ∈ st.frontier, ValidChain g0 s e.2 ∧ e.2.getLast? = some e.1 ∧
    (∀ m, StepsTo g0 s e.1 m → e.2.length ≤ m + 1) ∧ st.visited e.1 = true
  sorted : (st.frontier.map fun e => e.2.length).Sorted (· ≤ ·)
  headBound : ∀ e ∈ st.frontier, ∀ e0 ∈ st.frontier.head?, e.2.length ≤ e0.2.length + 1
  closure : ∀ u, st.visited u = true → (∀ e ∈ st.frontier, e.1 ≠ u) →
    ∀ w, gstep g0 u w → st.visited w = true
  level : ∀ e0 ∈ st.frontier.head?, ∀ u m, StepsTo g0 s u m → m + 1 ≤ e0.2.length →
    st.visited u = true
  startVis : st.visited s = true
  counting : st.metrics.nodesVisited + st.frontier.length =
    ((boundsFinset g0).filter fun p => st.visited p = true).card
  visOk : ∀ p, st.visited p = true → inBounds g0 p ∧ ((g0.cell p).isWall = false ∨ p = s)
  snapsOk : ∀ sn ∈ st.snaps, sn.gridFresh = true ∧ FlagsEq g0 sn.grid ∧
    (StartSafe g0 s → PathSafe g0 sn.grid)

/-- Everything the claims need of a finished BFS run from state `st`. -/
def BfsPost (g0 : Grid) (s : Pos) (st : SearchState) (r : RunResult AlgorithmMetrics) : Prop :=
  (r.metrics.isPathFound = true →
    ∀ epos, UniqueEnd g0 epos → IsLeast {n | StepsTo g0 s epos n} r.metrics.pathLength) ∧
  (∀ epos, (g0.cell epos).isEnd = true → Reach g0 s epos →
    (st.visited epos = true → ∃ e ∈ st.frontier, e.1 = epos) →
    r.metrics.isPathFound = true) ∧
  r.metrics.nodesVisited ≤ g0.rows * g0.cols ∧
  ((g0.cell s).isWall = false → r.metrics.nodesVisited ≤ nonWallCount g0) ∧
  FlagsEq g0 r.grid ∧
  (StartSafe g0 s → PathSafe g0 r.grid) ∧
  (∀ sn ∈ r.snapshots, sn.gridFresh = true ∧ FlagsEq g0 sn.grid ∧
    (StartSafe g0 s → PathSafe g0 sn.grid))

theorem visitedTrue_card_le (g0 : Grid) (s : Pos) (vis : Pos → Bool)
    (hvisOk : ∀ p, vis p = true → inBounds g0 p ∧ ((g0.cell p).isWall = false ∨ p = s)) :
    ((boundsFinset g0).filter fun p => vis p = true).card ≤ g0.rows * g0.cols ∧
    ((g0.cell s).isWall = false →
      ((boundsFinset g0).filter fun p => vis p = true).card ≤ nonWallCount g0) := by
  constructor
  · rw [← boundsFinset_card g0]
    exact Finset.card_filter_le _ _
  · intro hs
    unfold nonWallCount
    apply Finset.card_le_card
    intro q hq
    obtain ⟨hqb, hqv⟩ := Finset.mem_filter.mp hq
    refine Finset.mem_filter.mpr ⟨hqb, ?_⟩
    rcases (hvisOk q hqv).2 with h | h
    · exact h
    · rw [h]; exact hs

theorem bfsGo_master (g0 : Grid) (s : Pos) :
    ∀ (fuel : Nat) (st : SearchState), BfsInv g0 s st → searchPot g0 st < fuel →
      ∃ r, bfsGo fuel st = some r ∧ BfsPost g0 s st r := by
  intro fuel
  induction fuel with
  | zero => intro st _ h; omega
  | succ fuel ih =>
    intro st hinv hpot
    cases hf : st.frontier with
    | nil =>
      refine ⟨finalizeNotFound st, by rw [bfsGo, hf], ?_, ?_, ?_, ?_, ?_, ?_, ?_⟩
      · intro hfound
        simp [finalizeNotFound] at hfound
      · intro epos hflag hreach hcond
        exfalso
        have hall : ∀ {u n}, StepsTo g0 s u n → st.visited u = true := by
          intro u n h
          induction h with
          | refl => exact hinv.startVis
          | tail hz hq ihz =>
            exact hinv.closure _ ihz (by rw [hf]; intro e he; simp at he) _ hq
        obtain ⟨n, hn⟩ := hreach
        obtain ⟨e, he, _⟩ := hcond (hall hn)
        rw [hf] at he
        simp at he
      · have hcount := hinv.counting
        rw [hf] at hcount
        have hle := (visitedTrue_card_le g0 s st.visited hinv.visOk).1
        simp only [List.length_nil] at hcount
        show st.metrics.nodesVisited ≤ g0.rows * g0.cols
        omega
      · intro hs
        have hcount := hinv.counting
        rw [hf] at hcount
        have hle := (visitedTrue_card_le g0 s st.visited hinv.visOk).2 hs
        simp only [List.length_nil] at hcount
        show st.metrics.nodesVisited ≤ nonWallCount g0
        omega
      · exact hinv.flags
      · intro _
        exact pathsEq_pathSafe hinv.paths
      · intro sn hsn
        simp only [finalizeNotFound, List.mem_append, List.mem_singleton] at hsn
        rcases hsn with h | h
        · exact hinv.snapsOk sn h
        · subst h
          exact ⟨rfl, hinv.flags, fun _ => pathsEq_pathSafe hinv.paths⟩
    | cons e0 rest =>
      obtain ⟨v, p⟩ := e0
      have hFg1 : FlagsEq g0 (markVisitedAt st.grid v) :=
        flagsEq_trans hinv.flags (markVisitedAt_flagsEq st.grid v)
      have hPg1 : PathsEq g0 (markVisitedAt st.grid v) :=
        fun q => (markVisitedAt_pathsEq st.grid v q).trans (hinv.paths q)
      have hvmem : (v, p) ∈ st.frontier := by rw [hf]; exact List.mem_cons_self _ _
      have hentry := hinv.entries (v, p) hvmem
      have hplen : 1 ≤ p.length := validChain_length_pos hentry.1
      have hheadmem : (v, p) ∈ st.frontier.head? := by rw [hf]; rfl
      by_cases hend : ((markVisitedAt st.grid v).cell v).isEnd = true
      · -- the end cell is popped: terminal found state
        have hendg0 : (g0.cell v).isEnd = true := (hFg1.2.2.2.2 v).symm.trans hend
        have hFg2 : FlagsEq g0 (markPathList (markVisitedAt st.grid v) p) :=
          flagsEq_trans hFg1 (markPathList_flagsEq (markVisitedAt st.grid v) p)
        have hsafe2 : StartSafe g0 s →
            PathSafe g0 (markPathList (markVisitedAt st.grid v) p) := by
          intro hss q hq
          rw [markPathList_path_iff] at hq
          rcases hq with hq | ⟨hmem, hs1, he1⟩
          · exact .inl ((hPg1 q).symm.trans hq)
          · right
            rw [hFg2.2.2.1 q]
            rcases validChain_mem_cases hentry.1 hmem with hqs | hqw
            · subst hqs
              rcases hss with hss | hss
              · rw [hFg1.2.2.2.1 q, hss] at hs1
                simp at hs1
              · exact hss
            · exact hqw
        have hnv : st.metrics.nodesVisited + 1 ≤
            ((boundsFinset g0).filter fun q => st.visited q = true).card := by
          have hcount := hinv.counting
          rw [hf] at hcount
          simp only [List.length_cons] at hcount
          omega
        refine ⟨finalizeFound st v p, by rw [bfsGo, hf]; simp only [hend, if_true], ?_, ?_, ?_, ?_, ?_, ?_, ?_⟩
        · intro _ epos hue
          have hvb : inBounds g0 v := (hinv.visOk v hentry.2.2.2).1
          have hveq : v = epos := hue.2.2 v hvb hendg0
          subst hveq
          show IsLeast {n | StepsTo g0 s v n} (p.length - 1)
          constructor
          · exact validChain_stepsTo hentry.1 hentry.2.1
          · intro n hn
            have hlb : p.length ≤ n + 1 := hentry.2.2.1 n hn
            omega
        · intro _ _ _ _
          rfl
        · show st.metrics.nodesVisited + 1 ≤ g0.rows * g0.cols
          have hle := (visitedTrue_card_le g0 s st.visited hinv.visOk).1
          omega
        · intro hs
          show st.metrics.nodesVisited + 1 ≤ nonWallCount g0
          have hle := (visitedTrue_card_le g0 s st.visited hinv.visOk).2 hs
          omega
        · exact hFg2
        · exact hsafe2
        · intro sn hsn
          simp only [finalizeFound, List.mem_append, List.mem_singleton] at hsn
          rcases hsn with (h | h) | h
          · exact hinv.snapsOk sn h
          · subst h
            exact ⟨rfl, hFg1, fun _ => pathsEq_pathSafe hPg1⟩
          · subst h
            exact ⟨rfl, hFg2, hsafe2⟩
      · -- ordinary expansion step
        obtain ⟨ws, h1, h2, h3, h4, h5⟩ :=
          expandNeighbors_spec (markVisitedAt st.grid v) v p [0, 1, 2, 3] st.visited
            (by intro d hd; fin_cases hd <;> norm_num)
        have hgs : ∀ a b, gstep (markVisitedAt st.grid v) a b ↔ gstep g0 a b :=
          fun a b => gstep_congr hFg1 a b
        have hwsb : ∀ w ∈ ws, inBounds g0 w := by
          intro w hw
          have := (h3 w hw).1.2.1
          rwa [inBounds_of_dims hFg1.1 hFg1.2.1] at this
        have hwsnw : ∀ w ∈ ws, (g0.cell w).isWall = false := by
          intro w hw
          have := (h3 w hw).1.2.2
          rwa [hFg1.2.2.1 w] at this
        -- the new state
        set news := ws.map (fun w => (w, p ++ [w])) with hnews
        have hlennews : ∀ e ∈ news, e.2.length = p.length + 1 := by
          intro e he
          obtain ⟨w, _, rfl⟩ := List.mem_map.mp he
          simp
        have hrestb : ∀ e ∈ rest, e.2.length ≤ p.length + 1 := by
          intro e he
          exact hinv.headBound e (by rw [hf]; exact List.mem_cons_of_mem _ he) (v, p) hheadmem
        have hrestge : ∀ e ∈ rest, p.length ≤ e.2.length := by
          intro e he
          have hs := hinv.sorted
          rw [hf, List.map_cons, List.sorted_cons] at hs
          exact hs.1 _ (List.mem_map_of_mem _ he)
        have hallb : ∀ e ∈ rest ++ news, e.2.length ≤ p.length + 1 := by
          intro e he
          rcases List.mem_append.mp he with h | h
          · exact hrestb e h
          · exact (hlennews e h).le
        have hentries2 : ∀ e ∈ rest ++ news,
            ValidChain g0 s e.2 ∧ e.2.getLast? = some e.1 ∧
            (∀ m, StepsTo g0 s e.1 m → e.2.length ≤ m + 1) ∧
            (expandNeighbors (markVisitedAt st.grid v) st.visited v p [0, 1, 2, 3]).1 e.1
              = true := by
          intro e he
          rcases List.mem_append.mp he with h | h
          · have old := hinv.entries e (by rw [hf]; exact List.mem_cons_of_mem _ h)
            exact ⟨old.1, old.2.1, old.2.2.1, by rw [h4]; simp [old.2.2.2]⟩
          · obtain ⟨w, hw, rfl⟩ := List.mem_map.mp h
            refine ⟨validChain_append hentry.1 hentry.2.1 ((hgs v w).mp (h3 w hw).1), by simp, ?_, by rw [h4]; simp [hw]⟩
            intro m hm
            simp only [List.length_append, List.length_singleton]
            by_contra hlt
            push_neg at hlt
            have hmle : m + 1 ≤ p.length := by omega
            have := hinv.level (v, p) hheadmem w m hm hmle
            rw [(h3 w hw).2] at this
            simp at this
        have hsorted2 : ((rest ++ news).map fun e => e.2.length).Sorted (· ≤ ·) := by
          rw [List.map_append]
          apply List.pairwise_append.mpr
          refine ⟨?_, ?_, ?_⟩
          · have hs := hinv.sorted
            rw [hf, List.map_cons] at hs
            exact hs.of_cons
          · have : news.map (fun e => e.2.length) = ws.map fun _ => p.length + 1 := by
              rw [hnews, List.map_map]
              apply List.map_congr_left
              intro a _
              simp
            rw [this]
            exact pairwise_const_le ws (p.length + 1)
          · intro x hx y hy
            obtain ⟨ex, hex, rfl⟩ := List.mem_map.mp hx
            obtain ⟨ey, hey, rfl⟩ := List.mem_map.mp hy
            rw [hlennews ey hey]
            exact hrestb ex hex
        have hheadBound2 : ∀ e ∈ rest ++ news, ∀ e0 ∈ (rest ++ news).head?,
            e.2.length ≤ e0.2.length + 1 := by
          intro e he e1 he1
          have he1mem : e1 ∈ rest ++ news := List.mem_of_mem_head? he1
          have h1ge : p.length ≤ e1.2.length := by
            rcases List.mem_append.mp he1mem with h | h
            · exact hrestge e1 h
            · rw [hlennews e1 h]; omega
          have := hallb e he
          omega
        have hclosure2 : ∀ u,
            (expandNeighbors (markVisitedAt st.grid v) st.visited v p [0, 1, 2, 3]).1 u = true →
            (∀ e ∈ rest ++ news, e.1 ≠ u) → ∀ w, gstep g0 u w →
            (expandNeighbors (markVisitedAt st.grid v) st.visited v p [0, 1, 2, 3]).1 w
              = true := by
          intro u hu hnotin w hw
          rw [h4] at hu
          rcases Bool.or_eq_true_iff.mp hu with hu | hu
          · by_cases huv : u = v
            · subst huv
              obtain ⟨d, hd, rfl⟩ := gstep_exists_dir hw
              exact h5 d hd ((hgs u (stepPos u d)).mpr hw)
            · have hold : st.visited w = true := by
                refine hinv.closure u hu ?_ w hw
                intro e he
                rw [hf] at he
                rcases List.mem_cons.mp he with h | h
                · rw [h]
                  intro hc
                  exact huv hc.symm
                · exact hnotin e (List.mem_append_left _ h)
              rw [h4]
              simp [hold]
          · exfalso
            have huws : u ∈ ws := by simpa using hu
            exact hnotin (u, p ++ [u]) (List.mem_append_right _ (List.mem_map_of_mem _ huws)) rfl
        have hlevel2 : ∀ e1 ∈ (rest ++ news).head?, ∀ u m, StepsTo g0 s u m →
            m + 1 ≤ e1.2.length →
            (expandNeighbors (markVisitedAt st.grid v) st.visited v p [0, 1, 2, 3]).1 u
              = true := by
          intro e1 he1 u m hm hmle
          have he1mem : e1 ∈ rest ++ news := List.mem_of_mem_head? he1
          have h1le : e1.2.length ≤ p.length + 1 := hallb e1 he1mem
          by_cases hc1 : m + 1 ≤ p.length
          · have := hinv.level (v, p) hheadmem u m hm hc1
            rw [h4]
            simp [this]
          · have hmeq : m = p.length := by omega
            have he1len : e1.2.length = p.length + 1 := by omega
            cases m with
            | zero =>
              have : u = s := stepsTo_zero hm
              subst this
              rw [h4]
              simp [hinv.startVis]
            | succ m0 =>
              obtain ⟨z, hz, hzu⟩ := stepsTo_succ_inv hm
              have hzvis : st.visited z = true :=
                hinv.level (v, p) hheadmem z m0 hz (by show m0 + 1 <= p.length; omega)
              by_cases hzf : ∃ e ∈ rest ++ news, e.1 = z
              · exfalso
                obtain ⟨e, he, hez⟩ := hzf
                have hmin := (hentries2 e he).2.2.1 m0 (hez ▸ hz)
                have hehd : e1.2.length ≤ e.2.length := sorted_head_le hsorted2 he1 he
                omega
              · push_neg at hzf
                have hzvis2 :
                    (expandNeighbors (markVisitedAt st.grid v) st.visited v p
                      [0, 1, 2, 3]).1 z = true := by
                  rw [h4]; simp [hzvis]
                exact hclosure2 z hzvis2 hzf u hzu
        have hcount2 :
            (st.metrics.nodesVisited + 1) + (rest ++ news).length =
            ((boundsFinset g0).filter fun q =>
              (expandNeighbors (markVisitedAt st.grid v) st.visited v p [0, 1, 2, 3]).1 q
                = true).card := by
          have hvc := visitedCard_expand h4 h2 (fun w hw => (h3 w hw).2) hwsb
          have hcount := hinv.counting
          rw [hf] at hcount
          simp only [List.length_cons] at hcount
          rw [List.length_append, hvc]
          have : news.length = ws.length := by rw [hnews, List.length_map]
          omega
        have hvisOk2 : ∀ q,
            (expandNeighbors (markVisitedAt st.grid v) st.visited v p [0, 1, 2, 3]).1 q
              = true → inBounds g0 q ∧ ((g0.cell q).isWall = false ∨ q = s) := by
          intro q hq
          rw [h4] at hq
          rcases Bool.or_eq_true_iff.mp hq with hq | hq
          · exact hinv.visOk q hq
          · have hqws : q ∈ ws := by simpa using hq
            exact ⟨hwsb q hqws, .inl (hwsnw q hqws)⟩
        have hinv2 : BfsInv g0 s
            { grid := markVisitedAt st.grid v,
              frontier := rest ++
                (expandNeighbors (markVisitedAt st.grid v) st.visited v p [0, 1, 2, 3]).2,
              visited :=
                (expandNeighbors (markVisitedAt st.grid v) st.visited v p [0, 1, 2, 3]).1,
              metrics := { st.metrics with nodesVisited := st.metrics.nodesVisited + 1 },
              snaps := st.snaps ++ [⟨true, cloneGrid (markVisitedAt st.grid v),
                { st.metrics with nodesVisited := st.metrics.nodesVisited + 1 }⟩] } := by
          rw [h1]
          refine ⟨hFg1, hPg1, hentries2, hsorted2, hheadBound2, hclosure2, hlevel2, ?_, ?_, hvisOk2, ?_⟩
          · show (expandNeighbors (markVisitedAt st.grid v) st.visited v p [0, 1, 2, 3]).1 s
              = true
            rw [h4]
            simp [hinv.startVis]
          · exact hcount2
          · intro sn hsn
            simp only [List.mem_append, List.mem_singleton] at hsn
            rcases hsn with h | h
            · exact hinv.snapsOk sn h
            · subst h
              exact ⟨rfl, hFg1, fun _ => pathsEq_pathSafe hPg1⟩
        have hpot2 : searchPot g0
            { grid := markVisitedAt st.grid v,
              frontier := rest ++
                (expandNeighbors (markVisitedAt st.grid v) st.visited v p [0, 1, 2, 3]).2,
              visited :=
                (expandNeighbors (markVisitedAt st.grid v) st.visited v p [0, 1, 2, 3]).1,
              metrics := { st.metrics with nodesVisited := st.metrics.nodesVisited + 1 },
              snaps := st.snaps ++ [⟨true, cloneGrid (markVisitedAt st.grid v),
                { st.metrics with nodesVisited := st.metrics.nodesVisited + 1 }⟩] } < fuel := by
          have hvc := unvisitedCard_expand h4 h2 (fun w hw => (h3 w hw).2) hwsb
          unfold searchPot at hpot ⊢
          rw [hf] at hpot
          simp only [List.length_cons] at hpot
          simp only [List.length_append]
          have hlen2 :
              (expandNeighbors (markVisitedAt st.grid v) st.visited v p [0, 1, 2, 3]).2.length
              = ws.length := by
            rw [h1, List.length_map]
          omega
        obtain ⟨r, hr, hopt, hcomp, hnv1, hnv2, hgrid, hgsafe, hsnaps⟩ := ih _ hinv2 hpot2
        refine ⟨r, ?_, hopt, ?_, hnv1, hnv2, hgrid, hgsafe, hsnaps⟩
        · conv_lhs => rw [bfsGo]
          rw [hf]
          simp only [hend, Bool.false_eq_true, if_false]
          exact hr
        · intro epos hfl hre hcond
          refine hcomp epos hfl hre ?_
          intro hvis2
          have hvis3 : (expandNeighbors (markVisitedAt st.grid v) st.visited v p
              [0, 1, 2, 3]).1 epos = true := hvis2
          rw [h4] at hvis3
          rcases Bool.or_eq_true_iff.mp hvis3 with hv | hv
          · obtain ⟨e, he, hee⟩ := hcond hv
            rw [hf] at he
            rcases List.mem_cons.mp he with h | h
            · exfalso
              subst h
              have hee2 : v = epos := hee
              subst hee2
              rw [hFg1.2.2.2.2 v] at hend
              exact hend hfl
            · exact ⟨e, List.mem_append_left _ h, hee⟩
          · have hqws : epos ∈ ws := by simpa using hv
            refine ⟨(epos, p ++ [epos]), ?_, rfl⟩
            rw [h1]
            exact List.mem_append_right _ (List.mem_map_of_mem _ hqws)

theorem bfsInv_init (g0 : Grid) (s : Pos) (hs : inBounds g0 s) :
    BfsInv g0 s
      { grid := g0,
        frontier := [(s, [s])],
        visited := fun x => decide (x = s),
        metrics := ⟨0, 0, false⟩,
        snaps := [] } := by
  refine ⟨flagsEq_refl g0, fun _ => rfl, ?_, ?_, ?_, ?_, ?_, ?_, ?_, ?_, ?_⟩
  · intro e he
    simp only [List.mem_singleton] at he
    subst he
    refine ⟨validChain_singleton g0 s, by simp, ?_, by simp⟩
    intro m _
    simp
  · simp
  · intro e he e0 he0
    simp only [List.mem_singleton] at he
    subst he
    simp
  · intro u hu hne w _
    exfalso
    simp only [decide_eq_true_eq] at hu
    exact hne (s, [s]) (by simp) (by simp [hu])
  · intro e0 he0 u m hm hle
    have he0s : e0 = (s, [s]) := by simpa using he0.symm
    subst he0s
    simp only [List.length_singleton] at hle
    have hm0 : m = 0 := by omega
    subst hm0
    have := stepsTo_zero hm
    simp [this]
  · simp
  · show 0 + 1 = ((boundsFinset g0).filter fun p => decide (p = s) = true).card
    have : ((boundsFinset g0).filter fun p => decide (p = s) = true) = {s} := by
      ext q
      simp only [Finset.mem_filter, decide_eq_true_eq, Finset.mem_singleton]
      constructor
      · rintro ⟨_, h⟩; exact h
      · rintro rfl; exact ⟨mem_boundsFinset.mpr hs, rfl⟩
    rw [this]
    simp
  · intro q hq
    simp only [decide_eq_true_eq] at hq
    subst hq
    exact ⟨hs, .inr rfl⟩
  · intro sn hsn
    simp at hsn

/-- Workhorse description of `runBFS`: shortest-path optimality of the
reported `pathLength`, completeness, node-count bounds and
snapshot/grid frame safety. -/
theorem runBFS_post (g0 : Grid) (hs : inBounds g0 (findPositions g0).1) :
    ((runBFS g0).metrics.isPathFound = true →
      ∀ epos, UniqueEnd g0 epos →
        IsLeast {n | StepsTo g0 (findPositions g0).1 epos n} (runBFS g0).metrics.pathLength) ∧
    (∀ epos, (g0.cell epos).isEnd = true → Reach g0 (findPositions g0).1 epos →
      (runBFS g0).metrics.isPathFound = true) ∧
    (runBFS g0).metrics.nodesVisited ≤ g0.rows * g0.cols ∧
    ((g0.cell (findPositions g0).1).isWall = false →
      (runBFS g0).metrics.nodesVisited ≤ nonWallCount g0) ∧
    FlagsEq g0 (runBFS g0).grid ∧
    (StartSafe g0 (findPositions g0).1 → PathSafe g0 (runBFS g0).grid) ∧
    (∀ sn ∈ (runBFS g0).snapshots, sn.gridFresh = true ∧ FlagsEq g0 sn.grid ∧
      (StartSafe g0 (findPositions g0).1 → PathSafe g0 sn.grid)) := by
  have hinv : BfsInv g0 (findPositions g0).1
      { grid := cloneGrid g0,
        frontier := [((findPositions (cloneGrid g0)).1, [(findPositions (cloneGrid g0)).1])],
        visited := fun x => decide (x = (findPositions (cloneGrid g0)).1),
        metrics := ⟨0, 0, false⟩,
        snaps := [] } := bfsInv_init g0 (findPositions g0).1 hs
  have hpot : searchPot g0
      { grid := cloneGrid g0,
        frontier := [((findPositions (cloneGrid g0)).1, [(findPositions (cloneGrid g0)).1])],
        visited := fun x => decide (x = (findPositions (cloneGrid g0)).1),
        metrics := ⟨0, 0, false⟩,
        snaps := [] } < bfsFuel (cloneGrid g0) := by
    unfold searchPot bfsFuel unvisitedCard
    have h1 : ((boundsFinset g0).filter fun p =>
        (decide (p = (findPositions (cloneGrid g0)).1)) = false).card ≤ g0.rows * g0.cols := by
      rw [← boundsFinset_card g0]
      exact Finset.card_filter_le _ _
    have h2 : (cloneGrid g0).rows = g0.rows := rfl
    have h3 : (cloneGrid g0).cols = g0.cols := rfl
    rw [h2, h3]
    simp only [List.length_singleton]
    omega
  obtain ⟨r, hr, hpost⟩ := bfsGo_master g0 (findPositions g0).1 (bfsFuel (cloneGrid g0)) _
    hinv hpot
  have hrun : runBFS g0 = r := by
    have hsome := runBFS_eq_go g0 (by rw [hr]; rfl)
    rw [hr] at hsome
    exact Option.some.inj hsome
  obtain ⟨hopt, hcomp, hnv1, hnv2, hgrid, hgsafe, hsnaps⟩ := hpost
  rw [hrun]
  refine ⟨hopt, ?_, hnv1, hnv2, hgrid, hgsafe, hsnaps⟩
  intro epos hfl hre
  refine hcomp epos hfl hre ?_
  intro hv
  have hv2 : epos = (findPositions g0).1 := by
    have : (decide (epos = (findPositions (cloneGrid g0)).1)) = true := hv
    simpa using this
  exact ⟨((findPositions (cloneGrid g0)).1, [(findPositions (cloneGrid g0)).1]),
    by simp, by rw [hv2]; rfl⟩

/-! ### A-star engine (`algorithms.ts` lines 266-388)

Entries are `(position, path, fScore)`.  The `TinyQueue` binary heap is
modelled as a list kept in insertion order from which `popMin` removes
the first entry of minimal `fScore`; the only property the algorithm
relies on — every pop returns an entry whose `fScore` is minimal in the
queue — holds for the heap and for this model alike. -/

/-- Embedding of `manhattanDistance` (`algorithms.ts` lines 267-269). -/
def manhattanDistance (x1 y1 x2 y2 : Int) : Nat :=
  (x1 - x2).natAbs + (y1 - y2).natAbs

/-- Open-set entry `[row, col, path, fScore]`. -/
abbrev AEntry : Type := Pos × List Pos × Nat

/-- Remove the first entry of minimal `fScore`. -/
def popMin : List AEntry → Option (AEntry × List AEntry)
  | [] => none
  | e :: rest =>
    match popMin rest with
    | none => some (e, [])
    | some (m, r2) => if e.2.2 ≤ m.2.2 then some (e, rest) else some (m, e :: r2)

theorem popMin_none {l : List AEntry} : popMin l = none ↔ l = [] := by
  cases l with
  | nil => simp [popMin]
  | cons e rest =>
    simp only [popMin]
    cases popMin rest with
    | none => simp
    | some pr =>
      obtain ⟨m, r2⟩ := pr
      by_cases h : e.2.2 ≤ m.2.2 <;> simp [h]

theorem popMin_spec {l : List AEntry} {e : AEntry} {r : List AEntry}
    (h : popMin l = some (e, r)) :
    l.Perm (e :: r) ∧ ∀ x ∈ l, e.2.2 ≤ x.2.2 := by
  induction l generalizing e r with
  | nil => simp [popMin] at h
  | cons a rest ih =>
    rw [popMin] at h
    cases hrec : popMin rest with
    | none =>
      rw [hrec] at h
      dsimp only at h
      have hrest : rest = [] := popMin_none.mp hrec
      subst hrest
      simp only [Option.some.injEq, Prod.mk.injEq] at h
      obtain ⟨h1, h2⟩ := h
      subst h1
      subst h2
      exact ⟨by simp, by intro x hx; simp at hx; rw [hx]⟩
    | some pr =>
      obtain ⟨m, r2⟩ := pr
      rw [hrec] at h
      dsimp only at h
      obtain ⟨hperm, hmin⟩ := ih hrec
      by_cases hle : a.2.2 ≤ m.2.2
      · rw [if_pos hle] at h
        simp only [Option.some.injEq, Prod.mk.injEq] at h
        obtain ⟨h1, h2⟩ := h
        subst h1
        subst h2
        refine ⟨by simp, ?_⟩
        intro x hx
        rcases List.mem_cons.mp hx with hx | hx
        · rw [hx]
        · exact le_trans hle (hmin x hx)
      · rw [if_neg hle] at h
        simp only [Option.some.injEq, Prod.mk.injEq] at h
        obtain ⟨h1, h2⟩ := h
        subst h1
        subst h2
        refine ⟨?_, ?_⟩
        · exact (hperm.cons a).trans (List.Perm.swap _ _ _)
        · intro x hx
          rcases List.mem_cons.mp hx with hx | hx
          · rw [hx]
            omega
          · exact hmin x hx

/-- State of the A-star loop. -/
structure AStarState where
  grid : Grid
  openSet : List AEntry
  gScore : Pos → Option Nat
  closed : Pos → Bool
  metrics : AlgorithmMetrics
  snaps : List (StepSnapshot AlgorithmMetrics)

/-- Strict comparison against an optional recorded score, transcribing
`tentative < (gScore[key] ?? Infinity)`. -/
def ltOpt (t : Nat) (o : Option Nat) : Bool :=
  match o with
  | none => true
  | some x => decide (t < x)

/-- Neighbour relaxation of `runAStar` (`algorithms.ts` lines 345-376):
for each direction, check bounds and wall, skip closed cells, and if the
tentative gScore `gScore[current] + 1` strictly improves the recorded
one, record it and push the extended path with
`f = tentative + manhattan(neighbour, end)`. -/
def relaxNeighbors (g : Grid) (endPos : Pos) (v : Pos) (p : List Pos) (cl : Pos → Bool) :
    List Nat → (Pos → Option Nat) → List AEntry → ((Pos → Option Nat) × List AEntry)
  | [], gs, open_ => (gs, open_)
  | d :: ds, gs, open_ =>
    let q := stepPos v d
    if inBounds g q ∧ (g.cell q).isWall = false then
      if cl q = true then
        relaxNeighbors g endPos v p cl ds gs open_
      else
        match gs v with
        | none => relaxNeighbors g endPos v p cl ds gs open_
        | some gv =>
          if ltOpt (gv + 1) (gs q) = true then
            relaxNeighbors g endPos v p cl ds
              (fun x => if x = q then some (gv + 1) else gs x)
              (open_ ++ [(q, p ++ [q], (gv + 1) + manhattanDistance q.1 q.2 endPos.1 endPos.2)])
          else
            relaxNeighbors g endPos v p cl ds gs open_
    else
      relaxNeighbors g endPos v p cl ds gs open_

theorem stepPos_ne_self {d : Nat} (hd : d < 4) (v : Pos) : stepPos v d ≠ v := by
  interval_cases d <;> intro h <;>
    simp only [stepPos, dxv, dyv, Prod.ext_iff] at h <;> omega

/-- Behavioural description of `relaxNeighbors`. -/
theorem relaxNeighbors_spec (g : Grid) (endPos : Pos) (v : Pos) (p : List Pos)
    (cl : Pos → Bool) (gsv : Nat) :
    ∀ (ds : List Nat) (gs : Pos → Option Nat) (open_ : List AEntry),
      gs v = some gsv → (∀ d ∈ ds, d < 4) →
      ∃ pushes : List AEntry,
        (relaxNeighbors g endPos v p cl ds gs open_).2 = open_ ++ pushes ∧
        pushes.length ≤ ds.length ∧
        (∀ e ∈ pushes, gstep g v e.1 ∧ cl e.1 = false ∧ e.2.1 = p ++ [e.1] ∧
          e.2.2 = (gsv + 1) + manhattanDistance e.1.1 e.1.2 endPos.1 endPos.2 ∧
          (relaxNeighbors g endPos v p cl ds gs open_).1 e.1 = some (gsv + 1)) ∧
        (∀ x, (relaxNeighbors g endPos v p cl ds gs open_).1 x = gs x ∨
          ((relaxNeighbors g endPos v p cl ds gs open_).1 x = some (gsv + 1) ∧
            ∃ e ∈ pushes, e.1 = x)) ∧
        (∀ x gx, gs x = some gx →
          ∃ gx2, (relaxNeighbors g endPos v p cl ds gs open_).1 x = some gx2 ∧ gx2 ≤ gx) ∧
        (∀ d ∈ ds, gstep g v (stepPos v d) → cl (stepPos v d) = true ∨
          (∃ gw, (relaxNeighbors g endPos v p cl ds gs open_).1 (stepPos v d) = some gw ∧
            gw ≤ gsv + 1)) := by
  intro ds
  induction ds with
  | nil =>
    intro gs open_ hgsv _
    refine ⟨[], by simp [relaxNeighbors], by simp, by simp, ?_, ?_, by simp⟩
    · intro x
      left
      rfl
    · intro x gx hx
      exact ⟨gx, hx, le_refl gx⟩
  | cons d ds ih =>
    intro gs open_ hgsv hd4
    have hdlt : d < 4 := hd4 d (by simp)
    have hdrest : ∀ d2 ∈ ds, d2 < 4 := fun d2 h => hd4 d2 (List.mem_cons_of_mem d h)
    have hqv : ¬(v = stepPos v d) := fun h => stepPos_ne_self hdlt v h.symm
    by_cases hc1 : inBounds g (stepPos v d) ∧ (g.cell (stepPos v d)).isWall = false
    · by_cases hc2 : cl (stepPos v d) = true
      · have heq : relaxNeighbors g endPos v p cl (d :: ds) gs open_ =
            relaxNeighbors g endPos v p cl ds gs open_ := by
          simp only [relaxNeighbors]
          rw [if_pos hc1, if_pos hc2]
        obtain ⟨pushes, u1, u2, u3, u4, u5, u6⟩ := ih gs open_ hgsv hdrest
        rw [heq]
        refine ⟨pushes, u1, by simpa using Nat.le_succ_of_le u2, u3, u4, u5, ?_⟩
        intro d2 hd2 hg2
        rcases List.mem_cons.mp hd2 with h | h
        · subst h
          exact .inl hc2
        · exact u6 d2 h hg2
      · rw [Bool.not_eq_true] at hc2
        by_cases himp : ltOpt (gsv + 1) (gs (stepPos v d)) = true
        · have heq : relaxNeighbors g endPos v p cl (d :: ds) gs open_ =
              relaxNeighbors g endPos v p cl ds
                (fun x => if x = stepPos v d then some (gsv + 1) else gs x)
                (open_ ++ [(stepPos v d, p ++ [stepPos v d],
                  (gsv + 1) + manhattanDistance (stepPos v d).1 (stepPos v d).2
                    endPos.1 endPos.2)]) := by
            simp only [relaxNeighbors]
            rw [if_pos hc1, if_neg (by simp [hc2]), hgsv]
            dsimp only
            rw [if_pos himp]
          have hgsv2 : (fun x => if x = stepPos v d then some (gsv + 1) else gs x) v
              = some gsv := by
            dsimp only
            rw [if_neg hqv]
            exact hgsv
          obtain ⟨pushes, u1, u2, u3, u4, u5, u6⟩ :=
            ih (fun x => if x = stepPos v d then some (gsv + 1) else gs x)
              (open_ ++ [(stepPos v d, p ++ [stepPos v d],
                (gsv + 1) + manhattanDistance (stepPos v d).1 (stepPos v d).2
                  endPos.1 endPos.2)]) hgsv2 hdrest
          rw [heq]
          have hgq : (relaxNeighbors g endPos v p cl ds
              (fun x => if x = stepPos v d then some (gsv + 1) else gs x)
              (open_ ++ [(stepPos v d, p ++ [stepPos v d],
                (gsv + 1) + manhattanDistance (stepPos v d).1 (stepPos v d).2
                  endPos.1 endPos.2)])).1 (stepPos v d) = some (gsv + 1) := by
            rcases u4 (stepPos v d) with h | h
            · rw [h]
              simp
            · exact h.1
          refine ⟨(stepPos v d, p ++ [stepPos v d],
            (gsv + 1) + manhattanDistance (stepPos v d).1 (stepPos v d).2
              endPos.1 endPos.2) :: pushes, by rw [u1]; simp, by simpa using u2,
            ?_, ?_, ?_, ?_⟩
          · intro e he
            rcases List.mem_cons.mp he with h | h
            · subst h
              exact ⟨⟨⟨⟨d, hdlt⟩, rfl⟩, hc1.1, hc1.2⟩, hc2, rfl, rfl, hgq⟩
            · exact u3 e h
          · intro x
            rcases u4 x with h | h
            · by_cases hx : x = stepPos v d
              · subst hx
                right
                refine ⟨by rw [h]; simp, ?_⟩
                exact ⟨(stepPos v d, p ++ [stepPos v d],
                  (gsv + 1) + manhattanDistance (stepPos v d).1 (stepPos v d).2
                    endPos.1 endPos.2), List.mem_cons_self _ _, rfl⟩
              · left
                rw [h]
                simp [hx]
            · obtain ⟨e, he, hex⟩ := h.2
              exact .inr ⟨h.1, e, List.mem_cons_of_mem _ he, hex⟩
          · intro x gx hx
            by_cases hxq : x = stepPos v d
            · subst hxq
              have himp2 := himp
              unfold ltOpt at himp2
              rw [hx] at himp2
              simp only [decide_eq_true_eq] at himp2
              rcases u4 (stepPos v d) with h | h
              · refine ⟨gsv + 1, ?_, by omega⟩
                rw [h]
                simp
              · exact ⟨gsv + 1, h.1, by omega⟩
            · have hx2 : (fun y => if y = stepPos v d then some (gsv + 1) else gs y) x
                  = some gx := by
                dsimp only
                rw [if_neg hxq]
                exact hx
              exact u5 x gx hx2
          · intro d2 hd2 hg2
            rcases List.mem_cons.mp hd2 with h | h
            · subst h
              right
              refine ⟨gsv + 1, ?_, le_refl _⟩
              exact hgq
            · exact u6 d2 h hg2
        · have heq : relaxNeighbors g endPos v p cl (d :: ds) gs open_ =
              relaxNeighbors g endPos v p cl ds gs open_ := by
            simp only [relaxNeighbors]
            rw [if_pos hc1, if_neg (by simp [hc2]), hgsv]
            dsimp only
            rw [if_neg himp]
          obtain ⟨pushes, u1, u2, u3, u4, u5, u6⟩ := ih gs open_ hgsv hdrest
          rw [heq]
          have hdef : ∃ gx, gs (stepPos v d) = some gx ∧ gx ≤ gsv + 1 := by
            rw [Bool.not_eq_true] at himp
            unfold ltOpt at himp
            cases hgsq : gs (stepPos v d) with
            | none => rw [hgsq] at himp; simp at himp
            | some x =>
              rw [hgsq] at himp
              simp only [decide_eq_false_iff_not] at himp
              exact ⟨x, rfl, by omega⟩
          refine ⟨pushes, u1, by simpa using Nat.le_succ_of_le u2, u3, u4, u5, ?_⟩
          intro d2 hd2 hg2
          rcases List.mem_cons.mp hd2 with h | h
          · subst h
            right
            obtain ⟨gx, hgx, hgxle⟩ := hdef
            obtain ⟨gx2, hgx2, hgx2le⟩ := u5 _ gx hgx
            exact ⟨gx2, hgx2, by omega⟩
          · exact u6 d2 h hg2
    · have heq : relaxNeighbors g endPos v p cl (d :: ds) gs open_ =
          relaxNeighbors g endPos v p cl ds gs open_ := by
        simp only [relaxNeighbors]
        rw [if_neg hc1]
      obtain ⟨pushes, u1, u2, u3, u4, u5, u6⟩ := ih gs open_ hgsv hdrest
      rw [heq]
      refine ⟨pushes, u1, by simpa using Nat.le_succ_of_le u2, u3, u4, u5, ?_⟩
      intro d2 hd2 hg2
      rcases List.mem_cons.mp hd2 with h | h
      · subst h
        exfalso
        exact hc1 ⟨hg2.2.1, hg2.2.2⟩
      · exact u6 d2 h hg2

/-- Terminal result when the open set runs empty: the final `onStep`
after the loop fires with the current grid and metrics. -/
def astarNotFound (st : AStarState) : RunResult AlgorithmMetrics :=
  { metrics := st.metrics, grid := st.grid,
    snapshots := st.snaps ++ [⟨true, cloneGrid st.grid, st.metrics⟩] }

/-- Terminal result when the popped position equals the end position:
the cell was closed and counted and its snapshot emitted, then the
carried path is marked and the final `onStep` after the loop fires. -/
def astarFound (st : AStarState) (e : AEntry) : RunResult AlgorithmMetrics :=
  let g1 := markVisitedAt st.grid e.1
  let m1 := { st.metrics with nodesVisited := st.metrics.nodesVisited + 1 }
  let sn1 := st.snaps ++ [⟨true, cloneGrid g1, m1⟩]
  let g2 := markPathList g1 e.2.1
  let m2 := { m1 with isPathFound := true, pathLength := e.2.1.length - 1 }
  { metrics := m2, grid := g2, snapshots := sn1 ++ [⟨true, cloneGrid g2, m2⟩] }

/-- Loop of `runAStar` on fuel: pop a minimal-f entry, skip it if its
cell is closed (stale queue entry), otherwise close and count it, emit a
snapshot, stop when the popped position equals the end position
(marking the carried path), else relax the four neighbours. -/
def astarGo (endPos : Pos) : Nat → AStarState → Option (RunResult AlgorithmMetrics)
  | 0, _ => none
  | fuel + 1, st =>
    match popMin st.openSet with
    | none => some (astarNotFound st)
    | some (e, rest) =>
      if st.closed e.1 = true then
        astarGo endPos fuel { st with openSet := rest }
      else if e.1 = endPos then
        some (astarFound st e)
      else
        let g1 := markVisitedAt st.grid e.1
        let m1 := { st.metrics with nodesVisited := st.metrics.nodesVisited + 1 }
        let rx := relaxNeighbors g1 endPos e.1 e.2.1
          (fun x => if x = e.1 then true else st.closed x) [0, 1, 2, 3] st.gScore rest
        astarGo endPos fuel
          { grid := g1,
            openSet := rx.2,
            gScore := rx.1,
            closed := fun x => if x = e.1 then true else st.closed x,
            metrics := m1,
            snaps := st.snaps ++ [⟨true, cloneGrid g1, m1⟩] }

/-- Fuel for the A-star loop: each iteration pops one entry, and at most
`4 * rows * cols + 1` entries are ever pushed (four per closed cell plus
the initial one). -/
def astarFuel (g : Grid) : Nat := 4 * (g.rows * g.cols) + 2

/-- Embedding of `runAStar` (`algorithms.ts` lines 274-388). -/
def runAStar (g0 : Grid) : RunResult AlgorithmMetrics :=
  let g := cloneGrid g0
  let se := findPositions g
  let st0 : AStarState :=
    { grid := g,
      openSet := [(se.1, [se.1],
        manhattanDistance se.1.1 se.1.2 se.2.1 se.2.2)],
      gScore := fun x => if x = se.1 then some 0 else none,
      closed := fun _ => false,
      metrics := ⟨0, 0, false⟩,
      snaps := [] }
  match astarGo se.2 (astarFuel g) st0 with
  | some r => r
  | none =>
    { metrics := st0.metrics, grid := st0.grid,
      snapshots := st0.snaps ++ [⟨true, cloneGrid st0.grid, st0.metrics⟩] }

theorem manhattan_gstep {g : Grid} {a b : Pos} (h : gstep g a b) (e : Pos) :
    manhattanDistance a.1 a.2 e.1 e.2 ≤ manhattanDistance b.1 b.2 e.1 e.2 + 1 ∧
    manhattanDistance b.1 b.2 e.1 e.2 ≤ manhattanDistance a.1 a.2 e.1 e.2 + 1 := by
  obtain ⟨⟨d, rfl⟩, _, _⟩ := h
  have hd := d.isLt
  have : d.val = 0 ∨ d.val = 1 ∨ d.val = 2 ∨ d.val = 3 := by omega
  rcases this with h | h | h | h <;>
    rw [h] <;>
    simp only [stepPos, dxv, dyv, manhattanDistance] <;>
    constructor <;>
    omega

theorem manhattan_stepsTo {g : Grid} {s u : Pos} {n : Nat} (h : StepsTo g s u n) (e : Pos) :
    manhattanDistance s.1 s.2 e.1 e.2 ≤ n + manhattanDistance u.1 u.2 e.1 e.2 := by
  induction h with
  | refl => simp
  | tail hz hq ih =>
    have := (manhattan_gstep hq e).1
    omega

/-- Number of in-bounds cells not in the closed set. -/
def unclosedCard (g : Grid) (cl : Pos → Bool) : Nat :=
  ((boundsFinset g).filter fun p => cl p = false).card

/-- Potential of an A-star state: strictly decreases every iteration
(closing a cell pays for the at most four entries it pushes). -/
def astarPot (g0 : Grid) (st : AStarState) : Nat :=
  4 * unclosedCard g0 st.closed + st.openSet.length

theorem unclosedCard_close {g0 : Grid} {cl : Pos → Bool} {v : Pos}
    (hv : inBounds g0 v) (hcl : cl v = false) :
    unclosedCard g0 (fun x => if x = v then true else cl x) + 1 = unclosedCard g0 cl := by
  unfold unclosedCard
  have hmem : v ∈ (boundsFinset g0).filter fun p => cl p = false :=
    Finset.mem_filter.mpr ⟨mem_boundsFinset.mpr hv, hcl⟩
  have hset : ((boundsFinset g0).filter fun p => (if p = v then true else cl p) = false) =
      ((boundsFinset g0).filter fun p => cl p = false).erase v := by
    ext q
    by_cases hq : q = v
    · subst hq
      simp
    · simp [Finset.mem_filter, Finset.mem_erase, hq]
  rw [hset, Finset.card_erase_of_mem hmem]
  have hpos : 0 < ((boundsFinset g0).filter fun p => cl p = false).card :=
    Finset.card_pos.mpr ⟨v, hmem⟩
  omega

theorem closedCard_close {g0 : Grid} {cl : Pos → Bool} {v : Pos}
    (hv : inBounds g0 v) (hcl : cl v = false) :
    ((boundsFinset g0).filter fun p => (if p = v then true else cl p) = true).card =
      ((boundsFinset g0).filter fun p => cl p = true).card + 1 := by
  have hset : ((boundsFinset g0).filter fun p => (if p = v then true else cl p) = true) =
      insert v ((boundsFinset g0).filter fun p => cl p = true) := by
    ext q
    by_cases hq : q = v
    · subst hq
      simp [mem_boundsFinset.mpr hv]
    · simp [Finset.mem_filter, Finset.mem_insert, hq]
  rw [hset, Finset.card_insert_of_not_mem]
  intro hmem
  have := (Finset.mem_filter.mp hmem).2
  rw [hcl] at this
  exact absurd this (by simp)

/-- Loop invariant of the A-star state.

* every open entry carries a valid chain to its cell with
  `f = (length - 1) + h(cell)` and a recorded gScore at most `length - 1`;
* every recorded gScore is the length of some real walk;
* every unclosed cell with a recorded gScore has an open entry whose `f`
  is exactly that gScore plus the heuristic (the entry of its last
  relaxation);
* every closed cell has an optimal recorded gScore and all its
  neighbours closed or recorded within `gScore + 1`;
* the end position is never closed (popping it ends the run instead);
* `nodesVisited` counts exactly the closed in-bounds cells. -/
structure AstarInv (g0 : Grid) (s epos : Pos) (st : AStarState) : Prop where
  flags : FlagsEq g0 st.grid
  paths : PathsEq g0 st.grid
  entries : ∀ e ∈ st.openSet, ValidChain g0 s e.2.1 ∧ e.2.1.getLast? = some e.1 ∧
    e.2.2 = (e.2.1.length - 1) + manhattanDistance e.1.1 e.1.2 epos.1 epos.2 ∧
    (∃ gv, st.gScore e.1 = some gv ∧ gv ≤ e.2.1.length - 1) ∧
    inBounds g0 e.1 ∧ ((g0.cell e.1).isWall = false ∨ e.1 = s)
  gSound : ∀ u gv, st.gScore u = some gv → StepsTo g0 s u gv
  gOpen : ∀ u gv, st.gScore u = some gv → st.closed u = true ∨
    ∃ e ∈ st.openSet, e.1 = u ∧ e.2.2 = gv + manhattanDistance u.1 u.2 epos.1 epos.2
  gsStart : st.gScore s = some 0
  closedOk : ∀ u, st.closed u = true → ∃ gu, st.gScore u = some gu ∧
    (∀ m, StepsTo g0 s u m → gu ≤ m) ∧
    ∀ w, gstep g0 u w → st.closed w = true ∨ ∃ gw, st.gScore w = some gw ∧ gw ≤ gu + 1
  closedB : ∀ u, st.closed u = true → inBounds g0 u ∧ ((g0.cell u).isWall = false ∨ u = s)
  closedEnd : st.closed epos = false
  counting : st.metrics.nodesVisited =
    ((boundsFinset g0).filter fun p => st.closed p = true).card
  notFound : st.metrics.isPathFound = false
  snapsOk : ∀ sn ∈ st.snaps, sn.gridFresh = true ∧ FlagsEq g0 sn.grid ∧
    (StartSafe g0 s → PathSafe g0 sn.grid)

/-- Key property of consistent-heuristic search: every reachable
unclosed cell is covered by an open entry whose `f` does not exceed the
walk length plus the heuristic at the walk's target. -/
theorem astar_key {g0 : Grid} {s epos : Pos} {st : AStarState}
    (hinv : AstarInv g0 s epos st) :
    ∀ {n : Nat} {u : Pos}, StepsTo g0 s u n → st.closed u = false →
      ∃ e ∈ st.openSet, e.2.2 ≤ n + manhattanDistance u.1 u.2 epos.1 epos.2 := by
  intro n u h
  induction h with
  | refl =>
    intro hcl
    rcases hinv.gOpen s 0 hinv.gsStart with hc | ⟨e, he, he1, hef⟩
    · simp [hc] at hcl
    · exact ⟨e, he, le_of_eq hef⟩
  | @tail z w n2 hz hq ih =>
    intro hcl
    by_cases hcz : st.closed z = true
    · obtain ⟨gu, hgu, hopt, hnb⟩ := hinv.closedOk z hcz
      rcases hnb w hq with hcw | ⟨gw, hgw, hle⟩
      · simp [hcw] at hcl
      · rcases hinv.gOpen w gw hgw with hcw | ⟨e, he, he1, hef⟩
        · simp [hcw] at hcl
        · refine ⟨e, he, ?_⟩
          have h1 : gu ≤ n2 := hopt n2 hz
          rw [hef]
          omega
    · have hcz2 : st.closed z = false := by rwa [Bool.not_eq_true] at hcz
      obtain ⟨e, he, hef⟩ := ih hcz2
      refine ⟨e, he, ?_⟩
      have hm := (manhattan_gstep hq epos).1
      omega

/-- Everything the claims need of a finished A-star run: optimality of
the reported path length, completeness, node-count bounds and frame
safety. -/
def AstarPost (g0 : Grid) (s epos : Pos) (r : RunResult AlgorithmMetrics) : Prop :=
  (r.metrics.isPathFound = true →
    IsLeast {n | StepsTo g0 s epos n} r.metrics.pathLength) ∧
  (Reach g0 s epos → r.metrics.isPathFound = true) ∧
  r.metrics.nodesVisited ≤ g0.rows * g0.cols ∧
  ((g0.cell s).isWall = false → r.metrics.nodesVisited ≤ nonWallCount g0) ∧
  FlagsEq g0 r.grid ∧
  (StartSafe g0 s → PathSafe g0 r.grid) ∧
  (∀ sn ∈ r.snapshots, sn.gridFresh = true ∧ FlagsEq g0 sn.grid ∧
    (StartSafe g0 s → PathSafe g0 sn.grid))

/-- When a minimal-f entry with an unclosed cell is popped, its recorded
gScore equals its carried path length minus one, and that length is
optimal among all walks to the cell. -/
theorem astar_pop_opt {g0 : Grid} {s epos : Pos} {st : AStarState}
    (hinv : AstarInv g0 s epos st) {e : AEntry} {rest : List AEntry}
    (hpop : popMin st.openSet = some (e, rest)) (hclF : st.closed e.1 = false) :
    st.gScore e.1 = some (e.2.1.length - 1) ∧
    ∀ m, StepsTo g0 s e.1 m → e.2.1.length - 1 ≤ m := by
  obtain ⟨hperm, hmin⟩ := popMin_spec hpop
  have hemem : e ∈ st.openSet := hperm.mem_iff.mpr (List.mem_cons_self _ _)
  obtain ⟨hchain, hlast, hfeq, ⟨gv0, hgv0, hgv0le⟩, heb, henw⟩ := hinv.entries e hemem
  have hgeq : gv0 = e.2.1.length - 1 := by
    rcases hinv.gOpen e.1 gv0 hgv0 with hc | ⟨e3, he3, he31, he3f⟩
    · rw [hc] at hclF
      exact absurd hclF (by simp)
    · have hmin3 := hmin e3 he3
      rw [hfeq, he3f] at hmin3
      omega
  constructor
  · rw [← hgeq]
    exact hgv0
  · intro m hm
    obtain ⟨e4, he4, hf4⟩ := astar_key hinv hm hclF
    have h5 := hmin e4 he4
    rw [hfeq] at h5
    omega

/-- Re-establishing the A-star invariant across one close-and-relax
iteration, with the relaxation output abstracted by the conclusions of
`relaxNeighbors_spec`. -/
theorem astarInv_step (g0 : Grid) (s epos : Pos) (st : AStarState)
    (hinv : AstarInv g0 s epos st) (e : AEntry) (rest : List AEntry)
    (hpop : popMin st.openSet = some (e, rest))
    (hclF : st.closed e.1 = false) (hend : ¬(e.1 = epos))
    (gs2 : Pos → Option Nat) (pushes : List AEntry)
    (u3 : ∀ x ∈ pushes, gstep (markVisitedAt st.grid e.1) e.1 x.1 ∧
      (if x.1 = e.1 then true else st.closed x.1) = false ∧
      x.2.1 = e.2.1 ++ [x.1] ∧
      x.2.2 = (e.2.1.length - 1 + 1) + manhattanDistance x.1.1 x.1.2 epos.1 epos.2 ∧
      gs2 x.1 = some (e.2.1.length - 1 + 1))
    (u4 : ∀ x, gs2 x = st.gScore x ∨
      (gs2 x = some (e.2.1.length - 1 + 1) ∧ ∃ y ∈ pushes, y.1 = x))
    (u5 : ∀ x gx, st.gScore x = some gx → ∃ gx2, gs2 x = some gx2 ∧ gx2 ≤ gx)
    (u6 : ∀ d ∈ [0, 1, 2, 3], gstep (markVisitedAt st.grid e.1) e.1 (stepPos e.1 d) →
      (if stepPos e.1 d = e.1 then true else st.closed (stepPos e.1 d)) = true ∨
      ∃ gw, gs2 (stepPos e.1 d) = some gw ∧ gw ≤ e.2.1.length - 1 + 1) :
    AstarInv g0 s epos
      { grid := markVisitedAt st.grid e.1,
        openSet := rest ++ pushes,
        gScore := gs2,
        closed := fun x => if x = e.1 then true else st.closed x,
        metrics := { st.metrics with nodesVisited := st.metrics.nodesVisited + 1 },
        snaps := st.snaps ++ [⟨true, cloneGrid (markVisitedAt st.grid e.1),
          { st.metrics with nodesVisited := st.metrics.nodesVisited + 1 }⟩] } := by
  obtain ⟨hperm, hmin⟩ := popMin_spec hpop
  have hemem : e ∈ st.openSet := hperm.mem_iff.mpr (List.mem_cons_self _ _)
  obtain ⟨hchain, hlast, hfeq, ⟨gv0, hgv0, hgv0le⟩, heb, henw⟩ := hinv.entries e hemem
  have hplen : 1 ≤ e.2.1.length := validChain_length_pos hchain
  obtain ⟨hgse, hopt⟩ := astar_pop_opt hinv hpop hclF
  have hFg1 : FlagsEq g0 (markVisitedAt st.grid e.1) :=
    flagsEq_trans hinv.flags (markVisitedAt_flagsEq st.grid e.1)
  have hPg1 : PathsEq g0 (markVisitedAt st.grid e.1) :=
    fun q => (markVisitedAt_pathsEq st.grid e.1 q).trans (hinv.paths q)
  have hgs1 : ∀ a b, gstep (markVisitedAt st.grid e.1) a b ↔ gstep g0 a b :=
    fun a b => gstep_congr hFg1 a b
  have hrestmem : ∀ x ∈ rest, x ∈ st.openSet :=
    fun x hx => hperm.mem_iff.mpr (List.mem_cons_of_mem _ hx)
  have hLs : StepsTo g0 s e.1 (e.2.1.length - 1) := hinv.gSound e.1 _ hgse
  refine ⟨hFg1, hPg1, ?_, ?_, ?_, ?_, ?_, ?_, ?_, ?_, ?_, ?_⟩
  · -- entries
    intro e' he'
    have he2 : e' ∈ rest ++ pushes := he'
    show ValidChain g0 s e'.2.1 ∧ e'.2.1.getLast? = some e'.1 ∧
      e'.2.2 = (e'.2.1.length - 1) + manhattanDistance e'.1.1 e'.1.2 epos.1 epos.2 ∧
      (∃ gv, gs2 e'.1 = some gv ∧ gv ≤ e'.2.1.length - 1) ∧
      inBounds g0 e'.1 ∧ ((g0.cell e'.1).isWall = false ∨ e'.1 = s)
    rcases List.mem_append.mp he2 with hr | hp
    · obtain ⟨hc, hl, hf, ⟨gv', hgv', hle'⟩, hb, hw⟩ := hinv.entries e' (hrestmem e' hr)
      obtain ⟨gv2, hgv2, hle2⟩ := u5 e'.1 gv' hgv'
      exact ⟨hc, hl, hf, ⟨gv2, hgv2, le_trans hle2 hle'⟩, hb, hw⟩
    · obtain ⟨hstep, hclq, hpath, hf, hgsq⟩ := u3 e' hp
      have hstep0 : gstep g0 e.1 e'.1 := (hgs1 _ _).mp hstep
      refine ⟨?_, ?_, ?_, ?_, hstep0.2.1, .inl hstep0.2.2⟩
      · rw [hpath]
        exact validChain_append hchain hlast hstep0
      · rw [hpath]
        simp
      · rw [hf, hpath]
        simp only [List.length_append, List.length_singleton]
        omega
      · refine ⟨e.2.1.length - 1 + 1, hgsq, ?_⟩
        rw [hpath]
        simp only [List.length_append, List.length_singleton]
        omega
  · -- gSound
    intro u gv' hgv'
    have hgv2 : gs2 u = some gv' := hgv'
    rcases u4 u with hsame | ⟨hw, y, hy, hy1⟩
    · rw [hsame] at hgv2
      exact hinv.gSound u gv' hgv2
    · rw [hw] at hgv2
      have hgveq : gv' = e.2.1.length - 1 + 1 := (Option.some.inj hgv2).symm
      subst hgveq
      obtain ⟨hstep, _, _, _, _⟩ := u3 y hy
      have hstep0 : gstep g0 e.1 y.1 := (hgs1 _ _).mp hstep
      show StepsTo g0 s u (e.2.1.length - 1 + 1)
      rw [← hy1]
      exact hLs.tail hstep0
  · -- gOpen
    intro u gv' hgv'
    have hgv2 : gs2 u = some gv' := hgv'
    show (if u = e.1 then true else st.closed u) = true ∨
      ∃ e3 ∈ rest ++ pushes, e3.1 = u ∧
        e3.2.2 = gv' + manhattanDistance u.1 u.2 epos.1 epos.2
    rcases u4 u with hsame | ⟨hw, y, hy, hy1⟩
    · rw [hsame] at hgv2
      rcases hinv.gOpen u gv' hgv2 with hc | ⟨e3, he3, he31, he3f⟩
      · left
        by_cases hu : u = e.1
        · rw [if_pos hu]
        · rw [if_neg hu]
          exact hc
      · rcases List.mem_cons.mp (hperm.mem_iff.mp he3) with he3e | he3r
        · left
          rw [if_pos (by rw [← he31, he3e])]
        · right
          exact ⟨e3, List.mem_append_left _ he3r, he31, he3f⟩
    · right
      rw [hw] at hgv2
      have hgveq : gv' = e.2.1.length - 1 + 1 := (Option.some.inj hgv2).symm
      subst hgveq
      obtain ⟨_, _, _, hf, _⟩ := u3 y hy
      refine ⟨y, List.mem_append_right _ hy, hy1, ?_⟩
      rw [hf, hy1]
  · -- gsStart
    obtain ⟨g2', hg2', hle0⟩ := u5 s 0 hinv.gsStart
    have hz : g2' = 0 := Nat.le_zero.mp hle0
    subst hz
    exact hg2'
  · -- closedOk
    intro u hu
    have hu2 : (if u = e.1 then true else st.closed u) = true := hu
    show ∃ gu, gs2 u = some gu ∧ (∀ m, StepsTo g0 s u m → gu ≤ m) ∧
      ∀ w, gstep g0 u w → (if w = e.1 then true else st.closed w) = true ∨
        ∃ gw, gs2 w = some gw ∧ gw ≤ gu + 1
    by_cases huv : u = e.1
    · subst huv
      refine ⟨e.2.1.length - 1, ?_, hopt, ?_⟩
      · rcases u4 e.1 with hsame | ⟨hw, y, hy, hy1⟩
        · rw [hsame]
          exact hgse
        · exfalso
          obtain ⟨hstep, _, _, _, _⟩ := u3 y hy
          obtain ⟨⟨d, hd⟩, _, _⟩ := hstep
          exact stepPos_ne_self d.isLt e.1 (hd.symm.trans hy1)
      · intro w hw0
        obtain ⟨d, hdmem, hdw⟩ := gstep_exists_dir hw0
        subst hdw
        have hstepg1 : gstep (markVisitedAt st.grid e.1) e.1 (stepPos e.1 d) :=
          (hgs1 _ _).mpr hw0
        rcases u6 d hdmem hstepg1 with hc | ⟨gw, hgw, hle⟩
        · exact .inl hc
        · exact .inr ⟨gw, hgw, hle⟩
    · have hcu : st.closed u = true := by rwa [if_neg huv] at hu2
      obtain ⟨gu, hgu, hoptu, hnbu⟩ := hinv.closedOk u hcu
      refine ⟨gu, ?_, hoptu, ?_⟩
      · rcases u4 u with hsame | ⟨hw, y, hy, hy1⟩
        · rw [hsame]
          exact hgu
        · exfalso
          obtain ⟨_, hclq, _, _, _⟩ := u3 y hy
          rw [hy1, if_neg huv] at hclq
          rw [hclq] at hcu
          exact absurd hcu (by simp)
      · intro w hw0
        rcases hnbu w hw0 with hc | ⟨gw, hgw, hle⟩
        · left
          by_cases hwv : w = e.1
          · rw [if_pos hwv]
          · rw [if_neg hwv]
            exact hc
        · right
          obtain ⟨gw2, hgw2, hle2⟩ := u5 w gw hgw
          exact ⟨gw2, hgw2, le_trans hle2 hle⟩
  · -- closedB
    intro u hu
    have hu2 : (if u = e.1 then true else st.closed u) = true := hu
    by_cases huv : u = e.1
    · subst huv
      exact ⟨heb, henw⟩
    · rw [if_neg huv] at hu2
      exact hinv.closedB u hu2
  · -- closedEnd
    show (if epos = e.1 then true else st.closed epos) = false
    rw [if_neg (fun h => hend h.symm)]
    exact hinv.closedEnd
  · -- counting
    show st.metrics.nodesVisited + 1 =
      ((boundsFinset g0).filter fun p => (if p = e.1 then true else st.closed p) = true).card
    rw [closedCard_close heb hclF, ← hinv.counting]
  · -- notFound
    exact hinv.notFound
  · -- snapsOk
    intro sn hsn
    have hsn2 : sn ∈ st.snaps ++ [⟨true, cloneGrid (markVisitedAt st.grid e.1),
        { st.metrics with nodesVisited := st.metrics.nodesVisited + 1 }⟩] := hsn
    rcases List.mem_append.mp hsn2 with h | h
    · exact hinv.snapsOk sn h
    · have hsne : sn = ⟨true, cloneGrid (markVisitedAt st.grid e.1),
        { st.metrics with nodesVisited := st.metrics.nodesVisited + 1 }⟩ := by simpa using h
      subst hsne
      exact ⟨rfl, hFg1, fun _ => pathsEq_pathSafe hPg1⟩

theorem astarGo_master (g0 : Grid) (s epos : Pos) :
    ∀ (fuel : Nat) (st : AStarState), AstarInv g0 s epos st → astarPot g0 st < fuel →
      ∃ r, astarGo epos fuel st = some r ∧ AstarPost g0 s epos r := by
  intro fuel
  induction fuel with
  | zero => intro st _ h; omega
  | succ fuel ih =>
    intro st hinv hpot
    cases hpop : popMin st.openSet with
    | none =>
      have hempty : st.openSet = [] := popMin_none.mp hpop
      refine ⟨astarNotFound st, by rw [astarGo, hpop], ?_, ?_, ?_, ?_, ?_, ?_, ?_⟩
      · intro hfd
        have hfd2 : st.metrics.isPathFound = true := hfd
        rw [hinv.notFound] at hfd2
        exact absurd hfd2 (by simp)
      · rintro ⟨n, hn⟩
        obtain ⟨e4, he4, _⟩ := astar_key hinv hn hinv.closedEnd
        rw [hempty] at he4
        simp at he4
      · show st.metrics.nodesVisited ≤ g0.rows * g0.cols
        have hle := (visitedTrue_card_le g0 s st.closed hinv.closedB).1
        rw [hinv.counting]
        exact hle
      · intro hs2
        show st.metrics.nodesVisited ≤ nonWallCount g0
        have hle := (visitedTrue_card_le g0 s st.closed hinv.closedB).2 hs2
        rw [hinv.counting]
        exact hle
      · exact hinv.flags
      · intro _
        exact pathsEq_pathSafe hinv.paths
      · intro sn hsn
        have hsn2 : sn ∈ st.snaps ++ [⟨true, cloneGrid st.grid, st.metrics⟩] := hsn
        rcases List.mem_append.mp hsn2 with h | h
        · exact hinv.snapsOk sn h
        · have hsne : sn = ⟨true, cloneGrid st.grid, st.metrics⟩ := by simpa using h
          subst hsne
          exact ⟨rfl, hinv.flags, fun _ => pathsEq_pathSafe hinv.paths⟩
    | some pr =>
      obtain ⟨e, rest⟩ := pr
      obtain ⟨hperm, hmin⟩ := popMin_spec hpop
      have hlen : st.openSet.length = rest.length + 1 := by
        rw [hperm.length_eq]
        simp
      by_cases hcl : st.closed e.1 = true
      · -- stale entry: skipped
        have heq : astarGo epos (fuel + 1) st =
            astarGo epos fuel { st with openSet := rest } := by
          rw [astarGo, hpop]
          dsimp only
          rw [if_pos hcl]
        have hinv2 : AstarInv g0 s epos { st with openSet := rest } := by
          refine ⟨hinv.flags, hinv.paths, ?_, hinv.gSound, ?_, hinv.gsStart, hinv.closedOk,
            hinv.closedB, hinv.closedEnd, hinv.counting, hinv.notFound, hinv.snapsOk⟩
          · intro e' he'
            exact hinv.entries e' (hperm.mem_iff.mpr (List.mem_cons_of_mem _ he'))
          · intro u gv hgv
            rcases hinv.gOpen u gv hgv with hc | ⟨e3, he3, he31, he3f⟩
            · exact .inl hc
            · rcases List.mem_cons.mp (hperm.mem_iff.mp he3) with he3e | he3r
              · left
                rw [← he31, he3e]
                exact hcl
              · exact .inr ⟨e3, he3r, he31, he3f⟩
        have hpot2 : astarPot g0 { st with openSet := rest } < fuel := by
          have h1 : astarPot g0 st = 4 * unclosedCard g0 st.closed + st.openSet.length := rfl
          have h2 : astarPot g0 { st with openSet := rest } =
              4 * unclosedCard g0 st.closed + rest.length := rfl
          omega
        obtain ⟨r, hr, hpost⟩ := ih { st with openSet := rest } hinv2 hpot2
        exact ⟨r, by rw [heq]; exact hr, hpost⟩
      · have hclF : st.closed e.1 = false := by rwa [Bool.not_eq_true] at hcl
        have hemem : e ∈ st.openSet := hperm.mem_iff.mpr (List.mem_cons_self _ _)
        obtain ⟨hchain, hlast, hfeq, ⟨gv0, hgv0, hgv0le⟩, heb, henw⟩ := hinv.entries e hemem
        have hplen : 1 ≤ e.2.1.length := validChain_length_pos hchain
        obtain ⟨hgse, hopt⟩ := astar_pop_opt hinv hpop hclF
        have hFg1 : FlagsEq g0 (markVisitedAt st.grid e.1) :=
          flagsEq_trans hinv.flags (markVisitedAt_flagsEq st.grid e.1)
        have hPg1 : PathsEq g0 (markVisitedAt st.grid e.1) :=
          fun q => (markVisitedAt_pathsEq st.grid e.1 q).trans (hinv.paths q)
        by_cases hend : e.1 = epos
        · -- the end position is popped: terminal found state
          have heq : astarGo epos (fuel + 1) st = some (astarFound st e) := by
            rw [astarGo, hpop]
            dsimp only
            rw [if_neg hcl, if_pos hend]
          have hFg2 : FlagsEq g0 (markPathList (markVisitedAt st.grid e.1) e.2.1) :=
            flagsEq_trans hFg1 (markPathList_flagsEq _ _)
          have hsafe2 : StartSafe g0 s →
              PathSafe g0 (markPathList (markVisitedAt st.grid e.1) e.2.1) := by
            intro hss q hq
            rw [markPathList_path_iff] at hq
            rcases hq with hq | ⟨hmem2, hs1, he1⟩
            · exact .inl ((hPg1 q).symm.trans hq)
            · right
              rw [hFg2.2.2.1 q]
              rcases validChain_mem_cases hchain hmem2 with hqs | hqw
              · subst hqs
                rcases hss with hss | hss
                · rw [hFg1.2.2.2.1 q, hss] at hs1
                  simp at hs1
                · exact hss
              · exact hqw
          have hBnew : ∀ u, (if u = e.1 then true else st.closed u) = true →
              inBounds g0 u ∧ ((g0.cell u).isWall = false ∨ u = s) := by
            intro u hu
            by_cases huv : u = e.1
            · subst huv
              exact ⟨heb, henw⟩
            · rw [if_neg huv] at hu
              exact hinv.closedB u hu
          have hcard := closedCard_close heb hclF
          refine ⟨astarFound st e, heq, ?_, ?_, ?_, ?_, ?_, ?_, ?_⟩
          · intro _
            show IsLeast {n | StepsTo g0 s epos n} (e.2.1.length - 1)
            constructor
            · show StepsTo g0 s epos (e.2.1.length - 1)
              have h5 := validChain_stepsTo hchain hlast
              rw [hend] at h5
              exact h5
            · intro m hm
              have hm2 : StepsTo g0 s e.1 m := by rw [hend]; exact hm
              exact hopt m hm2
          · intro _
            rfl
          · show st.metrics.nodesVisited + 1 ≤ g0.rows * g0.cols
            have hle1 : ((boundsFinset g0).filter fun p =>
                (if p = e.1 then true else st.closed p) = true).card ≤ g0.rows * g0.cols :=
              (visitedTrue_card_le g0 s (fun u => if u = e.1 then true else st.closed u)
                hBnew).1
            rw [hinv.counting]
            omega
          · intro hs2
            show st.metrics.nodesVisited + 1 ≤ nonWallCount g0
            have hle1 : ((boundsFinset g0).filter fun p =>
                (if p = e.1 then true else st.closed p) = true).card ≤ nonWallCount g0 :=
              (visitedTrue_card_le g0 s (fun u => if u = e.1 then true else st.closed u)
                hBnew).2 hs2
            rw [hinv.counting]
            omega
          · exact hFg2
          · exact hsafe2
          · intro sn hsn
            have hsn2 : sn ∈ (st.snaps ++ [⟨true, cloneGrid (markVisitedAt st.grid e.1),
                { st.metrics with nodesVisited := st.metrics.nodesVisited + 1 }⟩]) ++
                [⟨true, cloneGrid (markPathList (markVisitedAt st.grid e.1) e.2.1),
                  ⟨st.metrics.nodesVisited + 1, e.2.1.length - 1, true⟩⟩] := hsn
            rcases List.mem_append.mp hsn2 with h | h
            · rcases List.mem_append.mp h with h2 | h2
              · exact hinv.snapsOk sn h2
              · have hsne : sn = ⟨true, cloneGrid (markVisitedAt st.grid e.1),
                    { st.metrics with nodesVisited := st.metrics.nodesVisited + 1 }⟩ := by
                  simpa using h2
                subst hsne
                exact ⟨rfl, hFg1, fun _ => pathsEq_pathSafe hPg1⟩
            · have hsne : sn = ⟨true, cloneGrid (markPathList (markVisitedAt st.grid e.1)
                  e.2.1), ⟨st.metrics.nodesVisited + 1, e.2.1.length - 1, true⟩⟩ := by
                simpa using h
              subst hsne
              exact ⟨rfl, hFg2, hsafe2⟩
        · -- ordinary close-and-relax iteration
          obtain ⟨pushes, u1, u2, u3, u4, u5, u6⟩ :=
            relaxNeighbors_spec (markVisitedAt st.grid e.1) epos e.1 e.2.1
              (fun x => if x = e.1 then true else st.closed x) (e.2.1.length - 1)
              [0, 1, 2, 3] st.gScore rest hgse (by intro d hd; fin_cases hd <;> norm_num)
          have heq : astarGo epos (fuel + 1) st = astarGo epos fuel
              { grid := markVisitedAt st.grid e.1,
                openSet := (relaxNeighbors (markVisitedAt st.grid e.1) epos e.1 e.2.1
                  (fun x => if x = e.1 then true else st.closed x) [0, 1, 2, 3]
                  st.gScore rest).2,
                gScore := (relaxNeighbors (markVisitedAt st.grid e.1) epos e.1 e.2.1
                  (fun x => if x = e.1 then true else st.closed x) [0, 1, 2, 3]
                  st.gScore rest).1,
                closed := fun x => if x = e.1 then true else st.closed x,
                metrics := { st.metrics with nodesVisited := st.metrics.nodesVisited + 1 },
                snaps := st.snaps ++ [⟨true, cloneGrid (markVisitedAt st.grid e.1),
                  { st.metrics with nodesVisited := st.metrics.nodesVisited + 1 }⟩] } := by
            rw [astarGo, hpop]
            dsimp only
            rw [if_neg hcl, if_neg hend]
          rw [u1] at heq
          have hinv2 := astarInv_step g0 s epos st hinv e rest hpop hclF hend
            (relaxNeighbors (markVisitedAt st.grid e.1) epos e.1 e.2.1
              (fun x => if x = e.1 then true else st.closed x) [0, 1, 2, 3]
              st.gScore rest).1 pushes u3 u4 u5 u6
          have hpot2 : astarPot g0
              { grid := markVisitedAt st.grid e.1,
                openSet := rest ++ pushes,
                gScore := (relaxNeighbors (markVisitedAt st.grid e.1) epos e.1 e.2.1
                  (fun x => if x = e.1 then true else st.closed x) [0, 1, 2, 3]
                  st.gScore rest).1,
                closed := fun x => if x = e.1 then true else st.closed x,
                metrics := { st.metrics with nodesVisited := st.metrics.nodesVisited + 1 },
                snaps := st.snaps ++ [⟨true, cloneGrid (markVisitedAt st.grid e.1),
                  { st.metrics with nodesVisited := st.metrics.nodesVisited + 1 }⟩] }
              < fuel := by
            have hcard := unclosedCard_close heb hclF
            have h1 : astarPot g0 st = 4 * unclosedCard g0 st.closed + st.openSet.length := rfl
            have h2 : astarPot g0
                { grid := markVisitedAt st.grid e.1,
                  openSet := rest ++ pushes,
                  gScore := (relaxNeighbors (markVisitedAt st.grid e.1) epos e.1 e.2.1
                    (fun x => if x = e.1 then true else st.closed x) [0, 1, 2, 3]
                    st.gScore rest).1,
                  closed := fun x => if x = e.1 then true else st.closed x,
                  metrics := { st.metrics with nodesVisited := st.metrics.nodesVisited + 1 },
                  snaps := st.snaps ++ [⟨true, cloneGrid (markVisitedAt st.grid e.1),
                    { st.metrics with nodesVisited := st.metrics.nodesVisited + 1 }⟩] } =
                4 * unclosedCard g0 (fun x => if x = e.1 then true else st.closed x) +
                  (rest ++ pushes).length := rfl
            have h3 : (rest ++ pushes).length = rest.length + pushes.length := by simp
            have h4 : pushes.length ≤ 4 := by simpa using u2
            omega
          obtain ⟨r, hr, hpost⟩ := ih _ hinv2 hpot2
          exact ⟨r, by rw [heq]; exact hr, hpost⟩

theorem astarInv_init (g0 : Grid) (s epos : Pos) (hs : inBounds g0 s) :
    AstarInv g0 s epos
      { grid := g0,
        openSet := [(s, [s], manhattanDistance s.1 s.2 epos.1 epos.2)],
        gScore := fun x => if x = s then some 0 else none,
        closed := fun _ => false,
        metrics := ⟨0, 0, false⟩,
        snaps := [] } := by
  refine ⟨flagsEq_refl g0, fun _ => rfl, ?_, ?_, ?_, ?_, ?_, ?_, ?_, ?_, ?_, ?_⟩
  · intro e he
    have he2 : e = (s, [s], manhattanDistance s.1 s.2 epos.1 epos.2) := by simpa using he
    subst he2
    refine ⟨validChain_singleton g0 s, by simp, by simp, ⟨0, by simp, by simp⟩, hs, .inr rfl⟩
  · intro u gv hgv
    have hgv2 : (if u = s then some 0 else none) = some gv := hgv
    by_cases hu : u = s
    · subst hu
      rw [if_pos rfl] at hgv2
      have hgv0 : gv = 0 := by simpa using hgv2.symm
      subst hgv0
      exact .refl
    · rw [if_neg hu] at hgv2
      exact absurd hgv2 (by simp)
  · intro u gv hgv
    have hgv2 : (if u = s then some 0 else none) = some gv := hgv
    by_cases hu : u = s
    · subst hu
      rw [if_pos rfl] at hgv2
      have hgv0 : gv = 0 := by simpa using hgv2.symm
      subst hgv0
      exact .inr ⟨(u, [u], manhattanDistance u.1 u.2 epos.1 epos.2), by simp, rfl, by simp⟩
    · rw [if_neg hu] at hgv2
      exact absurd hgv2 (by simp)
  · show (if s = s then some 0 else none) = some 0
    rw [if_pos rfl]
  · intro u hu
    exact absurd hu (by simp)
  · intro u hu
    exact absurd hu (by simp)
  · rfl
  · show 0 = ((boundsFinset g0).filter fun p => false = true).card
    simp
  · rfl
  · intro sn hsn
    simp at hsn

/-- Workhorse description of `runAStar`: shortest-path optimality of the
reported `pathLength` (toward the position `findPositions` reports for
the end), completeness, node-count bounds and snapshot/grid frame
safety. -/
theorem runAStar_post (g0 : Grid) (hs : inBounds g0 (findPositions g0).1) :
    ((runAStar g0).metrics.isPathFound = true →
      IsLeast {n | StepsTo g0 (findPositions g0).1 (findPositions g0).2 n}
        (runAStar g0).metrics.pathLength) ∧
    (Reach g0 (findPositions g0).1 (findPositions g0).2 →
      (runAStar g0).metrics.isPathFound = true) ∧
    (runAStar g0).metrics.nodesVisited ≤ g0.rows * g0.cols ∧
    ((g0.cell (findPositions g0).1).isWall = false →
      (runAStar g0).metrics.nodesVisited ≤ nonWallCount g0) ∧
    FlagsEq g0 (runAStar g0).grid ∧
    (StartSafe g0 (findPositions g0).1 → PathSafe g0 (runAStar g0).grid) ∧
    (∀ sn ∈ (runAStar g0).snapshots, sn.gridFresh = true ∧ FlagsEq g0 sn.grid ∧
      (StartSafe g0 (findPositions g0).1 → PathSafe g0 sn.grid)) := by
  have hinv : AstarInv g0 (findPositions g0).1 (findPositions g0).2
      { grid := cloneGrid g0,
        openSet := [((findPositions (cloneGrid g0)).1, [(findPositions (cloneGrid g0)).1],
          manhattanDistance (findPositions (cloneGrid g0)).1.1
            (findPositions (cloneGrid g0)).1.2
            (findPositions (cloneGrid g0)).2.1 (findPositions (cloneGrid g0)).2.2)],
        gScore := fun x => if x = (findPositions (cloneGrid g0)).1 then some 0 else none,
        closed := fun _ => false,
        metrics := ⟨0, 0, false⟩,
        snaps := [] } :=
    astarInv_init g0 (findPositions g0).1 (findPositions g0).2 hs
  have hpot : astarPot g0
      { grid := cloneGrid g0,
        openSet := [((findPositions (cloneGrid g0)).1, [(findPositions (cloneGrid g0)).1],
          manhattanDistance (findPositions (cloneGrid g0)).1.1
            (findPositions (cloneGrid g0)).1.2
            (findPositions (cloneGrid g0)).2.1 (findPositions (cloneGrid g0)).2.2)],
        gScore := fun x => if x = (findPositions (cloneGrid g0)).1 then some 0 else none,
        closed := fun _ => false,
        metrics := ⟨0, 0, false⟩,
        snaps := [] } < astarFuel (cloneGrid g0) := by
    have h1 : unclosedCard g0 (fun _ => false) ≤ g0.rows * g0.cols := by
      unfold unclosedCard
      rw [← boundsFinset_card g0]
      exact Finset.card_filter_le _ _
    have h2 : astarPot g0
        { grid := cloneGrid g0,
          openSet := [((findPositions (cloneGrid g0)).1, [(findPositions (cloneGrid g0)).1],
            manhattanDistance (findPositions (cloneGrid g0)).1.1
              (findPositions (cloneGrid g0)).1.2
              (findPositions (cloneGrid g0)).2.1 (findPositions (cloneGrid g0)).2.2)],
          gScore := fun x => if x = (findPositions (cloneGrid g0)).1 then some 0 else none,
          closed := fun _ => false,
          metrics := ⟨0, 0, false⟩,
          snaps := [] } = 4 * unclosedCard g0 (fun _ => false) + 1 := rfl
    have h3 : astarFuel (cloneGrid g0) = 4 * (g0.rows * g0.cols) + 2 := rfl
    omega
  obtain ⟨r, hr, hpost⟩ := astarGo_master g0 (findPositions g0).1 (findPositions g0).2
    (astarFuel (cloneGrid g0)) _ hinv hpot
  have hr2 : astarGo (findPositions (cloneGrid g0)).2 (astarFuel (cloneGrid g0))
      { grid := cloneGrid g0,
        openSet := [((findPositions (cloneGrid g0)).1, [(findPositions (cloneGrid g0)).1],
          manhattanDistance (findPositions (cloneGrid g0)).1.1
            (findPositions (cloneGrid g0)).1.2
            (findPositions (cloneGrid g0)).2.1 (findPositions (cloneGrid g0)).2.2)],
        gScore := fun x => if x = (findPositions (cloneGrid g0)).1 then some 0 else none,
        closed := fun _ => false,
        metrics := ⟨0, 0, false⟩,
        snaps := [] } = some r := hr
  have hrun : runAStar g0 = r := by
    unfold runAStar
    cases hgo : astarGo (findPositions (cloneGrid g0)).2 (astarFuel (cloneGrid g0))
        { grid := cloneGrid g0,
          openSet := [((findPositions (cloneGrid g0)).1, [(findPositions (cloneGrid g0)).1],
            manhattanDistance (findPositions (cloneGrid g0)).1.1
              (findPositions (cloneGrid g0)).1.2
              (findPositions (cloneGrid g0)).2.1 (findPositions (cloneGrid g0)).2.2)],
          gScore := fun x => if x = (findPositions (cloneGrid g0)).1 then some 0 else none,
          closed := fun _ => false,
          metrics := ⟨0, 0, false⟩,
          snaps := [] } with
    | none => rw [hgo] at hr2; simp at hr2
    | some r2 =>
      rw [hgo] at hr2
      simp only [Option.some.injEq] at hr2
      simp [hgo, hr2]
  obtain ⟨hopt, hcomp, hnv1, hnv2, hgrid, hgsafe, hsnaps⟩ := hpost
  rw [hrun]
  exact ⟨hopt, hcomp, hnv1, hnv2, hgrid, hgsafe, hsnaps⟩

/-- Cell constructor for concrete test grids. -/
def cellMk (w st en : Bool) : Cell :=
  { row := 0, col := 0, isWall := w, isStart := st, isEnd := en,
    isVisited := false, isPath := false }

/-- Concrete 1-by-2 grid: a non-wall start at (0,0) and a non-wall end at
(0,1). -/
def gridW2 : Grid :=
  { rows := 1, cols := 2,
    cell := fun p =>
      if p = ((0 : Int), (0 : Int)) then cellMk false true false
      else if p = ((0 : Int), (1 : Int)) then cellMk false false true
      else cellMk true false false }

/-- C2: for every grid with one start cell `s` and one end cell `e`, if
`runBFS` reports `isPathFound = true` then the reported `pathLength` is
both achieved by a walk from `s` to `e` over non-wall cells and minimal
among all such walks: the path carried when the end cell is first
dequeued is optimal. -/
theorem C2_runBFS_shortest (g0 : Grid) (s e : Pos)
    (hs : UniqueStart g0 s) (he : UniqueEnd g0 e)
    (hfound : (runBFS g0).metrics.isPathFound = true) :
    IsLeast {n | StepsTo g0 s e n} (runBFS g0).metrics.pathLength := by
  have hfp : (findPositions g0).1 = s := findPositions_fst_of_uniqueStart hs
  have hb : inBounds g0 (findPositions g0).1 := hfp ▸ hs.1
  have := (runBFS_post g0 hb).1 hfound e he
  rwa [hfp] at this

/-- Witness for C2 on the concrete 1-by-2 grid. -/
theorem C2_runBFS_shortest_witness :
    UniqueStart gridW2 (0, 0) ∧ UniqueEnd gridW2 (0, 1) ∧
      (runBFS gridW2).metrics.isPathFound = true ∧
      IsLeast {n | StepsTo gridW2 (0, 0) (0, 1) n} (runBFS gridW2).metrics.pathLength :=
  ⟨by decide, by decide, by decide,
    C2_runBFS_shortest gridW2 (0, 0) (0, 1) (by decide) (by decide) (by decide)⟩

/-! ### DFS engine (`algorithms.ts` lines 62-165)

Identical loop structure to BFS except: the frontier is a stack (the
most recently pushed entry is popped first), and the directions are
re-shuffled before every expansion with four `Math.random()` draws. -/

/-- State of the DFS loop: a search state plus the random-draw counter. -/
structure DfsState where
  grid : Grid
  frontier : List (Pos × List Pos)
  visited : Pos → Bool
  metrics : AlgorithmMetrics
  snaps : List (StepSnapshot AlgorithmMetrics)
  rk : Nat

/-- Forget the draw counter. -/
def DfsState.toSearch (st : DfsState) : SearchState :=
  { grid := st.grid, frontier := st.frontier, visited := st.visited,
    metrics := st.metrics, snaps := st.snaps }

/-- Loop of `runDFS` on fuel.  `push` appends at the array end and `pop`
takes the array end, so entries pushed later pop earlier: with the list
head as stack top, the new entries are prepended in reverse push order. -/
def dfsGo (σ : Nat → Nat) : Nat → DfsState → Option (RunResult AlgorithmMetrics)
  | 0, _ => none
  | fuel + 1, st =>
    match st.frontier with
    | [] => some (finalizeNotFound st.toSearch)
    | (v, p) :: rest =>
      let g1 := markVisitedAt st.grid v
      let m1 := { st.metrics with nodesVisited := st.metrics.nodesVisited + 1 }
      let sn1 := st.snaps ++ [⟨true, cloneGrid g1, m1⟩]
      if (g1.cell v).isEnd = true then
        some (finalizeFound st.toSearch v p)
      else
        let dirs := shuffleDirs σ st.rk
        let ex := expandNeighbors g1 st.visited v p dirs
        dfsGo σ fuel
          { grid := g1,
            frontier := ex.2.reverse ++ rest,
            visited := ex.1,
            metrics := m1,
            snaps := sn1,
            rk := st.rk + 4 }

/-- Embedding of `runDFS` (`algorithms.ts` lines 62-165). -/
def runDFS (g0 : Grid) (σ : Nat → Nat) : RunResult AlgorithmMetrics :=
  let g := cloneGrid g0
  let s := (findPositions g).1
  let st0 : DfsState :=
    { grid := g,
      frontier := [(s, [s])],
      visited := fun x => decide (x = s),
      metrics := ⟨0, 0, false⟩,
      snaps := [],
      rk := 0 }
  match dfsGo σ (bfsFuel g) st0 with
  | some r => r
  | none => finalizeNotFound st0.toSearch

/-- Loop invariant of the DFS stack: like the BFS one minus the
queue-ordering and level components (DFS promises no minimality). -/
structure DfsInv (g0 : Grid) (s : Pos) (st : DfsState) : Prop where
  flags : FlagsEq g0 st.grid
  paths : PathsEq g0 st.grid
  entries : ∀ e ∈ st.frontier, ValidChain g0 s e.2 ∧ e.2.getLast? = some e.1 ∧
    st.visited e.1 = true
  closure : ∀ u, st.visited u = true → (∀ e ∈ st.frontier, e.1 ≠ u) →
    ∀ w, gstep g0 u w → st.visited w = true
  startVis : st.visited s = true
  counting : st.metrics.nodesVisited + st.frontier.length =
    ((boundsFinset g0).filter fun p => st.visited p = true).card
  visOk : ∀ p, st.visited p = true → inBounds g0 p ∧ ((g0.cell p).isWall = false ∨ p = s)
  snapsOk : ∀ sn ∈ st.snaps, sn.gridFresh = true ∧ FlagsEq g0 sn.grid ∧
    (StartSafe g0 s → PathSafe g0 sn.grid)

/-- Everything the claims need of a finished DFS run from state `st`:
the found path is a real walk of the reported length (so never shorter
than the BFS distance), the search is complete, and the same counting
and frame guarantees as BFS. -/
def DfsPost (g0 : Grid) (s : Pos) (st : DfsState) (r : RunResult AlgorithmMetrics) : Prop :=
  (r.metrics.isPathFound = true →
    ∀ epos, UniqueEnd g0 epos → StepsTo g0 s epos r.metrics.pathLength) ∧
  (∀ epos, (g0.cell epos).isEnd = true → Reach g0 s epos →
    (st.visited epos = true → ∃ e ∈ st.frontier, e.1 = epos) →
    r.metrics.isPathFound = true) ∧
  r.metrics.nodesVisited ≤ g0.rows * g0.cols ∧
  ((g0.cell s).isWall = false → r.metrics.nodesVisited ≤ nonWallCount g0) ∧
  FlagsEq g0 r.grid ∧
  (StartSafe g0 s → PathSafe g0 r.grid) ∧
  (∀ sn ∈ r.snapshots, sn.gridFresh = true ∧ FlagsEq g0 sn.grid ∧
    (StartSafe g0 s → PathSafe g0 sn.grid))

theorem dfsGo_master (g0 : Grid) (s : Pos) (σ : Nat → Nat) :
    ∀ (fuel : Nat) (st : DfsState), DfsInv g0 s st →
      unvisitedCard g0 st.visited + st.frontier.length < fuel →
      ∃ r, dfsGo σ fuel st = some r ∧ DfsPost g0 s st r := by
  intro fuel
  induction fuel with
  | zero => intro st _ h; omega
  | succ fuel ih =>
    intro st hinv hpot
    cases hf : st.frontier with
    | nil =>
      refine ⟨finalizeNotFound st.toSearch, by rw [dfsGo, hf], ?_, ?_, ?_, ?_, ?_, ?_, ?_⟩
      · intro hfound
        simp [finalizeNotFound] at hfound
      · intro epos hflag hreach hcond
        exfalso
        have hall : ∀ {u n}, StepsTo g0 s u n → st.visited u = true := by
          intro u n h
          induction h with
          | refl => exact hinv.startVis
          | tail hz hq ihz =>
            exact hinv.closure _ ihz (by rw [hf]; intro e he; simp at he) _ hq
        obtain ⟨n, hn⟩ := hreach
        obtain ⟨e, he, _⟩ := hcond (hall hn)
        rw [hf] at he
        simp at he
      · have hcount := hinv.counting
        rw [hf] at hcount
        have hle := (visitedTrue_card_le g0 s st.visited hinv.visOk).1
        simp only [List.length_nil] at hcount
        show st.metrics.nodesVisited ≤ g0.rows * g0.cols
        omega
      · intro hsw
        have hcount := hinv.counting
        rw [hf] at hcount
        have hle := (visitedTrue_card_le g0 s st.visited hinv.visOk).2 hsw
        simp only [List.length_nil] at hcount
        show st.metrics.nodesVisited ≤ nonWallCount g0
        omega
      · exact hinv.flags
      · intro _
        exact pathsEq_pathSafe hinv.paths
      · intro sn hsn
        simp only [finalizeNotFound, List.mem_append, List.mem_singleton] at hsn
        rcases hsn with h | h
        · exact hinv.snapsOk sn h
        · subst h
          exact ⟨rfl, hinv.flags, fun _ => pathsEq_pathSafe hinv.paths⟩
    | cons e0 rest =>
      obtain ⟨v, p⟩ := e0
      have hFg1 : FlagsEq g0 (markVisitedAt st.grid v) :=
        flagsEq_trans hinv.flags (markVisitedAt_flagsEq st.grid v)
      have hPg1 : PathsEq g0 (markVisitedAt st.grid v) :=
        fun q => (markVisitedAt_pathsEq st.grid v q).trans (hinv.paths q)
      have hvmem : (v, p) ∈ st.frontier := by rw [hf]; exact List.mem_cons_self _ _
      have hentry := hinv.entries (v, p) hvmem
      by_cases hend : ((markVisitedAt st.grid v).cell v).isEnd = true
      · have hendg0 : (g0.cell v).isEnd = true := (hFg1.2.2.2.2 v).symm.trans hend
        have hFg2 : FlagsEq g0 (markPathList (markVisitedAt st.grid v) p) :=
          flagsEq_trans hFg1 (markPathList_flagsEq (markVisitedAt st.grid v) p)
        have hsafe2 : StartSafe g0 s →
            PathSafe g0 (markPathList (markVisitedAt st.grid v) p) := by
          intro hss q hq
          rw [markPathList_path_iff] at hq
          rcases hq with hq | ⟨hmem, hs1, he1⟩
          · exact .inl ((hPg1 q).symm.trans hq)
          · right
            rw [hFg2.2.2.1 q]
            rcases validChain_mem_cases hentry.1 hmem with hqs | hqw
            · subst hqs
              rcases hss with hss | hss
              · rw [hFg1.2.2.2.1 q, hss] at hs1
                simp at hs1
              · exact hss
            · exact hqw
        have hnv : st.metrics.nodesVisited + 1 ≤
            ((boundsFinset g0).filter fun q => st.visited q = true).card := by
          have hcount := hinv.counting
          rw [hf] at hcount
          simp only [List.length_cons] at hcount
          omega
        refine ⟨finalizeFound st.toSearch v p,
          by rw [dfsGo, hf]; simp only [hend, if_true], ?_, ?_, ?_, ?_, ?_, ?_, ?_⟩
        · intro _ epos hue
          have hvb : inBounds g0 v := (hinv.visOk v hentry.2.2).1
          have hveq : v = epos := hue.2.2 v hvb hendg0
          subst hveq
          show StepsTo g0 s v (p.length - 1)
          exact validChain_stepsTo hentry.1 hentry.2.1
        · intro _ _ _ _
          rfl
        · show st.metrics.nodesVisited + 1 ≤ g0.rows * g0.cols
          have hle := (visitedTrue_card_le g0 s st.visited hinv.visOk).1
          omega
        · intro hsw
          show st.metrics.nodesVisited + 1 ≤ nonWallCount g0
          have hle := (visitedTrue_card_le g0 s st.visited hinv.visOk).2 hsw
          omega
        · exact hFg2
        · exact hsafe2
        · intro sn hsn
          simp only [finalizeFound, List.mem_append, List.mem_singleton] at hsn
          rcases hsn with (h | h) | h
          · exact hinv.snapsOk sn h
          · subst h
            exact ⟨rfl, hFg1, fun _ => pathsEq_pathSafe hPg1⟩
          · subst h
            exact ⟨rfl, hFg2, hsafe2⟩
      · obtain ⟨ws, h1, h2, h3, h4, h5⟩ :=
          expandNeighbors_spec (markVisitedAt st.grid v) v p (shuffleDirs σ st.rk) st.visited
            (by
              intro d hd
              have := mem_shuffleDirs.mp hd
              fin_cases this <;> norm_num)
        have hgs : ∀ a b, gstep (markVisitedAt st.grid v) a b ↔ gstep g0 a b :=
          fun a b => gstep_congr hFg1 a b
        have hwsb : ∀ w ∈ ws, inBounds g0 w := by
          intro w hw
          have := (h3 w hw).1.2.1
          rwa [inBounds_of_dims hFg1.1 hFg1.2.1] at this
        have hwsnw : ∀ w ∈ ws, (g0.cell w).isWall = false := by
          intro w hw
          have := (h3 w hw).1.2.2
          rwa [hFg1.2.2.1 w] at this
        set news := ws.map (fun w => (w, p ++ [w])) with hnews
        have hmemfr : ∀ e, e ∈ news.reverse ++ rest ↔ e ∈ rest ∨ e ∈ news := by
          intro e
          rw [List.mem_append, List.mem_reverse]
          tauto
        have hentries2 : ∀ e ∈ news.reverse ++ rest,
            ValidChain g0 s e.2 ∧ e.2.getLast? = some e.1 ∧
            (expandNeighbors (markVisitedAt st.grid v) st.visited v p
              (shuffleDirs σ st.rk)).1 e.1 = true := by
          intro e he
          rcases (hmemfr e).mp he with h | h
          · have old := hinv.entries e (by rw [hf]; exact List.mem_cons_of_mem _ h)
            exact ⟨old.1, old.2.1, by rw [h4]; simp [old.2.2]⟩
          · obtain ⟨w, hw, rfl⟩ := List.mem_map.mp h
            exact ⟨validChain_append hentry.1 hentry.2.1 ((hgs v w).mp (h3 w hw).1),
              by simp, by rw [h4]; simp [hw]⟩
        have hclosure2 : ∀ u,
            (expandNeighbors (markVisitedAt st.grid v) st.visited v p
              (shuffleDirs σ st.rk)).1 u = true →
            (∀ e ∈ news.reverse ++ rest, e.1 ≠ u) → ∀ w, gstep g0 u w →
            (expandNeighbors (markVisitedAt st.grid v) st.visited v p
              (shuffleDirs σ st.rk)).1 w = true := by
          intro u hu hnotin w hw
          rw [h4] at hu
          rcases Bool.or_eq_true_iff.mp hu with hu | hu
          · by_cases huv : u = v
            · subst huv
              obtain ⟨d, hd, rfl⟩ := gstep_exists_dir hw
              exact h5 d (mem_shuffleDirs.mpr hd) ((hgs u (stepPos u d)).mpr hw)
            · have hold : st.visited w = true := by
                refine hinv.closure u hu ?_ w hw
                intro e he
                rw [hf] at he
                rcases List.mem_cons.mp he with h | h
                · rw [h]
                  intro hc
                  exact huv hc.symm
                · exact hnotin e ((hmemfr e).mpr (.inl h))
              rw [h4]
              simp [hold]
          · exfalso
            have huws : u ∈ ws := by simpa using hu
            exact hnotin (u, p ++ [u])
              ((hmemfr _).mpr (.inr (List.mem_map_of_mem _ huws))) rfl
        have hcount2 :
            (st.metrics.nodesVisited + 1) + (news.reverse ++ rest).length =
            ((boundsFinset g0).filter fun q =>
              (expandNeighbors (markVisitedAt st.grid v) st.visited v p
                (shuffleDirs σ st.rk)).1 q = true).card := by
          have hvc := visitedCard_expand h4 h2 (fun w hw => (h3 w hw).2) hwsb
          have hcount := hinv.counting
          rw [hf] at hcount
          simp only [List.length_cons] at hcount
          rw [List.length_append, List.length_reverse, hvc]
          have : news.length = ws.length := by rw [hnews, List.length_map]
          omega
        have hvisOk2 : ∀ q,
            (expandNeighbors (markVisitedAt st.grid v) st.visited v p
              (shuffleDirs σ st.rk)).1 q = true →
            inBounds g0 q ∧ ((g0.cell q).isWall = false ∨ q = s) := by
          intro q hq
          rw [h4] at hq
          rcases Bool.or_eq_true_iff.mp hq with hq | hq
          · exact hinv.visOk q hq
          · have hqws : q ∈ ws := by simpa using hq
            exact ⟨hwsb q hqws, .inl (hwsnw q hqws)⟩
        have hinv2 : DfsInv g0 s
            { grid := markVisitedAt st.grid v,
              frontier := (expandNeighbors (markVisitedAt st.grid v) st.visited v p
                (shuffleDirs σ st.rk)).2.reverse ++ rest,
              visited := (expandNeighbors (markVisitedAt st.grid v) st.visited v p
                (shuffleDirs σ st.rk)).1,
              metrics := { st.metrics with nodesVisited := st.metrics.nodesVisited + 1 },
              snaps := st.snaps ++ [⟨true, cloneGrid (markVisitedAt st.grid v),
                { st.metrics with nodesVisited := st.metrics.nodesVisited + 1 }⟩],
              rk := st.rk + 4 } := by
          rw [h1]
          refine ⟨hFg1, hPg1, hentries2, hclosure2, ?_, hcount2, hvisOk2, ?_⟩
          · show (expandNeighbors (markVisitedAt st.grid v) st.visited v p
              (shuffleDirs σ st.rk)).1 s = true
            rw [h4]
            simp [hinv.startVis]
          · intro sn hsn
            simp only [List.mem_append, List.mem_singleton] at hsn
            rcases hsn with h | h
            · exact hinv.snapsOk sn h
            · subst h
              exact ⟨rfl, hFg1, fun _ => pathsEq_pathSafe hPg1⟩
        have hpot2 : unvisitedCard g0
            (expandNeighbors (markVisitedAt st.grid v) st.visited v p
              (shuffleDirs σ st.rk)).1 +
            ((expandNeighbors (markVisitedAt st.grid v) st.visited v p
              (shuffleDirs σ st.rk)).2.reverse ++ rest).length < fuel := by
          have hvc := unvisitedCard_expand h4 h2 (fun w hw => (h3 w hw).2) hwsb
          rw [hf] at hpot
          simp only [List.length_cons] at hpot
          rw [List.length_append, List.length_reverse]
          have hlen2 :
              (expandNeighbors (markVisitedAt st.grid v) st.visited v p
                (shuffleDirs σ st.rk)).2.length = ws.length := by
            rw [h1, hnews, List.length_map]
          omega
        obtain ⟨r, hr, hopt, hcomp, hnv1, hnv2, hgrid, hgsafe, hsnaps⟩ := ih _ hinv2 hpot2
        refine ⟨r, ?_, hopt, ?_, hnv1, hnv2, hgrid, hgsafe, hsnaps⟩
        · conv_lhs => rw [dfsGo]
          rw [hf]
          simp only [hend, Bool.false_eq_true, if_false]
          exact hr
        · intro epos hfl hre hcond
          refine hcomp epos hfl hre ?_
          intro hvis2
          have hvis3 : (expandNeighbors (markVisitedAt st.grid v) st.visited v p
              (shuffleDirs σ st.rk)).1 epos = true := hvis2
          rw [h4] at hvis3
          rcases Bool.or_eq_true_iff.mp hvis3 with hv | hv
          · obtain ⟨e, he, hee⟩ := hcond hv
            rw [hf] at he
            rcases List.mem_cons.mp he with h | h
            · exfalso
              subst h
              have hee2 : v = epos := hee
              subst hee2
              rw [hFg1.2.2.2.2 v] at hend
              exact hend hfl
            · refine ⟨e, ?_, hee⟩
              show e ∈ (expandNeighbors (markVisitedAt st.grid v) st.visited v p
                (shuffleDirs σ st.rk)).2.reverse ++ rest
              rw [h1]
              exact (hmemfr e).mpr (.inl h)
          · have hqws : epos ∈ ws := by simpa using hv
            refine ⟨(epos, p ++ [epos]), ?_, rfl⟩
            show (epos, p ++ [epos]) ∈ (expandNeighbors (markVisitedAt st.grid v)
              st.visited v p (shuffleDirs σ st.rk)).2.reverse ++ rest
            rw [h1]
            exact (hmemfr _).mpr (.inr (List.mem_map_of_mem _ hqws))

theorem dfsInv_init (g0 : Grid) (s : Pos) (hs : inBounds g0 s) (rk : Nat) :
    DfsInv g0 s
      { grid := g0,
        frontier := [(s, [s])],
        visited := fun x => decide (x = s),
        metrics := ⟨0, 0, false⟩,
        snaps := [],
        rk := rk } := by
  refine ⟨flagsEq_refl g0, fun _ => rfl, ?_, ?_, ?_, ?_, ?_, ?_⟩
  · intro e he
    simp only [List.mem_singleton] at he
    subst he
    exact ⟨validChain_singleton g0 s, by simp, by simp⟩
  · intro u hu hne w _
    exfalso
    simp only [decide_eq_true_eq] at hu
    exact hne (s, [s]) (by simp) (by simp [hu])
  · simp
  · show 0 + 1 = ((boundsFinset g0).filter fun p => decide (p = s) = true).card
    have : ((boundsFinset g0).filter fun p => decide (p = s) = true) = {s} := by
      ext q
      simp only [Finset.mem_filter, decide_eq_true_eq, Finset.mem_singleton]
      constructor
      · rintro ⟨_, h⟩; exact h
      · rintro rfl; exact ⟨mem_boundsFinset.mpr hs, rfl⟩
    rw [this]
    simp
  · intro q hq
    simp only [decide_eq_true_eq] at hq
    subst hq
    exact ⟨hs, .inr rfl⟩
  · intro sn hsn
    simp at hsn

/-- Workhorse description of `runDFS`, for every outcome `σ` of the
direction shuffles. -/
theorem runDFS_post (g0 : Grid) (σ : Nat → Nat) (hs : inBounds g0 (findPositions g0).1) :
    ((runDFS g0 σ).metrics.isPathFound = true →
      ∀ epos, UniqueEnd g0 epos →
        StepsTo g0 (findPositions g0).1 epos (runDFS g0 σ).metrics.pathLength) ∧
    (∀ epos, (g0.cell epos).isEnd = true → Reach g0 (findPositions g0).1 epos →
      (runDFS g0 σ).metrics.isPathFound = true) ∧
    (runDFS g0 σ).metrics.nodesVisited ≤ g0.rows * g0.cols ∧
    ((g0.cell (findPositions g0).1).isWall = false →
      (runDFS g0 σ).metrics.nodesVisited ≤ nonWallCount g0) ∧
    FlagsEq g0 (runDFS g0 σ).grid ∧
    (StartSafe g0 (findPositions g0).1 → PathSafe g0 (runDFS g0 σ).grid) ∧
    (∀ sn ∈ (runDFS g0 σ).snapshots, sn.gridFresh = true ∧ FlagsEq g0 sn.grid ∧
      (StartSafe g0 (findPositions g0).1 → PathSafe g0 sn.grid)) := by
  have hinv : DfsInv g0 (findPositions g0).1
      { grid := cloneGrid g0,
        frontier := [((findPositions (cloneGrid g0)).1, [(findPositions (cloneGrid g0)).1])],
        visited := fun x => decide (x = (findPositions (cloneGrid g0)).1),
        metrics := ⟨0, 0, false⟩,
        snaps := [],
        rk := 0 } := dfsInv_init g0 (findPositions g0).1 hs 0
  have hpot : unvisitedCard g0 (fun x => decide (x = (findPositions (cloneGrid g0)).1)) +
      ([((findPositions (cloneGrid g0)).1,
        [(findPositions (cloneGrid g0)).1])] : List (Pos × List Pos)).length
      < bfsFuel (cloneGrid g0) := by
    unfold bfsFuel unvisitedCard
    have h1 : ((boundsFinset g0).filter fun p =>
        (decide (p = (findPositions (cloneGrid g0)).1)) = false).card ≤ g0.rows * g0.cols := by
      rw [← boundsFinset_card g0]
      exact Finset.card_filter_le _ _
    have h2 : (cloneGrid g0).rows = g0.rows := rfl
    have h3 : (cloneGrid g0).cols = g0.cols := rfl
    rw [h2, h3]
    simp only [List.length_singleton]
    omega
  obtain ⟨r, hr, hpost⟩ := dfsGo_master g0 (findPositions g0).1 σ (bfsFuel (cloneGrid g0)) _
    hinv hpot
  have hrun : runDFS g0 σ = r := by
    unfold runDFS
    cases hgo : dfsGo σ (bfsFuel (cloneGrid g0))
        { grid := cloneGrid g0,
          frontier := [((findPositions (cloneGrid g0)).1, [(findPositions (cloneGrid g0)).1])],
          visited := fun x => decide (x = (findPositions (cloneGrid g0)).1),
          metrics := ⟨0, 0, false⟩,
          snaps := [],
          rk := 0 } with
    | none => rw [hgo] at hr; simp at hr
    | some r2 =>
      rw [hgo] at hr
      simp only [Option.some.injEq] at hr
      simp [hgo, hr]
  obtain ⟨hopt, hcomp, hnv1, hnv2, hgrid, hgsafe, hsnaps⟩ := hpost
  rw [hrun]
  refine ⟨hopt, ?_, hnv1, hnv2, hgrid, hgsafe, hsnaps⟩
  intro epos hfl hre
  refine hcomp epos hfl hre ?_
  intro hv
  have hv2 : epos = (findPositions g0).1 := by
    have : (decide (epos = (findPositions (cloneGrid g0)).1)) = true := hv
    simpa using this
  exact ⟨((findPositions (cloneGrid g0)).1, [(findPositions (cloneGrid g0)).1]),
    by simp, by rw [hv2]; rfl⟩

/-- C6: on a fixed grid with one start cell, one end cell and a path
between them over non-wall cells, `runBFS` and `runAStar` report the
same `pathLength` (both report the shortest-path length), and for every
outcome `σ` of the random direction shuffles of `runDFS`, the
BFS-reported `pathLength` is at most the DFS-reported one. -/
theorem C6_bfs_astar_dfs (g0 : Grid) (spos epos : Pos)
    (hus : UniqueStart g0 spos) (hue : UniqueEnd g0 epos) (hre : Reach g0 spos epos) :
    (runBFS g0).metrics.pathLength = (runAStar g0).metrics.pathLength ∧
    ∀ σ : Nat → Nat,
      (runBFS g0).metrics.pathLength ≤ (runDFS g0 σ).metrics.pathLength := by
  have hfp1 : (findPositions g0).1 = spos := findPositions_fst_of_uniqueStart hus
  have hfp2 : (findPositions g0).2 = epos := findPositions_snd_of_uniqueEnd hue
  have hs : inBounds g0 (findPositions g0).1 := by rw [hfp1]; exact hus.1
  have hre1 : Reach g0 (findPositions g0).1 epos := by rw [hfp1]; exact hre
  obtain ⟨bopt, bcomp, _, _, _, _, _⟩ := runBFS_post g0 hs
  have hbf : (runBFS g0).metrics.isPathFound = true := bcomp epos hue.2.1 hre1
  have hbleast : IsLeast {n | StepsTo g0 (findPositions g0).1 epos n}
      (runBFS g0).metrics.pathLength := bopt hbf epos hue
  obtain ⟨aopt, acomp, _, _, _, _, _⟩ := runAStar_post g0 hs
  have hre2 : Reach g0 (findPositions g0).1 (findPositions g0).2 := by
    rw [hfp2]
    exact hre1
  have haf : (runAStar g0).metrics.isPathFound = true := acomp hre2
  have haleast := aopt haf
  rw [hfp2] at haleast
  constructor
  · exact hbleast.unique haleast
  · intro σ
    obtain ⟨dopt, dcomp, _, _, _, _, _⟩ := runDFS_post g0 σ hs
    have hdf : (runDFS g0 σ).metrics.isPathFound = true := dcomp epos hue.2.1 hre1
    have hdpath : StepsTo g0 (findPositions g0).1 epos (runDFS g0 σ).metrics.pathLength :=
      dopt hdf epos hue
    exact hbleast.2 hdpath

/-- Witness for C6 on the concrete 1-by-2 grid. -/
theorem C6_bfs_astar_dfs_witness :
    UniqueStart gridW2 (0, 0) ∧ UniqueEnd gridW2 (0, 1) ∧ Reach gridW2 (0, 0) (0, 1) ∧
      ((runBFS gridW2).metrics.pathLength = (runAStar gridW2).metrics.pathLength ∧
        ∀ σ : Nat → Nat,
          (runBFS gridW2).metrics.pathLength ≤ (runDFS gridW2 σ).metrics.pathLength) :=
  ⟨by decide, by decide, ⟨1, StepsTo.tail StepsTo.refl (by decide)⟩,
    C6_bfs_astar_dfs gridW2 (0, 0) (0, 1) (by decide) (by decide)
      ⟨1, StepsTo.tail StepsTo.refl (by decide)⟩⟩

/-- A grid with no start flag whose default start cell `(0, 0)` is a
wall: `(0, 0)` is a wall with no flags and `(0, 1)` is the non-wall end. -/
def gridC8 : Grid :=
  { rows := 1, cols := 2,
    cell := fun p =>
      if p = ((0 : Int), (1 : Int)) then cellMk false false true
      else cellMk true false false }

/-- C8 counterexample: on a grid with no start flag, `findPositions`
silently reports `(0, 0)` as the start; `runBFS` then walks from the
wall cell `(0, 0)` and, on reaching the end, marks `isPath = true` on
that wall cell (the path-marking loop only guards on the start/end
flags, not on `isWall`).  So the claim fails for grids without flags. -/
theorem C8_counterexample :
    (gridC8.cell (0, 0)).isWall = true ∧ (gridC8.cell (0, 0)).isPath = false ∧
      ((runBFS gridC8).grid.cell (0, 0)).isPath = true := by
  decide

/-- C8 (amended): for every grid holding an in-bounds start-flagged
cell, `runDFS`, `runBFS` and `runAStar` preserve every cell's `isWall`,
`isStart` and `isEnd` (so they never change a flag), and any `isPath`
mark not already present in the input sits on a non-wall cell, in the
final working grid and in every emitted snapshot.  (The caller's grid is
untouched by construction: each engine first copies it with
`cloneGrid`.) -/
theorem C8_pathSafe_flags (g0 : Grid) (σ : Nat → Nat)
    (hstart : ∃ p, inBounds g0 p ∧ (g0.cell p).isStart = true) :
    (FlagsEq g0 (runBFS g0).grid ∧ PathSafe g0 (runBFS g0).grid ∧
      ∀ sn ∈ (runBFS g0).snapshots, FlagsEq g0 sn.grid ∧ PathSafe g0 sn.grid) ∧
    (FlagsEq g0 (runDFS g0 σ).grid ∧ PathSafe g0 (runDFS g0 σ).grid ∧
      ∀ sn ∈ (runDFS g0 σ).snapshots, FlagsEq g0 sn.grid ∧ PathSafe g0 sn.grid) ∧
    (FlagsEq g0 (runAStar g0).grid ∧ PathSafe g0 (runAStar g0).grid ∧
      ∀ sn ∈ (runAStar g0).snapshots, FlagsEq g0 sn.grid ∧ PathSafe g0 sn.grid) := by
  have hrc : 1 ≤ g0.rows ∧ 1 ≤ g0.cols := by
    obtain ⟨p, hp, _⟩ := hstart
    unfold inBounds at hp
    constructor <;> omega
  have hs : inBounds g0 (findPositions g0).1 := findPositions_fst_inBounds hrc.1 hrc.2
  have hss : StartSafe g0 (findPositions g0).1 := .inl (findPositions_fst_isStart hstart)
  obtain ⟨_, _, _, _, bg, bps, bsn⟩ := runBFS_post g0 hs
  obtain ⟨_, _, _, _, dg, dps, dsn⟩ := runDFS_post g0 σ hs
  obtain ⟨_, _, _, _, ag, aps, asn⟩ := runAStar_post g0 hs
  refine ⟨⟨bg, bps hss, ?_⟩, ⟨dg, dps hss, ?_⟩, ⟨ag, aps hss, ?_⟩⟩
  · intro sn hsn
    obtain ⟨_, h2, h3⟩ := bsn sn hsn
    exact ⟨h2, h3 hss⟩
  · intro sn hsn
    obtain ⟨_, h2, h3⟩ := dsn sn hsn
    exact ⟨h2, h3 hss⟩
  · intro sn hsn
    obtain ⟨_, h2, h3⟩ := asn sn hsn
    exact ⟨h2, h3 hss⟩

/-- Witness for the amended C8 on the concrete 1-by-2 grid. -/
theorem C8_pathSafe_flags_witness :
    (∃ p, inBounds gridW2 p ∧ (gridW2.cell p).isStart = true) ∧
      ((FlagsEq gridW2 (runBFS gridW2).grid ∧ PathSafe gridW2 (runBFS gridW2).grid ∧
        ∀ sn ∈ (runBFS gridW2).snapshots, FlagsEq gridW2 sn.grid ∧ PathSafe gridW2 sn.grid) ∧
      (FlagsEq gridW2 (runDFS gridW2 fun _ => 0).grid ∧
        PathSafe gridW2 (runDFS gridW2 fun _ => 0).grid ∧
        ∀ sn ∈ (runDFS gridW2 fun _ => 0).snapshots,
          FlagsEq gridW2 sn.grid ∧ PathSafe gridW2 sn.grid) ∧
      (FlagsEq gridW2 (runAStar gridW2).grid ∧ PathSafe gridW2 (runAStar gridW2).grid ∧
        ∀ sn ∈ (runAStar gridW2).snapshots,
          FlagsEq gridW2 sn.grid ∧ PathSafe gridW2 sn.grid)) :=
  ⟨⟨(0, 0), by decide, by decide⟩,
    C8_pathSafe_flags gridW2 (fun _ => 0) ⟨(0, 0), by decide, by decide⟩⟩

/-- A 1-by-1 grid whose single cell is a wall flagged as both start and
end. -/
def gridC10 : Grid :=
  { rows := 1, cols := 1, cell := fun _ => cellMk true true true }

/-- C10 counterexample: on a grid whose start cell is a wall, `runBFS`
visits the start (the engines never test the start cell's own wall
flag), so `nodesVisited = 1` exceeds the number of non-wall cells,
which is `0`.  The claim's non-wall bound fails for wall starts. -/
theorem C10_counterexample :
    (runBFS gridC10).metrics.nodesVisited = 1 ∧ nonWallCount gridC10 = 0 := by
  constructor
  · decide
  · show ((boundsFinset gridC10).filter fun p => (gridC10.cell p).isWall = false).card = 0
    rw [Finset.card_eq_zero, Finset.filter_eq_empty_iff]
    intro x _
    simp [gridC10, cellMk]

/-- C10 (amended): on every non-degenerate grid (at least one row and
one column), each of `runDFS`, `runBFS` and `runAStar` counts each cell
at most once, so `nodesVisited` never exceeds `rows * cols`; and when
the cell reported as start is not a wall, `nodesVisited` never exceeds
the number of non-wall cells. -/
theorem C10_nodes_bound (g0 : Grid) (σ : Nat → Nat)
    (hr : 1 ≤ g0.rows) (hc : 1 ≤ g0.cols) :
    ((runBFS g0).metrics.nodesVisited ≤ g0.rows * g0.cols ∧
      (runDFS g0 σ).metrics.nodesVisited ≤ g0.rows * g0.cols ∧
      (runAStar g0).metrics.nodesVisited ≤ g0.rows * g0.cols) ∧
    ((g0.cell (findPositions g0).1).isWall = false →
      (runBFS g0).metrics.nodesVisited ≤ nonWallCount g0 ∧
      (runDFS g0 σ).metrics.nodesVisited ≤ nonWallCount g0 ∧
      (runAStar g0).metrics.nodesVisited ≤ nonWallCount g0) := by
  have hs : inBounds g0 (findPositions g0).1 := findPositions_fst_inBounds hr hc
  obtain ⟨_, _, b1, b2, _, _, _⟩ := runBFS_post g0 hs
  obtain ⟨_, _, d1, d2, _, _, _⟩ := runDFS_post g0 σ hs
  obtain ⟨_, _, a1, a2, _, _, _⟩ := runAStar_post g0 hs
  exact ⟨⟨b1, d1, a1⟩, fun hw => ⟨b2 hw, d2 hw, a2 hw⟩⟩

/-- Witness for the amended C10 on the concrete 1-by-2 grid. -/
theorem C10_nodes_bound_witness :
    1 ≤ gridW2.rows ∧ 1 ≤ gridW2.cols ∧
      (((runBFS gridW2).metrics.nodesVisited ≤ gridW2.rows * gridW2.cols ∧
        (runDFS gridW2 fun _ => 0).metrics.nodesVisited ≤ gridW2.rows * gridW2.cols ∧
        (runAStar gridW2).metrics.nodesVisited ≤ gridW2.rows * gridW2.cols) ∧
      ((gridW2.cell (findPositions gridW2).1).isWall = false →
        (runBFS gridW2).metrics.nodesVisited ≤ nonWallCount gridW2 ∧
        (runDFS gridW2 fun _ => 0).metrics.nodesVisited ≤ nonWallCount gridW2 ∧
        (runAStar gridW2).metrics.nodesVisited ≤ nonWallCount gridW2)) :=
  ⟨by decide, by decide, C10_nodes_bound gridW2 (fun _ => 0) (by decide) (by decide)⟩

/-- A 1-by-2 grid with no flags at all. -/
def gridC5 : Grid :=
  { rows := 1, cols := 2, cell := fun _ => cellMk false false false }

/-- C5 counterexample: on a grid with no start and no end flag,
`findPositions` returns the default positions `((0, 0), (0, 0))` as an
ordinary value — no `MalformedGrid` error exists anywhere in the code,
and nothing is thrown or propagated. -/
theorem C5_counterexample : findPositions gridC5 = ((0, 0), (0, 0)) := by
  decide

/-- C5 (amended): `findPositions` is total and never fails: when the
grid has no start-flagged cell it silently reports `(0, 0)` as the
start, and when it has no end-flagged cell it silently reports `(0, 0)`
as the end. -/
theorem C5_findPositions_default (g : Grid) :
    ((∀ p, inBounds g p → (g.cell p).isStart = false) → (findPositions g).1 = (0, 0)) ∧
    ((∀ p, inBounds g p → (g.cell p).isEnd = false) → (findPositions g).2 = (0, 0)) := by
  constructor
  · intro h
    show (allPositions g.rows g.cols).foldl
      (scanFlag fun p => (g.cell p).isStart) (0, 0) = (0, 0)
    exact foldl_scanFlag_of_none _ _ fun x hx => h x (mem_allPositions.mp hx)
  · intro h
    show (allPositions g.rows g.cols).foldl
      (scanFlag fun p => (g.cell p).isEnd) (0, 0) = (0, 0)
    exact foldl_scanFlag_of_none _ _ fun x hx => h x (mem_allPositions.mp hx)

/-- Witness for the amended C5 on the concrete flag-less grid. -/
theorem C5_findPositions_default_witness :
    (∀ p, inBounds gridC5 p → (gridC5.cell p).isStart = false) ∧
      (findPositions gridC5).1 = (0, 0) ∧ (findPositions gridC5).2 = (0, 0) :=
  ⟨fun _ _ => rfl,
    (C5_findPositions_default gridC5).1 fun _ _ => rfl,
    (C5_findPositions_default gridC5).2 fun _ _ => rfl⟩

/-! ### Monte Carlo exploration (`algorithms.ts` lines 610-735)

The learned value function `{ [key: string]: number }` is embedded as a
total function `Pos → ℚ` (the lookup `valueFunction[nextKey] || 0` maps
a missing key and a stored `0` to the same `0`).  The greedy selection
initialises `bestValue = -Infinity` and `bestAction = -1` and replaces
the best action only on a strictly greater value, so the first
direction (in the fixed order up, right, down, left) attaining the
maximum wins; the loop calls no random draw at all. -/

/-- The greedy selection loop of `runMonteCarloExploration`
(`algorithms.ts` lines 682-706): `none` plays `bestAction = -1`. -/
def mcBest (g : Grid) (vf : Pos → ℚ) (cur : Pos) :
    List Nat → Option (Nat × ℚ) → Option (Nat × ℚ)
  | [], acc => acc
  | d :: ds, acc =>
    if inBounds g (stepPos cur d) ∧ (g.cell (stepPos cur d)).isWall = false then
      match acc with
      | none => mcBest g vf cur ds (some (d, vf (stepPos cur d)))
      | some (b, bv) =>
        if bv < vf (stepPos cur d) then mcBest g vf cur ds (some (d, vf (stepPos cur d)))
        else mcBest g vf cur ds (some (b, bv))
    else mcBest g vf cur ds acc

theorem mcBest_congr {g g' : Grid} (hf : FlagsEq g g') (vf : Pos → ℚ) (cur : Pos) :
    ∀ (ds : List Nat) (acc : Option (Nat × ℚ)),
      mcBest g' vf cur ds acc = mcBest g vf cur ds acc := by
  intro ds
  induction ds with
  | nil => intro acc; rfl
  | cons d ds ih =>
    intro acc
    have hcond : (inBounds g' (stepPos cur d) ∧ (g'.cell (stepPos cur d)).isWall = false) ↔
        (inBounds g (stepPos cur d) ∧ (g.cell (stepPos cur d)).isWall = false) := by
      rw [inBounds_of_dims hf.1 hf.2.1, hf.2.2.1]
    conv_lhs => rw [mcBest.eq_def]
    conv_rhs => rw [mcBest.eq_def]
    dsimp only
    by_cases hc : inBounds g (stepPos cur d) ∧ (g.cell (stepPos cur d)).isWall = false
    · rw [if_pos hc, if_pos (hcond.mpr hc)]
      cases acc with
      | none => exact ih _
      | some pr =>
        obtain ⟨b, bv⟩ := pr
        dsimp only
        by_cases hlt : bv < vf (stepPos cur d)
        · rw [if_pos hlt, if_pos hlt]
          exact ih _
        · rw [if_neg hlt, if_neg hlt]
          exact ih _
    · rw [if_neg hc, if_neg (fun h => hc (hcond.mp h))]
      exact ih _

theorem mcBest_spec (g : Grid) (vf : Pos → ℚ) (cur : Pos) :
    ∀ (ds : List Nat) (acc : Option (Nat × ℚ)) (d : Nat) (v : ℚ),
      mcBest g vf cur ds acc = some (d, v) →
      acc = some (d, v) ∨
        (d ∈ ds ∧ inBounds g (stepPos cur d) ∧ (g.cell (stepPos cur d)).isWall = false ∧
          v = vf (stepPos cur d)) := by
  intro ds
  induction ds with
  | nil => intro acc d v h; exact .inl h
  | cons d2 ds ih =>
    intro acc d v h
    rw [mcBest.eq_def] at h
    dsimp only at h
    by_cases hc : inBounds g (stepPos cur d2) ∧ (g.cell (stepPos cur d2)).isWall = false
    · rw [if_pos hc] at h
      cases acc with
      | none =>
        dsimp only at h
        rcases ih _ d v h with h2 | h2
        · simp only [Option.some.injEq, Prod.mk.injEq] at h2
          exact .inr ⟨by simp [h2.1], h2.1 ▸ hc.1, h2.1 ▸ hc.2, h2.1 ▸ h2.2.symm⟩
        · exact .inr ⟨List.mem_cons_of_mem _ h2.1, h2.2⟩
      | some pr =>
        obtain ⟨b, bv⟩ := pr
        dsimp only at h
        by_cases hlt : bv < vf (stepPos cur d2)
        · rw [if_pos hlt] at h
          rcases ih _ d v h with h2 | h2
          · simp only [Option.some.injEq, Prod.mk.injEq] at h2
            exact .inr ⟨by simp [h2.1], h2.1 ▸ hc.1, h2.1 ▸ hc.2, h2.1 ▸ h2.2.symm⟩
          · exact .inr ⟨List.mem_cons_of_mem _ h2.1, h2.2⟩
        · rw [if_neg hlt] at h
          rcases ih _ d v h with h2 | h2
          · exact .inl h2
          · exact .inr ⟨List.mem_cons_of_mem _ h2.1, h2.2⟩
    · rw [if_neg hc] at h
      rcases ih _ d v h with h2 | h2
      · exact .inl h2
      · exact .inr ⟨List.mem_cons_of_mem _ h2.1, h2.2⟩

theorem mcBest_max (g : Grid) (vf : Pos → ℚ) (cur : Pos) :
    ∀ (ds : List Nat) (acc : Option (Nat × ℚ)) (d : Nat) (v : ℚ),
      mcBest g vf cur ds acc = some (d, v) →
      (∀ d2 ∈ ds, inBounds g (stepPos cur d2) ∧ (g.cell (stepPos cur d2)).isWall = false →
        vf (stepPos cur d2) ≤ v) ∧
      (∀ b bv, acc = some (b, bv) → bv ≤ v) := by
  intro ds
  induction ds with
  | nil =>
    intro acc d v h
    refine ⟨fun d2 hd2 => absurd hd2 (by simp), ?_⟩
    intro b bv hacc
    rw [hacc] at h
    simp only [mcBest, Option.some.injEq, Prod.mk.injEq] at h
    exact le_of_eq h.2
  | cons d2 ds ih =>
    intro acc d v h
    rw [mcBest.eq_def] at h
    dsimp only at h
    by_cases hc : inBounds g (stepPos cur d2) ∧ (g.cell (stepPos cur d2)).isWall = false
    · rw [if_pos hc] at h
      cases acc with
      | none =>
        dsimp only at h
        obtain ⟨h1, h2⟩ := ih _ d v h
        refine ⟨?_, by intro b bv hb; simp at hb⟩
        intro d3 hd3 hcond
        rcases List.mem_cons.mp hd3 with hh | hh
        · subst hh
          exact h2 _ _ rfl
        · exact h1 d3 hh hcond
      | some pr =>
        obtain ⟨b, bv⟩ := pr
        dsimp only at h
        by_cases hlt : bv < vf (stepPos cur d2)
        · rw [if_pos hlt] at h
          obtain ⟨h1, h2⟩ := ih _ d v h
          refine ⟨?_, ?_⟩
          · intro d3 hd3 hcond
            rcases List.mem_cons.mp hd3 with hh | hh
            · subst hh
              exact h2 _ _ rfl
            · exact h1 d3 hh hcond
          · intro b2 bv2 hb2
            simp only [Option.some.injEq, Prod.mk.injEq] at hb2
            rw [← hb2.2]
            exact le_of_lt (lt_of_lt_of_le hlt (h2 _ _ rfl))
        · rw [if_neg hlt] at h
          obtain ⟨h1, h2⟩ := ih _ d v h
          refine ⟨?_, ?_⟩
          · intro d3 hd3 hcond
            rcases List.mem_cons.mp hd3 with hh | hh
            · subst hh
              exact le_trans (not_lt.mp hlt) (h2 _ _ rfl)
            · exact h1 d3 hh hcond
          · intro b2 bv2 hb2
            simp only [Option.some.injEq, Prod.mk.injEq] at hb2
            rw [← hb2.2]
            exact h2 _ _ rfl
    · rw [if_neg hc] at h
      obtain ⟨h1, h2⟩ := ih _ d v h
      refine ⟨?_, h2⟩
      intro d3 hd3 hcond
      rcases List.mem_cons.mp hd3 with hh | hh
      · subst hh
        exact absurd hcond hc
      · exact h1 d3 hh hcond

theorem mcBest_noneAcc (g : Grid) (vf : Pos → ℚ) (cur : Pos) :
    ∀ (ds : List Nat) (pr : Nat × ℚ), mcBest g vf cur ds (some pr) = none → False := by
  intro ds
  induction ds with
  | nil => intro pr h; simp [mcBest] at h
  | cons d ds ih =>
    intro pr h
    rw [mcBest.eq_def] at h
    dsimp only at h
    by_cases hc : inBounds g (stepPos cur d) ∧ (g.cell (stepPos cur d)).isWall = false
    · rw [if_pos hc] at h
      obtain ⟨b, bv⟩ := pr
      dsimp only at h
      by_cases hlt : bv < vf (stepPos cur d)
      · rw [if_pos hlt] at h
        exact ih _ h
      · rw [if_neg hlt] at h
        exact ih _ h
    · rw [if_neg hc] at h
      exact ih _ h

theorem mcBest_none_spec (g : Grid) (vf : Pos → ℚ) (cur : Pos) :
    ∀ (ds : List Nat) (acc : Option (Nat × ℚ)),
      mcBest g vf cur ds acc = none →
      ∀ d ∈ ds, ¬(inBounds g (stepPos cur d) ∧ (g.cell (stepPos cur d)).isWall = false) := by
  intro ds
  induction ds with
  | nil => intro acc _ d hd; simp at hd
  | cons d2 ds ih =>
    intro acc h d hd
    rw [mcBest.eq_def] at h
    dsimp only at h
    by_cases hc : inBounds g (stepPos cur d2) ∧ (g.cell (stepPos cur d2)).isWall = false
    · rw [if_pos hc] at h
      exfalso
      cases acc with
      | none =>
        dsimp only at h
        have hspec := mcBest_noneAcc g vf cur ds _ h
        exact hspec
      | some pr =>
        obtain ⟨b, bv⟩ := pr
        dsimp only at h
        by_cases hlt : bv < vf (stepPos cur d2)
        · rw [if_pos hlt] at h
          exact mcBest_noneAcc g vf cur ds _ h
        · rw [if_neg hlt] at h
          exact mcBest_noneAcc g vf cur ds _ h
    · rw [if_neg hc] at h
      rcases List.mem_cons.mp hd with hh | hh
      · subst hh
        exact hc
      · exact ih _ h d hh

/-- State of the Monte Carlo exploration walk. -/
structure McExpState where
  grid : Grid
  cur : Pos
  path : List Pos
  visited : Pos → Bool
  nodesVisited : Nat
  isPathFound : Bool
  snaps : List (StepSnapshot AlgorithmMetrics)

/-- Loop of `runMonteCarloExploration` (`algorithms.ts` lines 651-712)
on fuel (`steps < maxSteps`).  Each iteration: break if the current
cell was already visited in this walk and is not the start (the start
is exempt on every iteration); otherwise record it, count it, stop with
success if it is the end position, else mark it, emit a snapshot and
follow the greedy choice (breaking if none exists). -/
def mcExpGo (vf : Pos → ℚ) (epos spos : Pos) : Nat → McExpState → McExpState
  | 0, st => st
  | fuel + 1, st =>
    if st.visited st.cur = true ∧ ¬(st.cur = spos) then st
    else
      let vis2 := fun x => if x = st.cur then true else st.visited x
      let m1 := st.nodesVisited + 1
      if st.cur = epos then
        { st with visited := vis2, nodesVisited := m1, isPathFound := true }
      else
        let g1 := markVisitedAt st.grid st.cur
        let sn1 := st.snaps ++ [⟨true, cloneGrid g1, ⟨m1, 0, false⟩⟩]
        match mcBest g1 vf st.cur [0, 1, 2, 3] none with
        | none => { st with grid := g1, visited := vis2, nodesVisited := m1, snaps := sn1 }
        | some dv =>
          mcExpGo vf epos spos fuel
            { grid := g1,
              cur := stepPos st.cur dv.1,
              path := st.path ++ [stepPos st.cur dv.1],
              visited := vis2,
              nodesVisited := m1,
              isPathFound := false,
              snaps := sn1 }

/-- Embedding of `runMonteCarloExploration` (`algorithms.ts` lines
610-735): the walk, then the unconditional path marking, the
`path.length > 0 ? path.length - 1 : 0` length and a final snapshot.
The claim-irrelevant constant fields of `MonteCarloMetrics`
(`epsilonUsed`, the copied value function, ...) are dropped. -/
def runMonteCarloExploration (g0 : Grid) (vf : Pos → ℚ) : RunResult AlgorithmMetrics :=
  let g := cloneGrid g0
  let se := findPositions g
  let stf := mcExpGo vf se.2 se.1 (g.rows * g.cols * 2)
    { grid := g, cur := se.1, path := [se.1], visited := fun _ => false,
      nodesVisited := 0, isPathFound := false, snaps := [] }
  let g2 := markPathList stf.grid stf.path
  let m2 : AlgorithmMetrics :=
    ⟨stf.nodesVisited, if 0 < stf.path.length then stf.path.length - 1 else 0,
      stf.isPathFound⟩
  { metrics := m2, grid := g2, snapshots := stf.snaps ++ [⟨true, cloneGrid g2, m2⟩] }

/-- The walked trace of the Monte Carlo exploration. -/
def mcExpTrace (g0 : Grid) (vf : Pos → ℚ) : List Pos :=
  (mcExpGo vf (findPositions (cloneGrid g0)).2 (findPositions (cloneGrid g0)).1
    ((cloneGrid g0).rows * (cloneGrid g0).cols * 2)
    { grid := cloneGrid g0, cur := (findPositions (cloneGrid g0)).1,
      path := [(findPositions (cloneGrid g0)).1], visited := fun _ => false,
      nodesVisited := 0, isPathFound := false, snaps := [] }).path

/-- One greedy move of the trained Monte Carlo policy: step to the
first (in the order up, right, down, left) reachable neighbour of
strictly maximal learned value. -/
def mcGreedyStep (g0 : Grid) (vf : Pos → ℚ) (a b : Pos) : Prop :=
  ∃ dv, mcBest g0 vf a [0, 1, 2, 3] none = some dv ∧ b = stepPos a dv.1

/-- Invariants of the Monte Carlo exploration walk. -/
structure McExpInv (g0 : Grid) (vf : Pos → ℚ) (s : Pos) (st : McExpState) : Prop where
  flags : FlagsEq g0 st.grid
  paths : PathsEq g0 st.grid
  chain : st.path.Chain' (mcGreedyStep g0 vf)
  headS : st.path.head? = some s
  lastCur : st.path.getLast? = some st.cur
  visIff : ∀ x, st.visited x = true ↔ x ∈ st.path.dropLast
  notFound : st.isPathFound = false
  snapsOk : ∀ sn ∈ st.snaps, sn.gridFresh = true ∧ FlagsEq g0 sn.grid ∧ PathsEq g0 sn.grid

/-- How the exploration walk can end: goal reached, stuck with no valid
move, the loop guard (a revisited non-start cell), or the step budget. -/
def McStop (g0 : Grid) (vf : Pos → ℚ) (s epos : Pos) (B : Nat) (st : McExpState) : Prop :=
  (st.isPathFound = true ∧ st.path.getLast? = some epos) ∨
  (st.isPathFound = false ∧ st.cur ≠ epos ∧
    mcBest g0 vf st.cur [0, 1, 2, 3] none = none) ∨
  (st.isPathFound = false ∧ st.cur ≠ s ∧ st.cur ∈ st.path.dropLast) ∨
  st.path.length = B + 1

/-- What survives of the walk invariants at every exit state (the found
exit records the current cell in the visited set without extending the
path, so only the path, grid and snapshot facts persist). -/
structure McExpFinal (g0 : Grid) (vf : Pos → ℚ) (s : Pos) (st : McExpState) : Prop where
  flags : FlagsEq g0 st.grid
  paths : PathsEq g0 st.grid
  chain : st.path.Chain' (mcGreedyStep g0 vf)
  headS : st.path.head? = some s
  lastCur : st.path.getLast? = some st.cur
  snapsOk : ∀ sn ∈ st.snaps, sn.gridFresh = true ∧ FlagsEq g0 sn.grid ∧ PathsEq g0 sn.grid

theorem chain'_concat {α : Type} {R : α → α → Prop} {l : List α} {a b : α}
    (h : l.Chain' R) (hl : l.getLast? = some a) (hab : R a b) :
    (l ++ [b]).Chain' R := by
  refine List.Chain'.append h (by simp) ?_
  intro x hx y hy
  simp at hy
  subst hy
  rw [hl] at hx
  simp at hx
  subst hx
  exact hab

theorem path_split_last {l : List Pos} {c : Pos} (hl : l.getLast? = some c) :
    l.dropLast ++ [c] = l := by
  cases l with
  | nil => simp at hl
  | cons a t =>
    have hne : a :: t ≠ ([] : List Pos) := by simp
    have h1 := List.getLast?_eq_getLast (a :: t) hne
    rw [hl] at h1
    have h2 : (a :: t).getLast hne = c := (Option.some.inj h1).symm
    rw [← h2]
    exact List.dropLast_append_getLast hne

theorem mcExpGo_master (g0 : Grid) (vf : Pos → ℚ) (s epos : Pos) (B : Nat) :
    ∀ (fuel : Nat) (st : McExpState), McExpInv g0 vf s st →
      fuel + st.path.length = B + 1 →
      McExpFinal g0 vf s (mcExpGo vf epos s fuel st) ∧
        McStop g0 vf s epos B (mcExpGo vf epos s fuel st) := by
  intro fuel
  induction fuel with
  | zero =>
    intro st hinv hfuel
    refine ⟨⟨hinv.flags, hinv.paths, hinv.chain, hinv.headS, hinv.lastCur, hinv.snapsOk⟩,
      .inr (.inr (.inr ?_))⟩
    show st.path.length = B + 1
    omega
  | succ fuel ih =>
    intro st hinv hfuel
    by_cases h1 : st.visited st.cur = true ∧ ¬(st.cur = s)
    · have heq : mcExpGo vf epos s (fuel + 1) st = st := by
        rw [mcExpGo, if_pos h1]
      rw [heq]
      refine ⟨⟨hinv.flags, hinv.paths, hinv.chain, hinv.headS, hinv.lastCur, hinv.snapsOk⟩,
        .inr (.inr (.inl ⟨hinv.notFound, h1.2, ?_⟩))⟩
      exact (hinv.visIff st.cur).mp h1.1
    · by_cases h2 : st.cur = epos
      · have heq : mcExpGo vf epos s (fuel + 1) st =
            { st with
                nodesVisited := st.nodesVisited + 1
                isPathFound := true
                visited := fun x => if x = st.cur then true else st.visited x } := by
          rw [mcExpGo, if_neg h1]
          dsimp only
          rw [if_pos h2]
        rw [heq]
        exact ⟨⟨hinv.flags, hinv.paths, hinv.chain, hinv.headS, hinv.lastCur, hinv.snapsOk⟩,
          .inl ⟨rfl, by rw [← h2]; exact hinv.lastCur⟩⟩
      · have hFg1 : FlagsEq g0 (markVisitedAt st.grid st.cur) :=
          flagsEq_trans hinv.flags (markVisitedAt_flagsEq st.grid st.cur)
        have hPg1 : PathsEq g0 (markVisitedAt st.grid st.cur) :=
          fun q => (markVisitedAt_pathsEq st.grid st.cur q).trans (hinv.paths q)
        have hcongr := mcBest_congr hFg1 vf st.cur [0, 1, 2, 3] none
        cases hbest : mcBest (markVisitedAt st.grid st.cur) vf st.cur [0, 1, 2, 3] none with
        | none =>
          have heq : mcExpGo vf epos s (fuel + 1) st =
              { st with
                  grid := markVisitedAt st.grid st.cur
                  nodesVisited := st.nodesVisited + 1
                  snaps := st.snaps ++ [⟨true, cloneGrid (markVisitedAt st.grid st.cur),
                    ⟨st.nodesVisited + 1, 0, false⟩⟩]
                  visited := fun x => if x = st.cur then true else st.visited x } := by
            rw [mcExpGo, if_neg h1]
            dsimp only
            rw [if_neg h2, hbest]
          rw [heq]
          have hsnaps : ∀ sn ∈ st.snaps ++ [⟨true, cloneGrid (markVisitedAt st.grid st.cur),
              (⟨st.nodesVisited + 1, 0, false⟩ : AlgorithmMetrics)⟩],
              sn.gridFresh = true ∧ FlagsEq g0 sn.grid ∧ PathsEq g0 sn.grid := by
            intro sn hsn
            rcases List.mem_append.mp hsn with h | h
            · exact hinv.snapsOk sn h
            · have hsne : sn = ⟨true, cloneGrid (markVisitedAt st.grid st.cur),
                  ⟨st.nodesVisited + 1, 0, false⟩⟩ := by simpa using h
              subst hsne
              exact ⟨rfl, hFg1, hPg1⟩
          refine ⟨⟨hFg1, hPg1, hinv.chain, hinv.headS, hinv.lastCur, hsnaps⟩,
            .inr (.inl ⟨hinv.notFound, h2, ?_⟩)⟩
          rw [← hcongr]
          exact hbest
        | some dv =>
          have hne : st.path ≠ [] := by
            intro hh
            have hhd := hinv.headS
            rw [hh] at hhd
            simp at hhd
          have hsplit : st.path.dropLast ++ [st.cur] = st.path :=
            path_split_last hinv.lastCur
          have hstep : mcGreedyStep g0 vf st.cur (stepPos st.cur dv.1) :=
            ⟨dv, by rw [← hcongr]; exact hbest, rfl⟩
          have heq : mcExpGo vf epos s (fuel + 1) st = mcExpGo vf epos s fuel
              { grid := markVisitedAt st.grid st.cur,
                cur := stepPos st.cur dv.1,
                path := st.path ++ [stepPos st.cur dv.1],
                visited := fun x => if x = st.cur then true else st.visited x,
                nodesVisited := st.nodesVisited + 1,
                isPathFound := false,
                snaps := st.snaps ++ [⟨true, cloneGrid (markVisitedAt st.grid st.cur),
                  ⟨st.nodesVisited + 1, 0, false⟩⟩] } := by
            rw [mcExpGo, if_neg h1]
            dsimp only
            rw [if_neg h2, hbest]
          rw [heq]
          have hinv2 : McExpInv g0 vf s
              { grid := markVisitedAt st.grid st.cur,
                cur := stepPos st.cur dv.1,
                path := st.path ++ [stepPos st.cur dv.1],
                visited := fun x => if x = st.cur then true else st.visited x,
                nodesVisited := st.nodesVisited + 1,
                isPathFound := false,
                snaps := st.snaps ++ [⟨true, cloneGrid (markVisitedAt st.grid st.cur),
                  ⟨st.nodesVisited + 1, 0, false⟩⟩] } := by
            refine ⟨hFg1, hPg1, ?_, ?_, ?_, ?_, rfl, ?_⟩
            · exact chain'_concat hinv.chain hinv.lastCur hstep
            · show (st.path ++ [stepPos st.cur dv.1]).head? = some s
              cases hp : st.path with
              | nil => exact absurd hp hne
              | cons a t =>
                have := hinv.headS
                rw [hp] at this
                simpa using this
            · show (st.path ++ [stepPos st.cur dv.1]).getLast? = some (stepPos st.cur dv.1)
              simp
            · intro x
              show (if x = st.cur then true else st.visited x) = true ↔
                x ∈ (st.path ++ [stepPos st.cur dv.1]).dropLast
              rw [List.dropLast_concat]
              by_cases hx : x = st.cur
              · subst hx
                simp only [if_pos rfl, true_iff]
                rw [← hsplit]
                simp
              · rw [if_neg hx, hinv.visIff x]
                constructor
                · intro hmem
                  rw [← hsplit]
                  exact List.mem_append_left _ hmem
                · intro hmem
                  rw [← hsplit] at hmem
                  rcases List.mem_append.mp hmem with h | h
                  · exact h
                  · simp at h
                    exact absurd h hx
            · intro sn hsn
              rcases List.mem_append.mp hsn with h | h
              · exact hinv.snapsOk sn h
              · have hsne : sn = ⟨true, cloneGrid (markVisitedAt st.grid st.cur),
                    ⟨st.nodesVisited + 1, 0, false⟩⟩ := by simpa using h
                subst hsne
                exact ⟨rfl, hFg1, hPg1⟩
          have hfuel2 : fuel + (st.path ++ [stepPos st.cur dv.1]).length = B + 1 := by
            simp only [List.length_append, List.length_singleton]
            omega
          exact ih _ hinv2 hfuel2

theorem markPath_iff_of_fp {g0 gg : Grid} {l : List Pos} (hf : FlagsEq g0 gg)
    (hp : PathsEq g0 gg) (p : Pos) :
    ((markPathList gg l).cell p).isPath = true ↔
      (g0.cell p).isPath = true ∨
        (p ∈ l ∧ (g0.cell p).isStart = false ∧ (g0.cell p).isEnd = false) := by
  rw [markPathList_path_iff, hp p, hf.2.2.2.1 p, hf.2.2.2.2 p]

/-- C7 (amended): `runMonteCarloExploration` starts at the reported
start and repeatedly takes the deterministic greedy step
`mcGreedyStep` — the first (in the fixed order up, right, down, left)
reachable neighbour of strictly maximal learned value; no random
tie-break exists in the code.  It stops exactly when the goal position
is reached, no valid move exists, the walk re-enters an
already-visited cell other than the start (the start is exempt from
the loop guard on every iteration, not only the first), or the step
budget `rows * cols * 2` is exhausted; and every cell of the walked
trace not flagged start/end is marked `isPath`, regardless of
success. -/
theorem C7_mcExploration (g0 : Grid) (vf : Pos → ℚ) :
    (mcExpTrace g0 vf).head? = some (findPositions g0).1 ∧
    (mcExpTrace g0 vf).Chain' (mcGreedyStep g0 vf) ∧
    (∀ a b, mcGreedyStep g0 vf a b → gstep g0 a b ∧
      ∀ d2 ∈ [0, 1, 2, 3], inBounds g0 (stepPos a d2) ∧
        (g0.cell (stepPos a d2)).isWall = false → vf (stepPos a d2) ≤ vf b) ∧
    (∀ p, (((runMonteCarloExploration g0 vf).grid.cell p).isPath = true ↔
      (g0.cell p).isPath = true ∨
        (p ∈ mcExpTrace g0 vf ∧ (g0.cell p).isStart = false ∧
          (g0.cell p).isEnd = false))) ∧
    (((runMonteCarloExploration g0 vf).metrics.isPathFound = true ∧
        (mcExpTrace g0 vf).getLast? = some (findPositions g0).2) ∨
      ((runMonteCarloExploration g0 vf).metrics.isPathFound = false ∧
        ∃ c, (mcExpTrace g0 vf).getLast? = some c ∧
          ((c ≠ (findPositions g0).2 ∧ mcBest g0 vf c [0, 1, 2, 3] none = none) ∨
            (c ≠ (findPositions g0).1 ∧ c ∈ (mcExpTrace g0 vf).dropLast))) ∨
      (mcExpTrace g0 vf).length = g0.rows * g0.cols * 2 + 1) := by
  have hinit : McExpInv g0 vf (findPositions (cloneGrid g0)).1
      { grid := cloneGrid g0, cur := (findPositions (cloneGrid g0)).1,
        path := [(findPositions (cloneGrid g0)).1], visited := fun _ => false,
        nodesVisited := 0, isPathFound := false, snaps := [] } := by
    refine ⟨flagsEq_refl g0, fun _ => rfl, by simp, rfl, rfl, ?_, rfl, ?_⟩
    · intro x
      simp
    · intro sn hsn
      simp at hsn
  obtain ⟨hfin, hstop⟩ := mcExpGo_master g0 vf (findPositions (cloneGrid g0)).1
    (findPositions (cloneGrid g0)).2 ((cloneGrid g0).rows * (cloneGrid g0).cols * 2)
    ((cloneGrid g0).rows * (cloneGrid g0).cols * 2)
    { grid := cloneGrid g0, cur := (findPositions (cloneGrid g0)).1,
      path := [(findPositions (cloneGrid g0)).1], visited := fun _ => false,
      nodesVisited := 0, isPathFound := false, snaps := [] } hinit rfl
  refine ⟨hfin.headS, hfin.chain, ?_, ?_, ?_⟩
  · rintro a b ⟨dv, hself, hb⟩
    rcases mcBest_spec g0 vf a [0, 1, 2, 3] none dv.1 dv.2 hself with h | h
    · simp at h
    · obtain ⟨hdmem, hbnd, hwall, hveq⟩ := h
      have hd4 : dv.1 < 4 := by
        simp only [List.mem_cons, List.not_mem_nil, or_false] at hdmem
        omega
      refine ⟨⟨⟨⟨dv.1, hd4⟩, hb⟩, by rw [hb]; exact hbnd, by rw [hb]; exact hwall⟩, ?_⟩
      obtain ⟨h1, _⟩ := mcBest_max g0 vf a [0, 1, 2, 3] none dv.1 dv.2 hself
      intro d2 hd2 hcond
      rw [hb, ← hveq]
      exact h1 d2 hd2 hcond
  · intro p
    exact markPath_iff_of_fp hfin.flags hfin.paths p
  · rcases hstop with h | h | h | h
    · exact .inl h
    · exact .inr (.inl ⟨h.1, _, hfin.lastCur, .inl ⟨h.2.1, h.2.2⟩⟩)
    · exact .inr (.inl ⟨h.1, _, hfin.lastCur, .inr ⟨h.2.1, h.2.2⟩⟩)
    · exact .inr (.inr h)

/-- A 2-by-2 grid: `(0, 1)` is the non-wall start, `(1, 1)` a non-wall
cell, the left column is wall and no cell is flagged as end (so the
reported end defaults to `(0, 0)` and is never reached). -/
def gridC7 : Grid :=
  { rows := 2, cols := 2,
    cell := fun p =>
      if p = ((0 : Int), (1 : Int)) then cellMk false true false
      else if p = ((1 : Int), (1 : Int)) then cellMk false false false
      else cellMk true false false }

/-- C7 counterexample: with the all-zero value function on `gridC7`,
the walk is `(0,1) → (1,1) → (0,1) → (1,1)`.  At its third cell the
walk re-enters the already-visited start on a later step and is *not*
stopped (the start is permanently exempt from the loop guard, not only
on the very first step as claimed), and only stops on re-entering
`(1, 1)`.  The trace also shows the walk of length 3 is produced with
no random input at all, refuting the claimed uniformly-random
tie-breaking. -/
theorem C7_counterexample :
    mcExpTrace gridC7 (fun _ => 0) = [(0, 1), (1, 1), (0, 1), (1, 1)] ∧
    (runMonteCarloExploration gridC7 (fun _ => 0)).metrics.isPathFound = false ∧
    (runMonteCarloExploration gridC7 (fun _ => 0)).metrics.pathLength = 3 := by
  decide

/-! ### Q-Learning exploration (`algorithms.ts` lines 915-1055)

The Q-table `{ [key: string]: { [action: number]: number } }` is
embedded as a total function `Pos → Nat → ℚ` (the lookups
`qTable[currentStateKey] || {}` and `qValues[a] ?? 0` map missing
entries to `0`).  A strictly greater Q-value restarts the list of best
actions, an equal one appends to it, and one of the equally-best
actions is then picked with a random draw; since ℚ has no `-Infinity`,
the list is non-empty whenever a valid action exists, so the dead
`else` fallback of the source never runs.  The walk state is the same
shape as the Monte Carlo one, so `McExpState` is reused. -/

/-- The greedy argmax-list selection of `runQLearningExploration`
(`algorithms.ts` lines 977-1002): `none` plays `validActions` empty. -/
def qlBestList (g : Grid) (qv : Nat → ℚ) (cur : Pos) :
    List Nat → Option (ℚ × List Nat) → Option (ℚ × List Nat)
  | [], acc => acc
  | a :: as2, acc =>
    if inBounds g (stepPos cur a) ∧ (g.cell (stepPos cur a)).isWall = false then
      match acc with
      | none => qlBestList g qv cur as2 (some (qv a, [a]))
      | some ml =>
        if ml.1 < qv a then qlBestList g qv cur as2 (some (qv a, [a]))
        else if qv a = ml.1 then qlBestList g qv cur as2 (some (ml.1, ml.2 ++ [a]))
        else qlBestList g qv cur as2 (some ml)
    else qlBestList g qv cur as2 acc

/-- Loop of `runQLearningExploration` (`algorithms.ts` lines 948-1035)
on fuel, threading the random-draw counter `k`.  Each iteration:
count, stop with success at the end position, else mark and snapshot,
pick a best action with a random tie-break (or break if none), move,
and break if the *entered* cell was already visited (checked after
moving, with the moved-to cell left out of the visited set and the
path). -/
def qlExpGo (σ : Nat → Nat) (qt : Pos → Nat → ℚ) (epos : Pos) :
    Nat → Nat → McExpState → McExpState
  | 0, _, st => st
  | fuel + 1, k, st =>
    let m1 := st.nodesVisited + 1
    if st.cur = epos then
      { st with nodesVisited := m1, isPathFound := true }
    else
      let g1 := markVisitedAt st.grid st.cur
      let sn1 := st.snaps ++ [⟨true, cloneGrid g1, ⟨m1, 0, false⟩⟩]
      match qlBestList g1 (qt st.cur) st.cur [0, 1, 2, 3] none with
      | none =>
        { st with
            grid := g1
            nodesVisited := m1
            snaps := sn1 }
      | some ml =>
        let a := ml.2.getD (σ k % ml.2.length) 0
        if st.visited (stepPos st.cur a) = true then
          { st with
              grid := g1
              cur := stepPos st.cur a
              nodesVisited := m1
              snaps := sn1 }
        else
          qlExpGo σ qt epos fuel (k + 1)
            { grid := g1,
              cur := stepPos st.cur a,
              path := st.path ++ [stepPos st.cur a],
              visited := fun x => if x = stepPos st.cur a then true else st.visited x,
              nodesVisited := m1,
              isPathFound := false,
              snaps := sn1 }

/-- Embedding of `runQLearningExploration` (`algorithms.ts` lines
915-1055): the walk (whose visited set initially holds the start),
then the unconditional path marking, the
`path.length > 0 ? path.length - 1 : 0` length and a final snapshot.
The claim-irrelevant constant fields of `QLearningMetrics` are
dropped. -/
def runQLearningExploration (g0 : Grid) (σ : Nat → Nat) (qt : Pos → Nat → ℚ) :
    RunResult AlgorithmMetrics :=
  let g := cloneGrid g0
  let se := findPositions g
  let stf := qlExpGo σ qt se.2 (g.rows * g.cols * 2) 0
    { grid := g, cur := se.1, path := [se.1],
      visited := fun x => decide (x = se.1),
      nodesVisited := 0, isPathFound := false, snaps := [] }
  let g2 := markPathList stf.grid stf.path
  let m2 : AlgorithmMetrics :=
    ⟨stf.nodesVisited, if 0 < stf.path.length then stf.path.length - 1 else 0,
      stf.isPathFound⟩
  { metrics := m2, grid := g2, snapshots := stf.snaps ++ [⟨true, cloneGrid g2, m2⟩] }

/-- The walked trace of the Q-Learning exploration. -/
def qlExpTrace (g0 : Grid) (σ : Nat → Nat) (qt : Pos → Nat → ℚ) : List Pos :=
  (qlExpGo σ qt (findPositions (cloneGrid g0)).2
    ((cloneGrid g0).rows * (cloneGrid g0).cols * 2) 0
    { grid := cloneGrid g0, cur := (findPositions (cloneGrid g0)).1,
      path := [(findPositions (cloneGrid g0)).1],
      visited := fun x => decide (x = (findPositions (cloneGrid g0)).1),
      nodesVisited := 0, isPathFound := false, snaps := [] }).path

theorem mcExpGo_path_le (vf : Pos → ℚ) (epos spos : Pos) :
    ∀ (fuel : Nat) (st : McExpState),
      st.path.length ≤ (mcExpGo vf epos spos fuel st).path.length := by
  intro fuel
  induction fuel with
  | zero => intro st; exact le_refl _
  | succ fuel ih =>
    intro st
    by_cases h1 : st.visited st.cur = true ∧ ¬(st.cur = spos)
    · rw [mcExpGo, if_pos h1]
    · rw [mcExpGo, if_neg h1]
      dsimp only
      by_cases h2 : st.cur = epos
      · rw [if_pos h2]
      · rw [if_neg h2]
        cases hbest : mcBest (markVisitedAt st.grid st.cur) vf st.cur [0, 1, 2, 3] none with
        | none => exact le_refl _
        | some dv =>
          refine le_trans ?_ (ih
            { grid := markVisitedAt st.grid st.cur,
              cur := stepPos st.cur dv.1,
              path := st.path ++ [stepPos st.cur dv.1],
              visited := fun x => if x = st.cur then true else st.visited x,
              nodesVisited := st.nodesVisited + 1,
              isPathFound := false,
              snaps := st.snaps ++ [⟨true, cloneGrid (markVisitedAt st.grid st.cur),
                ⟨st.nodesVisited + 1, 0, false⟩⟩] })
          simp

theorem qlExpGo_path_le (σ : Nat → Nat) (qt : Pos → Nat → ℚ) (epos : Pos) :
    ∀ (fuel k : Nat) (st : McExpState),
      st.path.length ≤ (qlExpGo σ qt epos fuel k st).path.length := by
  intro fuel
  induction fuel with
  | zero => intro k st; exact le_refl _
  | succ fuel ih =>
    intro k st
    rw [qlExpGo]
    dsimp only
    by_cases h2 : st.cur = epos
    · rw [if_pos h2]
    · rw [if_neg h2]
      cases hbest : qlBestList (markVisitedAt st.grid st.cur) (qt st.cur) st.cur
          [0, 1, 2, 3] none with
      | none => exact le_refl _
      | some ml =>
        dsimp only
        by_cases h3 : st.visited (stepPos st.cur (ml.2.getD (σ k % ml.2.length) 0)) = true
        · rw [if_pos h3]
        · rw [if_neg h3]
          refine le_trans ?_ (ih (k + 1)
            { grid := markVisitedAt st.grid st.cur,
              cur := stepPos st.cur (ml.2.getD (σ k % ml.2.length) 0),
              path := st.path ++ [stepPos st.cur (ml.2.getD (σ k % ml.2.length) 0)],
              visited := fun x =>
                if x = stepPos st.cur (ml.2.getD (σ k % ml.2.length) 0) then true
                else st.visited x,
              nodesVisited := st.nodesVisited + 1,
              isPathFound := false,
              snaps := st.snaps ++ [⟨true, cloneGrid (markVisitedAt st.grid st.cur),
                ⟨st.nodesVisited + 1, 0, false⟩⟩] })
          simp

/-- C9: both exploration runners report `pathLength` equal to the edge
count of the walked trace (one less than the number of trace cells) —
whatever the outcome, a failed greedy walk included: the reported
length is computed from the walked `path` alone, with no dependence on
`isPathFound`. -/
theorem C9_exploration_pathLength (g0 : Grid) (vf : Pos → ℚ) (σ : Nat → Nat)
    (qt : Pos → Nat → ℚ) :
    ((runMonteCarloExploration g0 vf).metrics.pathLength =
        (mcExpTrace g0 vf).length - 1 ∧
      1 ≤ (mcExpTrace g0 vf).length) ∧
    ((runQLearningExploration g0 σ qt).metrics.pathLength =
        (qlExpTrace g0 σ qt).length - 1 ∧
      1 ≤ (qlExpTrace g0 σ qt).length) := by
  have h1 : 1 ≤ (mcExpTrace g0 vf).length :=
    mcExpGo_path_le vf (findPositions (cloneGrid g0)).2 (findPositions (cloneGrid g0)).1
      ((cloneGrid g0).rows * (cloneGrid g0).cols * 2)
      { grid := cloneGrid g0, cur := (findPositions (cloneGrid g0)).1,
        path := [(findPositions (cloneGrid g0)).1], visited := fun _ => false,
        nodesVisited := 0, isPathFound := false, snaps := [] }
  have h2 : 1 ≤ (qlExpTrace g0 σ qt).length :=
    qlExpGo_path_le σ qt (findPositions (cloneGrid g0)).2
      ((cloneGrid g0).rows * (cloneGrid g0).cols * 2) 0
      { grid := cloneGrid g0, cur := (findPositions (cloneGrid g0)).1,
        path := [(findPositions (cloneGrid g0)).1],
        visited := fun x => decide (x = (findPositions (cloneGrid g0)).1),
        nodesVisited := 0, isPathFound := false, snaps := [] }
  refine ⟨⟨?_, h1⟩, ⟨?_, h2⟩⟩
  · show (if 0 < (mcExpTrace g0 vf).length then (mcExpTrace g0 vf).length - 1 else 0) =
      (mcExpTrace g0 vf).length - 1
    rw [if_pos (show 0 < (mcExpTrace g0 vf).length by omega)]
  · show (if 0 < (qlExpTrace g0 σ qt).length then (qlExpTrace g0 σ qt).length - 1 else 0) =
      (qlExpTrace g0 σ qt).length - 1
    rw [if_pos (show 0 < (qlExpTrace g0 σ qt).length by omega)]

/-! ### Monte Carlo training (`algorithms.ts` lines 413-607)

`Math.random()` is abstracted by two oracle streams consumed with a
counter `k` threaded through the run: `τ k` decides each
`Math.random() < epsilon` test and `σ k` supplies each
`Math.floor(Math.random() * n)` draw as `σ k % n`.  The value function,
visit counts and returns maps are total functions with the falsy
JavaScript lookups (`|| 0`, `if (!returns[key])`) merged into the `0`
default. -/

/-- The three ways an episode can end. -/
inductive McOutcome where
  | goal : McOutcome
  | stuck : McOutcome
  | max_steps : McOutcome
deriving DecidableEq

/-- The valid actions of a Monte Carlo training step (`algorithms.ts`
lines 479-495): in bounds, not a wall, and not yet visited in this
episode. -/
def mcValidActs (g : Grid) (vis : Pos → Bool) (cur : Pos) : List Nat :=
  [0, 1, 2, 3].filter fun d =>
    decide (inBounds g (stepPos cur d)) && !(g.cell (stepPos cur d)).isWall &&
      !vis (stepPos cur d)

/-- The greedy argmax-index collection over the action values
(`algorithms.ts` lines 510-522): a strictly greater value restarts the
index list, an equal one appends. -/
def mcMaxIdxs : List ℚ → Nat → Option (ℚ × List Nat) → Option (ℚ × List Nat)
  | [], _, acc => acc
  | v :: vs, i, acc =>
    match acc with
    | none => mcMaxIdxs vs (i + 1) (some (v, [i]))
    | some ml =>
      if ml.1 < v then mcMaxIdxs vs (i + 1) (some (v, [i]))
      else if v = ml.1 then mcMaxIdxs vs (i + 1) (some (ml.1, ml.2 ++ [i]))
      else mcMaxIdxs vs (i + 1) (some ml)

theorem mcMaxIdxs_someAcc (vals : List ℚ) :
    ∀ (i0 : Nat) (ml0 : ℚ × List Nat), ∃ ml, mcMaxIdxs vals i0 (some ml0) = some ml := by
  induction vals with
  | nil => intro i0 ml0; exact ⟨ml0, rfl⟩
  | cons v vs ih =>
    intro i0 ml0
    rw [mcMaxIdxs.eq_def]
    dsimp only
    by_cases h1 : ml0.1 < v
    · rw [if_pos h1]
      exact ih _ _
    · rw [if_neg h1]
      by_cases h2 : v = ml0.1
      · rw [if_pos h2]
        exact ih _ _
      · rw [if_neg h2]
        exact ih _ _

theorem mcMaxIdxs_bound (vals : List ℚ) :
    ∀ (i0 : Nat) (acc : Option (ℚ × List Nat)) (ml : ℚ × List Nat),
      mcMaxIdxs vals i0 acc = some ml →
      (∀ pr, acc = some pr → pr.2 ≠ [] ∧ ∀ j ∈ pr.2, j < i0) →
      ml.2 ≠ [] ∧ ∀ j ∈ ml.2, j < i0 + vals.length := by
  induction vals with
  | nil =>
    intro i0 acc ml h hacc
    cases acc with
    | none => simp [mcMaxIdxs] at h
    | some pr =>
      have h2 : pr = ml := by simpa [mcMaxIdxs] using h
      subst h2
      obtain ⟨hne, hb⟩ := hacc pr rfl
      exact ⟨hne, fun j hj => lt_of_lt_of_le (hb j hj) (Nat.le_add_right _ _)⟩
  | cons v vs ih =>
    intro i0 acc ml h hacc
    rw [mcMaxIdxs.eq_def] at h
    dsimp only at h
    have hgoal : ∀ (pr2 : ℚ × List Nat), mcMaxIdxs vs (i0 + 1) (some pr2) = some ml →
        (pr2.2 ≠ [] ∧ ∀ j ∈ pr2.2, j < i0 + 1) →
        ml.2 ≠ [] ∧ ∀ j ∈ ml.2, j < i0 + (v :: vs).length := by
      intro pr2 hrec hpr2
      have := ih (i0 + 1) (some pr2) ml hrec
        (fun pr hpr => by rw [← Option.some.inj hpr]; exact hpr2)
      refine ⟨this.1, fun j hj => ?_⟩
      have := this.2 j hj
      simp only [List.length_cons]
      omega
    cases acc with
    | none =>
      exact hgoal (v, [i0]) h ⟨by simp, by intro j hj; simp at hj; omega⟩
    | some pr =>
      dsimp only at h
      obtain ⟨hne, hb⟩ := hacc pr rfl
      by_cases h1 : pr.1 < v
      · rw [if_pos h1] at h
        exact hgoal (v, [i0]) h ⟨by simp, by intro j hj; simp at hj; omega⟩
      · rw [if_neg h1] at h
        by_cases h2 : v = pr.1
        · rw [if_pos h2] at h
          refine hgoal (pr.1, pr.2 ++ [i0]) h ⟨by simp, ?_⟩
          intro j hj
          rcases List.mem_append.mp hj with hj | hj
          · have := hb j hj
            omega
          · simp at hj
            omega
        · rw [if_neg h2] at h
          refine hgoal pr h ⟨hne, ?_⟩
          intro j hj
          have := hb j hj
          omega

theorem getD_mem {α : Type} : ∀ (l : List α) (i : Nat) (d : α),
    i < l.length → l.getD i d ∈ l := by
  intro l
  induction l with
  | nil => intro i d h; simp at h
  | cons a t ih =>
    intro i d h
    cases i with
    | zero => simp [List.getD]
    | succ j =>
      have hj : j < t.length := by simpa using h
      have hm := ih j d hj
      simpa [List.getD] using List.mem_cons_of_mem a hm

/-- The epsilon-greedy action selection (`algorithms.ts` lines
503-528): explore with probability epsilon (a uniform valid action),
otherwise pick uniformly among the greedy argmax indices. -/
def mcChoose (τ : Nat → Bool) (σ : Nat → Nat) (k : Nat) (acts : List Nat)
    (vals : List ℚ) : Nat :=
  let idx := if τ k = true then σ k % acts.length
    else match mcMaxIdxs vals 0 none with
      | none => 0
      | some ml => ml.2.getD (σ k % ml.2.length) 0
  acts.getD idx 0

theorem mcChoose_mem (τ : Nat → Bool) (σ : Nat → Nat) (k : Nat) (acts : List Nat)
    (vals : List ℚ) (hne : acts ≠ []) (hlen : vals.length = acts.length) :
    mcChoose τ σ k acts vals ∈ acts := by
  have hpos : 0 < acts.length := List.length_pos.mpr hne
  unfold mcChoose
  by_cases hτ : τ k = true
  · rw [if_pos hτ]
    exact getD_mem _ _ _ (Nat.mod_lt _ hpos)
  · rw [if_neg hτ]
    have hvne : vals ≠ [] := by
      intro hh
      rw [hh] at hlen
      simp at hlen
      omega
    obtain ⟨ml, hml⟩ : ∃ ml, mcMaxIdxs vals 0 none = some ml := by
      cases hv : vals with
      | nil => exact absurd hv hvne
      | cons v vs =>
        rw [mcMaxIdxs.eq_def]
        dsimp only
        exact mcMaxIdxs_someAcc vs 1 (v, [0])
    rw [hml]
    obtain ⟨hmlne, hmlb⟩ := mcMaxIdxs_bound vals 0 none ml hml
      (fun pr hpr => by simp at hpr)
    have hmlpos : 0 < ml.2.length := List.length_pos.mpr hmlne
    have hidx : ml.2.getD (σ k % ml.2.length) 0 ∈ ml.2 :=
      getD_mem _ _ _ (Nat.mod_lt _ hmlpos)
    have hlt : ml.2.getD (σ k % ml.2.length) 0 < acts.length := by
      have := hmlb _ hidx
      omega
    exact getD_mem _ _ _ hlt

/-- One training episode of `runMonteCarlo` (`algorithms.ts` lines
462-531) on fuel (`steps < maxSteps`, with `max_steps` the outcome
left when the budget runs out): push the current cell onto the
trajectory and the episode's visited set, stop with `goal` at the end
position, stop with `stuck` when no unvisited valid neighbour exists,
else move epsilon-greedily.  Returns the trajectory, the outcome and
the advanced draw counter. -/
def mcEpisodeGo (g : Grid) (vf : Pos → ℚ) (epos : Pos) (τ : Nat → Bool) (σ : Nat → Nat) :
    Nat → Nat → Pos → List Pos → (Pos → Bool) → List Pos × McOutcome × Nat
  | 0, k, _, traj, _ => (traj, McOutcome.max_steps, k)
  | fuel + 1, k, cur, traj, vis =>
    if cur = epos then (traj ++ [cur], McOutcome.goal, k)
    else
      let acts := mcValidActs g (fun x => if x = cur then true else vis x) cur
      if acts.length = 0 then (traj ++ [cur], McOutcome.stuck, k)
      else
        mcEpisodeGo g vf epos τ σ fuel (k + 1)
          (stepPos cur (mcChoose τ σ k acts (acts.map fun d => vf (stepPos cur d))))
          (traj ++ [cur]) (fun x => if x = cur then true else vis x)

/-- The per-index reward of the backward returns pass (`algorithms.ts`
lines 539-551): zero everywhere except the final index, which gets
`rewardValue` on a `goal` outcome and `stuckPenalty` otherwise. -/
def mcRewardAt (o : McOutcome) (rV sP : ℚ) (len i : Nat) : ℚ :=
  if i = len - 1 then (if o = McOutcome.goal then rV else sP) else 0

theorem nodup_inBounds_length_le (g : Grid) (l : List Pos) (hnd : l.Nodup)
    (hb : ∀ x ∈ l, inBounds g x) : l.length ≤ g.rows * g.cols := by
  have h1 : l.toFinset ⊆ boundsFinset g := by
    intro x hx
    rw [List.mem_toFinset] at hx
    exact mem_boundsFinset.mpr (hb x hx)
  have h2 := Finset.card_le_card h1
  rwa [List.toFinset_card_of_nodup hnd, boundsFinset_card] at h2

/-- Each episode iteration visits a fresh cell, so the trajectory stays
duplicate-free and the step budget `rows * cols * 2` can never be
exhausted: every episode ends at the goal or stuck. -/
theorem mcEpisodeGo_ends (g : Grid) (vf : Pos → ℚ) (epos : Pos) (τ : Nat → Bool)
    (σ : Nat → Nat) (hrc : 1 ≤ g.rows * g.cols) :
    ∀ (fuel k : Nat) (cur : Pos) (traj : List Pos) (vis : Pos → Bool),
      traj.Nodup → (∀ x, vis x = true ↔ x ∈ traj) → cur ∉ traj → inBounds g cur →
      (∀ x ∈ traj, inBounds g x) →
      traj.length + fuel = g.rows * g.cols * 2 →
      (mcEpisodeGo g vf epos τ σ fuel k cur traj vis).2.1 = McOutcome.goal ∨
        (mcEpisodeGo g vf epos τ σ fuel k cur traj vis).2.1 = McOutcome.stuck := by
  intro fuel
  induction fuel with
  | zero =>
    intro k cur traj vis hnd hvis hcur hbc hbt hlen
    exfalso
    have := nodup_inBounds_length_le g traj hnd hbt
    omega
  | succ fuel ih =>
    intro k cur traj vis hnd hvis hcur hbc hbt hlen
    rw [mcEpisodeGo]
    by_cases h2 : cur = epos
    · rw [if_pos h2]
      exact .inl rfl
    · rw [if_neg h2]
      dsimp only
      by_cases hl : (mcValidActs g (fun x => if x = cur then true else vis x) cur).length = 0
      · rw [if_pos hl]
        exact .inr rfl
      · rw [if_neg hl]
        have hne : mcValidActs g (fun x => if x = cur then true else vis x) cur ≠ [] := by
          intro hh
          rw [hh] at hl
          simp at hl
        have hmem := mcChoose_mem τ σ k _
          ((mcValidActs g (fun x => if x = cur then true else vis x) cur).map
            fun d => vf (stepPos cur d)) hne (by simp)
        have hfilt := List.of_mem_filter hmem
        simp only [Bool.and_eq_true, decide_eq_true_eq, Bool.not_eq_true',
          Bool.not_eq_true] at hfilt
        obtain ⟨⟨hbnd, hwall⟩, hfresh⟩ := hfilt
        have hne2 : ¬(stepPos cur (mcChoose τ σ k
            (mcValidActs g (fun x => if x = cur then true else vis x) cur)
            ((mcValidActs g (fun x => if x = cur then true else vis x) cur).map
              fun d => vf (stepPos cur d))) = cur) := by
          intro hh
          rw [if_pos hh] at hfresh
          exact absurd hfresh (by simp)
        have hvisA : vis (stepPos cur (mcChoose τ σ k
            (mcValidActs g (fun x => if x = cur then true else vis x) cur)
            ((mcValidActs g (fun x => if x = cur then true else vis x) cur).map
              fun d => vf (stepPos cur d))) ) = false := by
          rwa [if_neg hne2] at hfresh
        refine ih (k + 1) _ (traj ++ [cur]) _ ?_ ?_ ?_ hbnd ?_ ?_
        · rw [List.nodup_append]
          refine ⟨hnd, by simp, ?_⟩
          intro x hx hy
          simp at hy
          subst hy
          exact hcur hx
        · intro x
          by_cases hx : x = cur
          · subst hx
            simp
          · rw [if_neg hx, hvis x]
            simp [hx]
        · intro hh
          rcases List.mem_append.mp hh with hh | hh
          · have hv2 := (hvis _).mpr hh
            rw [hvisA] at hv2
            exact absurd hv2 (by simp)
          · rw [List.mem_singleton] at hh
            exact hne2 hh
        · intro x hx
          rcases List.mem_append.mp hx with hh | hh
          · exact hbt x hh
          · simp at hh
            subst hh
            exact hbc
        · simp only [List.length_append, List.length_singleton]
          omega

/-- C3: in Monte Carlo training, for every configuration and episode
start (any learned values `vf` and draw position `k`), the episode
ends at the goal or stuck — the step budget `rows * cols * 2` is never
exhausted, because each iteration visits a cell unvisited in that
episode — and the reward of the backward returns pass is zero at every
non-terminal index while the final index receives `rewardValue` on a
goal outcome and `stuckPenalty` on a stuck one (so no reward is ever
assigned by budget exhaustion, vacuously). -/
theorem C3_mc_rewards (g : Grid) (vf : Pos → ℚ) (spos epos : Pos) (τ : Nat → Bool)
    (σ : Nat → Nat) (rV sP : ℚ) (k : Nat)
    (hrc : 1 ≤ g.rows * g.cols) (hs : inBounds g spos) :
    ((mcEpisodeGo g vf epos τ σ (g.rows * g.cols * 2) k spos [] fun _ => false).2.1 =
        McOutcome.goal ∨
      (mcEpisodeGo g vf epos τ σ (g.rows * g.cols * 2) k spos [] fun _ => false).2.1 =
        McOutcome.stuck) ∧
    (∀ o : McOutcome, ∀ len i : Nat, i + 1 < len → mcRewardAt o rV sP len i = 0) ∧
    (∀ len : Nat, mcRewardAt McOutcome.goal rV sP len (len - 1) = rV) ∧
    (∀ len : Nat, mcRewardAt McOutcome.stuck rV sP len (len - 1) = sP) := by
  refine ⟨?_, ?_, ?_, ?_⟩
  · exact mcEpisodeGo_ends g vf epos τ σ hrc (g.rows * g.cols * 2) k spos [] _
      (by simp) (by intro x; simp) (by simp) hs (by intro x hx; simp at hx) (by simp)
  · intro o len i hi
    unfold mcRewardAt
    rw [if_neg (by omega)]
  · intro len
    unfold mcRewardAt
    rw [if_pos rfl, if_pos rfl]
  · intro len
    unfold mcRewardAt
    rw [if_pos rfl, if_neg (by intro hh; exact McOutcome.noConfusion hh)]

/-- Witness for C3 on the concrete 1-by-2 grid. -/
theorem C3_mc_rewards_witness :
    1 ≤ gridW2.rows * gridW2.cols ∧ inBounds gridW2 (0, 0) ∧
      (((mcEpisodeGo gridW2 (fun _ => 0) (0, 1) (fun _ => false) (fun _ => 0)
          (gridW2.rows * gridW2.cols * 2) 0 (0, 0) [] fun _ => false).2.1 =
            McOutcome.goal ∨
        (mcEpisodeGo gridW2 (fun _ => 0) (0, 1) (fun _ => false) (fun _ => 0)
          (gridW2.rows * gridW2.cols * 2) 0 (0, 0) [] fun _ => false).2.1 =
            McOutcome.stuck) ∧
      (∀ o : McOutcome, ∀ len i : Nat, i + 1 < len → mcRewardAt o 1 (-1) len i = 0) ∧
      (∀ len : Nat, mcRewardAt McOutcome.goal 1 (-1) len (len - 1) = 1) ∧
      (∀ len : Nat, mcRewardAt McOutcome.stuck 1 (-1) len (len - 1) = -1)) :=
  ⟨by decide, by decide,
    C3_mc_rewards gridW2 (fun _ => 0) (0, 0) (0, 1) (fun _ => false) (fun _ => 0)
      1 (-1) 0 (by decide) (by decide)⟩

/-- The backward returns pass (`algorithms.ts` lines 534-557): walk the
reversed trajectory accumulating `G = reward + discount * G` and record
`G` under the falsy guard `if (!returns[key])` (which overwrites a
stored `0` as well as a missing key, both `0` here). -/
def mcReturnsGo (dF : ℚ) : List (Pos × ℚ) → ℚ → (Pos → ℚ) → (Pos → ℚ)
  | [], _, r => r
  | pr :: rest, G0, r =>
    mcReturnsGo dF rest (pr.2 + dF * G0)
      (if r pr.1 = 0 then fun x => if x = pr.1 then pr.2 + dF * G0 else r x else r)

/-- The first-visit incremental-average update (`algorithms.ts` lines
559-573): on each cell's first occurrence in the trajectory, bump its
visit count and move its value toward the recorded return by
`1 / visitCounts[key]`. -/
def mcFirstVisit : List Pos → (Pos → Bool) → (Pos → Nat) → (Pos → ℚ) → (Pos → ℚ) →
    (Pos → Nat) × (Pos → ℚ)
  | [], _, vc, vfv, _ => (vc, vfv)
  | p :: rest, fv, vc, vfv, rets =>
    if fv p = true then mcFirstVisit rest fv vc vfv rets
    else
      mcFirstVisit rest (fun x => if x = p then true else fv x)
        (fun x => if x = p then vc p + 1 else vc x)
        (fun x => if x = p then vfv p + (rets p - vfv p) / ((vc p + 1 : Nat) : ℚ)
          else vfv x)
        rets

/-- The evolving fields of `MonteCarloMetrics` (the remaining fields
are constants of the call). -/
structure McMetrics where
  episodesCompleted : Nat
  valueFunction : Pos → ℚ

/-- Training-loop state of `runMonteCarlo`. -/
structure McTrainState where
  vf : Pos → ℚ
  vc : Pos → Nat
  k : Nat
  snaps : List (StepSnapshot McMetrics)

/-- The episode loop of `runMonteCarlo` (`algorithms.ts` lines
450-606): run an episode, apply the backward returns pass and the
first-visit updates, and emit a UI snapshot every
`max(1, floor(episodes / 10))` episodes and on the last one — each
emission carrying `cloneGrid(initialGrid)`, a fresh copy of the
caller's grid. -/
def mcTrainGo (g0 g : Grid) (spos epos : Pos) (τ : Nat → Bool) (σ : Nat → Nat)
    (episodes : Nat) (dF rV sP : ℚ) : Nat → Nat → McTrainState → McTrainState
  | 0, _, st => st
  | rem + 1, e, st =>
    let ep := mcEpisodeGo g st.vf epos τ σ (g.rows * g.cols * 2) st.k spos [] fun _ => false
    let term := if ep.2.1 = McOutcome.goal then rV else sP
    let rets := match ep.1.reverse with
      | [] => fun _ => (0 : ℚ)
      | lastp :: rest =>
        mcReturnsGo dF ((lastp, term) :: rest.map fun p => (p, (0 : ℚ))) 0 fun _ => 0
    let upd := mcFirstVisit ep.1 (fun _ => false) st.vc st.vf rets
    mcTrainGo g0 g spos epos τ σ episodes dF rV sP rem (e + 1)
      { vf := upd.2,
        vc := upd.1,
        k := ep.2.2,
        snaps := if e % max 1 (episodes / 10) = 0 ∨ e = episodes - 1 then
            st.snaps ++ [⟨true, cloneGrid g0, ⟨e + 1, upd.2⟩⟩]
          else st.snaps }

/-- Embedding of `runMonteCarlo` (`algorithms.ts` lines 413-607).  The
value-function history and the constant metrics fields are dropped;
the snapshot metrics record the episode counter and the value function
as values (the source's `{ ...metrics }` is a shallow copy whose
nested `valueFunction` object stays aliased to the engine's). -/
def runMonteCarlo (g0 : Grid) (τ : Nat → Bool) (σ : Nat → Nat) (episodes : Nat)
    (dF rV sP : ℚ) : RunResult McMetrics :=
  let g := cloneGrid g0
  let se := findPositions g
  let fin := mcTrainGo g0 g se.1 se.2 τ σ episodes dF rV sP episodes 0
    ⟨fun _ => 0, fun _ => 0, 0, []⟩
  { metrics := ⟨if episodes = 0 then 0 else episodes, fin.vf⟩,
    grid := g, snapshots := fin.snaps }

/-- The valid actions of a Q-Learning step (`algorithms.ts` lines
821-834 and 866-873): in bounds and not a wall (no visited set). -/
def qlValidActs (g : Grid) (cur : Pos) : List Nat :=
  [0, 1, 2, 3].filter fun a =>
    decide (inBounds g (stepPos cur a)) && !(g.cell (stepPos cur a)).isWall

/-- `Math.max(...Object.values(qTable[key]))` over the four actions. -/
def qlMax4 (qv : Nat → ℚ) : ℚ := max (max (qv 0) (qv 1)) (max (qv 2) (qv 3))

/-- One training episode of `runQLearning` (`algorithms.ts` lines
801-897) on fuel: stop when no valid action exists (`action = -1`, no
update), else pick an action epsilon-greedily, compute the reward
(`rewardValue` on entering the goal, `stuckPenalty` on entering a
non-goal dead end, else zero), apply the temporal-difference update
and move; terminal transitions end the episode after the update.
Returns the updated Q-table and advanced draw counter. -/
def qlEpisodeGo (g : Grid) (epos : Pos) (τ : Nat → Bool) (σ : Nat → Nat)
    (dF lr rV sP : ℚ) : Nat → Nat → Pos → (Pos → Nat → ℚ) → (Pos → Nat → ℚ) × Nat
  | 0, k, _, qt => (qt, k)
  | fuel + 1, k, cur, qt =>
    if (qlValidActs g cur).length = 0 then (qt, k)
    else
      let a := if τ k = true then
          (qlValidActs g cur).getD (σ k % (qlValidActs g cur).length) 0
        else
          match qlBestList g (qt cur) cur [0, 1, 2, 3] none with
          | none => 0
          | some ml => ml.2.getD (σ k % ml.2.length) 0
      let next := stepPos cur a
      let isTerm := next = epos ∨ (qlValidActs g next = [] ∧ ¬(next = epos))
      let reward := if next = epos then rV
        else if qlValidActs g next = [] ∧ ¬(next = epos) then sP else 0
      let maxNext := if ¬isTerm ∧ inBounds g next ∧ (g.cell next).isWall = false then
          qlMax4 (qt next) else 0
      let qt2 := fun p a2 => if p = cur ∧ a2 = a then
          qt cur a + lr * (reward + dF * maxNext - qt cur a) else qt p a2
      if isTerm then (qt2, k + 1)
      else qlEpisodeGo g epos τ σ dF lr rV sP fuel (k + 1) next qt2

/-- The evolving fields of `QLearningMetrics`. -/
structure QlMetrics where
  episodesCompleted : Nat
  qTable : Pos → Nat → ℚ

/-- Training-loop state of `runQLearning`. -/
structure QlTrainState where
  qt : Pos → Nat → ℚ
  k : Nat
  snaps : List (StepSnapshot QlMetrics)

/-- The episode loop of `runQLearning` (`algorithms.ts` lines 799-908):
run an episode and emit a UI snapshot every
`max(1, floor(episodes / 20))` episodes and on the last one — each
emission passing `grid: initialGrid`, the caller's grid itself with no
`cloneGrid`, recorded as `gridFresh := false`. -/
def qlTrainGo (g0 g : Grid) (spos epos : Pos) (τ : Nat → Bool) (σ : Nat → Nat)
    (episodes : Nat) (dF lr rV sP : ℚ) : Nat → Nat → QlTrainState → QlTrainState
  | 0, _, st => st
  | rem + 1, e, st =>
    let ep := qlEpisodeGo g epos τ σ dF lr rV sP (g.rows * g.cols * 2) st.k spos st.qt
    qlTrainGo g0 g spos epos τ σ episodes dF lr rV sP rem (e + 1)
      { qt := ep.1,
        k := ep.2,
        snaps := if e % max 1 (episodes / 20) = 0 ∨ e = episodes - 1 then
            st.snaps ++ [⟨false, g0, ⟨e + 1, ep.1⟩⟩]
          else st.snaps }

/-- Embedding of `runQLearning` (`algorithms.ts` lines 751-910).  The
Q-table is total with the zero default of its initialisation merged
into lookups; the constant metrics fields are dropped. -/
def runQLearning (g0 : Grid) (τ : Nat → Bool) (σ : Nat → Nat) (episodes : Nat)
    (dF lr rV sP : ℚ) : RunResult QlMetrics :=
  let g := cloneGrid g0
  let se := findPositions g
  let fin := qlTrainGo g0 g se.1 se.2 τ σ episodes dF lr rV sP episodes 0
    ⟨fun _ _ => 0, 0, []⟩
  { metrics := ⟨if episodes = 0 then 0 else episodes, fin.qt⟩,
    grid := g, snapshots := fin.snaps }

theorem mcTrainGo_snaps (g0 g : Grid) (spos epos : Pos) (τ : Nat → Bool) (σ : Nat → Nat)
    (episodes : Nat) (dF rV sP : ℚ) :
    ∀ (rem e : Nat) (st : McTrainState),
      (∀ sn ∈ st.snaps, sn.gridFresh = true ∧ sn.grid = cloneGrid g0) →
      ∀ sn ∈ (mcTrainGo g0 g spos epos τ σ episodes dF rV sP rem e st).snaps,
        sn.gridFresh = true ∧ sn.grid = cloneGrid g0 := by
  intro rem
  induction rem with
  | zero => intro e st h; exact h
  | succ rem ih =>
    intro e st h
    rw [mcTrainGo]
    apply ih
    intro sn hsn
    have hsn2 : sn ∈ (if e % max 1 (episodes / 10) = 0 ∨ e = episodes - 1 then
        st.snaps ++ [⟨true, cloneGrid g0,
          ⟨e + 1, (mcFirstVisit (mcEpisodeGo g st.vf epos τ σ (g.rows * g.cols * 2)
              st.k spos [] fun _ => false).1 (fun _ => false) st.vc st.vf
              (match (mcEpisodeGo g st.vf epos τ σ (g.rows * g.cols * 2)
                  st.k spos [] fun _ => false).1.reverse with
                | [] => fun _ => (0 : ℚ)
                | lastp :: rest =>
                  mcReturnsGo dF ((lastp,
                    if (mcEpisodeGo g st.vf epos τ σ (g.rows * g.cols * 2)
                      st.k spos [] fun _ => false).2.1 = McOutcome.goal then rV else sP) ::
                    rest.map fun p => (p, (0 : ℚ))) 0 fun _ => 0)).2⟩⟩]
      else st.snaps) := hsn
    by_cases hc : e % max 1 (episodes / 10) = 0 ∨ e = episodes - 1
    · rw [if_pos hc] at hsn2
      rcases List.mem_append.mp hsn2 with h2 | h2
      · exact h sn h2
      · rw [List.mem_singleton.mp h2]
        exact ⟨rfl, rfl⟩
    · rw [if_neg hc] at hsn2
      exact h sn hsn2

theorem qlTrainGo_snaps (g0 g : Grid) (spos epos : Pos) (τ : Nat → Bool) (σ : Nat → Nat)
    (episodes : Nat) (dF lr rV sP : ℚ) :
    ∀ (rem e : Nat) (st : QlTrainState),
      (∀ sn ∈ st.snaps, sn.gridFresh = false ∧ sn.grid = g0) →
      ∀ sn ∈ (qlTrainGo g0 g spos epos τ σ episodes dF lr rV sP rem e st).snaps,
        sn.gridFresh = false ∧ sn.grid = g0 := by
  intro rem
  induction rem with
  | zero => intro e st h; exact h
  | succ rem ih =>
    intro e st h
    rw [qlTrainGo]
    apply ih
    intro sn hsn
    have hsn2 : sn ∈ (if e % max 1 (episodes / 20) = 0 ∨ e = episodes - 1 then
        st.snaps ++ [⟨false, g0,
          ⟨e + 1, (qlEpisodeGo g epos τ σ dF lr rV sP (g.rows * g.cols * 2)
            st.k spos st.qt).1⟩⟩]
      else st.snaps) := hsn
    by_cases hc : e % max 1 (episodes / 20) = 0 ∨ e = episodes - 1
    · rw [if_pos hc] at hsn2
      rcases List.mem_append.mp hsn2 with h2 | h2
      · exact h sn h2
      · rw [List.mem_singleton.mp h2]
        exact ⟨rfl, rfl⟩
    · rw [if_neg hc] at hsn2
      exact h sn hsn2

theorem mcExpGo_snapsFresh (vf : Pos → ℚ) (epos spos : Pos) :
    ∀ (fuel : Nat) (st : McExpState),
      (∀ sn ∈ st.snaps, sn.gridFresh = true) →
      ∀ sn ∈ (mcExpGo vf epos spos fuel st).snaps, sn.gridFresh = true := by
  intro fuel
  induction fuel with
  | zero => intro st h; exact h
  | succ fuel ih =>
    intro st h
    by_cases h1 : st.visited st.cur = true ∧ ¬(st.cur = spos)
    · rw [mcExpGo, if_pos h1]
      exact h
    · rw [mcExpGo, if_neg h1]
      dsimp only
      by_cases h2 : st.cur = epos
      · rw [if_pos h2]
        exact h
      · rw [if_neg h2]
        cases hbest : mcBest (markVisitedAt st.grid st.cur) vf st.cur [0, 1, 2, 3] none with
        | none =>
          intro sn hsn
          rcases List.mem_append.mp hsn with h2b | h2b
          · exact h sn h2b
          · have hsne : sn = ⟨true, cloneGrid (markVisitedAt st.grid st.cur),
                ⟨st.nodesVisited + 1, 0, false⟩⟩ := by simpa using h2b
            rw [hsne]
        | some dv =>
          apply ih
          intro sn hsn
          rcases List.mem_append.mp hsn with h2b | h2b
          · exact h sn h2b
          · have hsne : sn = ⟨true, cloneGrid (markVisitedAt st.grid st.cur),
                ⟨st.nodesVisited + 1, 0, false⟩⟩ := by simpa using h2b
            rw [hsne]

theorem qlExpGo_snapsFresh (σ : Nat → Nat) (qt : Pos → Nat → ℚ) (epos : Pos) :
    ∀ (fuel k : Nat) (st : McExpState),
      (∀ sn ∈ st.snaps, sn.gridFresh = true) →
      ∀ sn ∈ (qlExpGo σ qt epos fuel k st).snaps, sn.gridFresh = true := by
  intro fuel
  induction fuel with
  | zero => intro k st h; exact h
  | succ fuel ih =>
    intro k st h
    rw [qlExpGo]
    dsimp only
    by_cases h2 : st.cur = epos
    · rw [if_pos h2]
      exact h
    · rw [if_neg h2]
      have hnew : ∀ sn ∈ st.snaps ++ [⟨true, cloneGrid (markVisitedAt st.grid st.cur),
          (⟨st.nodesVisited + 1, 0, false⟩ : AlgorithmMetrics)⟩],
          sn.gridFresh = true := by
        intro sn hsn
        rcases List.mem_append.mp hsn with h2b | h2b
        · exact h sn h2b
        · have hsne : sn = ⟨true, cloneGrid (markVisitedAt st.grid st.cur),
              ⟨st.nodesVisited + 1, 0, false⟩⟩ := by simpa using h2b
          rw [hsne]
      cases hbest : qlBestList (markVisitedAt st.grid st.cur) (qt st.cur) st.cur
          [0, 1, 2, 3] none with
      | none => exact hnew
      | some ml =>
        dsimp only
        by_cases h3 : st.visited (stepPos st.cur (ml.2.getD (σ k % ml.2.length) 0)) = true
        · rw [if_pos h3]
          exact hnew
        · rw [if_neg h3]
          exact ih (k + 1) _ hnew

/-- C4 counterexample: a one-episode Q-Learning training run on the
1-by-2 grid emits exactly one snapshot, and its grid is the caller's
`initialGrid` passed with no `cloneGrid` (recorded as
`gridFresh = false`), aliasing the caller's grid — not an independent
deep copy. -/
theorem C4_counterexample :
    ((runQLearning gridW2 (fun _ => false) (fun _ => 0) 1 0 0 0 0).snapshots.map
        fun sn => sn.gridFresh) = [false] ∧
    ((runQLearning gridW2 (fun _ => false) (fun _ => 0) 1 0 0 0
        0).snapshots.getD 0 ⟨true, gridW2, ⟨0, fun _ _ => 0⟩⟩).grid = gridW2 := by
  exact ⟨by decide, rfl⟩

/-- C4 (amended): the search engines (`runBFS`, `runDFS`, `runAStar`)
and both exploration runners pass every `onStep` call a fresh
`cloneGrid` copy, and Monte Carlo training passes a fresh
`cloneGrid(initialGrid)` copy of the caller's grid; Q-Learning
training alone passes the caller's grid itself, uncloned
(`gridFresh = false`), to every one of its snapshot emissions. -/
theorem C4_snapshot_freshness (g0 : Grid) (σ : Nat → Nat) (τ : Nat → Bool)
    (vf : Pos → ℚ) (qt : Pos → Nat → ℚ) (episodes : Nat) (dF lr rV sP : ℚ)
    (hr : 1 ≤ g0.rows) (hc : 1 ≤ g0.cols) :
    (∀ sn ∈ (runBFS g0).snapshots, sn.gridFresh = true) ∧
    (∀ sn ∈ (runDFS g0 σ).snapshots, sn.gridFresh = true) ∧
    (∀ sn ∈ (runAStar g0).snapshots, sn.gridFresh = true) ∧
    (∀ sn ∈ (runMonteCarloExploration g0 vf).snapshots, sn.gridFresh = true) ∧
    (∀ sn ∈ (runQLearningExploration g0 σ qt).snapshots, sn.gridFresh = true) ∧
    (∀ sn ∈ (runMonteCarlo g0 τ σ episodes dF rV sP).snapshots,
      sn.gridFresh = true ∧ sn.grid = cloneGrid g0) ∧
    (∀ sn ∈ (runQLearning g0 τ σ episodes dF lr rV sP).snapshots,
      sn.gridFresh = false ∧ sn.grid = g0) := by
  have hs : inBounds g0 (findPositions g0).1 := findPositions_fst_inBounds hr hc
  obtain ⟨_, _, _, _, _, _, bsn⟩ := runBFS_post g0 hs
  obtain ⟨_, _, _, _, _, _, dsn⟩ := runDFS_post g0 σ hs
  obtain ⟨_, _, _, _, _, _, asn⟩ := runAStar_post g0 hs
  refine ⟨fun sn hsn => (bsn sn hsn).1, fun sn hsn => (dsn sn hsn).1,
    fun sn hsn => (asn sn hsn).1, ?_, ?_, ?_, ?_⟩
  · intro sn hsn
    rcases List.mem_append.mp hsn with h2 | h2
    · exact mcExpGo_snapsFresh vf (findPositions (cloneGrid g0)).2
        (findPositions (cloneGrid g0)).1 ((cloneGrid g0).rows * (cloneGrid g0).cols * 2)
        { grid := cloneGrid g0, cur := (findPositions (cloneGrid g0)).1,
          path := [(findPositions (cloneGrid g0)).1], visited := fun _ => false,
          nodesVisited := 0, isPathFound := false, snaps := [] }
        (by intro sn2 hsn2; simp at hsn2) sn h2
    · have hsne := List.mem_singleton.mp h2
      rw [hsne]
  · intro sn hsn
    rcases List.mem_append.mp hsn with h2 | h2
    · exact qlExpGo_snapsFresh σ qt (findPositions (cloneGrid g0)).2
        ((cloneGrid g0).rows * (cloneGrid g0).cols * 2) 0
        { grid := cloneGrid g0, cur := (findPositions (cloneGrid g0)).1,
          path := [(findPositions (cloneGrid g0)).1],
          visited := fun x => decide (x = (findPositions (cloneGrid g0)).1),
          nodesVisited := 0, isPathFound := false, snaps := [] }
        (by intro sn2 hsn2; simp at hsn2) sn h2
    · have hsne := List.mem_singleton.mp h2
      rw [hsne]
  · intro sn hsn
    exact mcTrainGo_snaps g0 (cloneGrid g0) (findPositions (cloneGrid g0)).1
      (findPositions (cloneGrid g0)).2 τ σ episodes dF rV sP episodes 0
      ⟨fun _ => 0, fun _ => 0, 0, []⟩ (by intro sn2 hsn2; simp at hsn2) sn hsn
  · intro sn hsn
    exact qlTrainGo_snaps g0 (cloneGrid g0) (findPositions (cloneGrid g0)).1
      (findPositions (cloneGrid g0)).2 τ σ episodes dF lr rV sP episodes 0
      ⟨fun _ _ => 0, 0, []⟩ (by intro sn2 hsn2; simp at hsn2) sn hsn

/-- Witness for the amended C4 on the concrete 1-by-2 grid. -/
theorem C4_snapshot_freshness_witness :
    1 ≤ gridW2.rows ∧ 1 ≤ gridW2.cols ∧
      ((∀ sn ∈ (runBFS gridW2).snapshots, sn.gridFresh = true) ∧
      (∀ sn ∈ (runDFS gridW2 fun _ => 0).snapshots, sn.gridFresh = true) ∧
      (∀ sn ∈ (runAStar gridW2).snapshots, sn.gridFresh = true) ∧
      (∀ sn ∈ (runMonteCarloExploration gridW2 fun _ => 0).snapshots,
        sn.gridFresh = true) ∧
      (∀ sn ∈ (runQLearningExploration gridW2 (fun _ => 0) fun _ _ => 0).snapshots,
        sn.gridFresh = true) ∧
      (∀ sn ∈ (runMonteCarlo gridW2 (fun _ => false) (fun _ => 0) 1 0 0 0).snapshots,
        sn.gridFresh = true ∧ sn.grid = cloneGrid gridW2) ∧
      (∀ sn ∈ (runQLearning gridW2 (fun _ => false) (fun _ => 0) 1 0 0 0 0).snapshots,
        sn.gridFresh = false ∧ sn.grid = gridW2)) :=
  ⟨by decide, by decide,
    C4_snapshot_freshness gridW2 (fun _ => 0) (fun _ => false) (fun _ => 0)
      (fun _ _ => 0) 1 0 0 0 0 (by decide) (by decide)⟩

/-! ### Maze generation (`mazeGenerator.ts` lines 18-144)

`generateMaze` builds an all-wall grid, opens and flags the start cell
`(0, 1)` and the end cell `(rows-1, cols-2)`, carves corridors by
recursive backtracking from `(1, 1)` (stepping two cells at a time and
opening the wall in between), and finally calls `ensurePathExists`,
which runs a BFS from the start over non-wall cells and, if the end was
not reached, opens a direct rows-then-columns walk from start to end. -/

/-- Freshly initialised grid of `generateMaze` (lines 20-48): every cell
a wall, then `grid[0][1]` opened and flagged start and
`grid[rows-1][cols-2]` opened and flagged end. -/
def mazeInit (rows cols : Nat) : Grid :=
  { rows := rows, cols := cols,
    cell := fun p =>
      { row := p.1, col := p.2,
        isWall := !(decide (p = ((0 : Int), (1 : Int))) ||
          decide (p = ((rows : Int) - 1, (cols : Int) - 2))),
        isStart := decide (p = ((0 : Int), (1 : Int))),
        isEnd := decide (p = ((rows : Int) - 1, (cols : Int) - 2)),
        isVisited := false,
        isPath := false } }

mutual

/-- One call of `carvePath(r, c)` (lines 54-77): mark the cell visited,
open it, shuffle the four directions with four random swaps (the same
shuffle as `runDFS`, hence `shuffleDirs`), then try the directions in
order.  `fuel` bounds the recursion depth; every nested call enters a
cell that was unvisited when the call was made, so the depth never
exceeds the number of cells and the fuel supplied by `generateMaze`
is never exhausted.  Returns the grid, the visited array and the
advanced random-draw counter. -/
def carveGo (rows cols : Nat) (σ : Nat → Nat) :
    Nat → Pos → Nat → Grid → (Pos → Bool) → Grid × ((Pos → Bool) × Nat)
  | 0, _, k, g, vis => (g, (vis, k))
  | fuel + 1, p, k, g, vis =>
    carveFold rows cols σ fuel p (shuffleDirs σ k) (k + 4)
      (setWall g p false) (fun x => if x = p then true else vis x)
termination_by fuel _ _ _ _ => (fuel, 0)

/-- Loop `for (const dir of directions)` of `carvePath` (lines 66-76):
for each direction, if the cell two steps away is in bounds and
unvisited, open the wall in between and recurse into it. -/
def carveFold (rows cols : Nat) (σ : Nat → Nat) :
    Nat → Pos → List Nat → Nat → Grid → (Pos → Bool) → Grid × ((Pos → Bool) × Nat)
  | _, _, [], k, g, vis => (g, (vis, k))
  | fuel, p, d :: ds, k, g, vis =>
    if (0 ≤ p.1 + 2 * dxv d ∧ p.1 + 2 * dxv d < (rows : Int) ∧
        0 ≤ p.2 + 2 * dyv d ∧ p.2 + 2 * dyv d < (cols : Int)) ∧
        vis (p.1 + 2 * dxv d, p.2 + 2 * dyv d) = false then
      carveFold rows cols σ fuel p ds
        (carveGo rows cols σ fuel (p.1 + 2 * dxv d, p.2 + 2 * dyv d) k
          (setWall g (stepPos p d) false) vis).2.2
        (carveGo rows cols σ fuel (p.1 + 2 * dxv d, p.2 + 2 * dyv d) k
          (setWall g (stepPos p d) false) vis).1
        (carveGo rows cols σ fuel (p.1 + 2 * dxv d, p.2 + 2 * dyv d) k
          (setWall g (stepPos p d) false) vis).2.1
    else
      carveFold rows cols σ fuel p ds k g vis
termination_by fuel _ ds _ _ _ => (fuel, ds.length + 1)

end

/-- BFS loop of `ensurePathExists` (lines 100-120): pop the queue front,
return the carried path as soon as the popped cell is the end, otherwise
push the in-bounds non-wall unvisited neighbours (marking them visited
as they are pushed, via the shared `expandNeighbors`).  The grid is only
read.  Returns the found path, if any, and the final visited array. -/
def ensureGo (g : Grid) (epos : Pos) :
    Nat → List (Pos × List Pos) → (Pos → Bool) → Option (List Pos) × (Pos → Bool)
  | 0, _, vis => (none, vis)
  | _ + 1, [], vis => (none, vis)
  | fuel + 1, (p, path) :: rest, vis =>
    if p = epos then (some path, vis)
    else
      ensureGo g epos fuel (rest ++ (expandNeighbors g vis p path [0, 1, 2, 3]).2)
        (expandNeighbors g vis p path [0, 1, 2, 3]).1

/-- Next cell of the fallback walk (lines 128-137): move one row toward
the end while the rows differ, otherwise one column toward the end. -/
def fallbackNext (cur epos : Pos) : Pos :=
  if cur.1 < epos.1 then (cur.1 + 1, cur.2)
  else if epos.1 < cur.1 then (cur.1 - 1, cur.2)
  else if cur.2 < epos.2 then (cur.1, cur.2 + 1)
  else (cur.1, cur.2 - 1)

/-- Fallback walk of `ensurePathExists` (lines 123-141): step toward the
end, opening every cell stepped onto, until the end cell is reached.
Each iteration brings the walk one cell closer, so the fuel supplied by
`ensurePathExists` is never exhausted. -/
def fallbackGo (epos : Pos) : Nat → Pos → Grid → Grid
  | 0, _, g => g
  | fuel + 1, cur, g =>
    if cur = epos then g
    else fallbackGo epos fuel (fallbackNext cur epos)
      (setWall g (fallbackNext cur epos) false)

/-- Post-processing of the BFS result inside `ensurePathExists`: when a
path was found its cells are opened (lines 103-108); otherwise, when the
end cell was never visited, the fallback walk runs (lines 123-141). -/
def ensureApply (g : Grid) (spos epos : Pos) (found : Option (List Pos))
    (vis : Pos → Bool) : Grid :=
  match found with
  | some path => path.foldl (fun gg c => setWall gg c false) g
  | none =>
    if vis epos = false then fallbackGo epos (g.rows + g.cols + 2) spos g else g

/-- Transcription of `ensurePathExists(grid, startRow, startCol, endRow,
endCol)` (lines 91-144): BFS from the start over non-wall cells, then
the found-path opening or the fallback walk. -/
def ensurePathExists (g : Grid) (spos epos : Pos) : Grid :=
  ensureApply g spos epos
    (ensureGo g epos (g.rows * g.cols + 2) [(spos, [spos])]
      (fun x => decide (x = spos))).1
    (ensureGo g epos (g.rows * g.cols + 2) [(spos, [spos])]
      (fun x => decide (x = spos))).2

/-- Transcription of `generateMaze(rows, cols)` (lines 18-88): the
initial flagged grid, the backtracking carve from `(1, 1)`, then
`ensurePathExists` from `(0, 1)` to `(rows-1, cols-2)`. -/
def generateMaze (rows cols : Nat) (σ : Nat → Nat) : Grid :=
  ensurePathExists
    (carveGo rows cols σ (rows * cols + 1) ((1 : Int), (1 : Int)) 0
      (mazeInit rows cols) (fun _ => false)).1
    ((0 : Int), (1 : Int)) ((rows : Int) - 1, (cols : Int) - 2)

/-- Connectivity invariant of the generator: away from the end cell,
every in-bounds non-wall cell is reachable from the start.  The end cell
is exempt because the initialisation opens it long before the carving
can link it up; `ensurePathExists` closes exactly this gap. -/
def MazeConn (s epos : Pos) (g : Grid) : Prop :=
  ∀ x, inBounds g x → (g.cell x).isWall = false → x ≠ epos → Reach g s x

/-- Facts preserved by every wall-opening step of the generator:
dimensions, already-open cells, and the start/end flags of every cell. -/
def MazePres (g g' : Grid) : Prop :=
  g'.rows = g.rows ∧ g'.cols = g.cols ∧
  (∀ x, (g.cell x).isWall = false → (g'.cell x).isWall = false) ∧
  (∀ x, (g'.cell x).isStart = (g.cell x).isStart) ∧
  (∀ x, (g'.cell x).isEnd = (g.cell x).isEnd)

theorem mazePres_refl (g : Grid) : MazePres g g :=
  ⟨rfl, rfl, fun _ h => h, fun _ => rfl, fun _ => rfl⟩

theorem mazePres_trans {g1 g2 g3 : Grid} (h12 : MazePres g1 g2)
    (h23 : MazePres g2 g3) : MazePres g1 g3 :=
  ⟨h23.1.trans h12.1, h23.2.1.trans h12.2.1,
   fun x hx => h23.2.2.1 x (h12.2.2.1 x hx),
   fun x => (h23.2.2.2.1 x).trans (h12.2.2.2.1 x),
   fun x => (h23.2.2.2.2 x).trans (h12.2.2.2.2 x)⟩

theorem mazePres_setWall_false (g : Grid) (c : Pos) :
    MazePres g (setWall g c false) := by
  refine ⟨rfl, rfl, ?_, ?_, ?_⟩ <;> intro x <;> by_cases hx : x = c
  · subst hx; intro _; unfold setWall; rw [setCell_cell_self]
  · intro h; unfold setWall; rw [setCell_cell_other g hx]; exact h
  · subst hx; unfold setWall; rw [setCell_cell_self]
  · unfold setWall; rw [setCell_cell_other g hx]
  · subst hx; unfold setWall; rw [setCell_cell_self]
  · unfold setWall; rw [setCell_cell_other g hx]

theorem setWall_false_self (g : Grid) (c : Pos) :
    ((setWall g c false).cell c).isWall = false := by
  unfold setWall; rw [setCell_cell_self]

/-- Opening a cell that is (or becomes) reachable keeps the
connectivity invariant. -/
theorem mazeConn_open {s epos : Pos} {g : Grid} (hI : MazeConn s epos g) (c : Pos)
    (hrc : c ≠ epos → Reach (setWall g c false) s c) :
    MazeConn s epos (setWall g c false) := by
  intro x hbx hwx hxe
  by_cases hxc : x = c
  · subst hxc; exact hrc hxe
  · have hw : (g.cell x).isWall = false := by
      unfold setWall at hwx; rw [setCell_cell_other g hxc] at hwx; exact hwx
    have hb : inBounds g x := hbx
    exact @reach_mono g (setWall g c false) rfl rfl
      (mazePres_setWall_false g c).2.2.1 s x (hI x hb hw hxe)

/-- Opening a cell adjacent to a reachable cell makes it reachable. -/
theorem reach_openStep {s : Pos} {g : Grid} {n : Pos} (hn : Reach g s n) (c : Pos)
    (d : Nat) (hd : d < 4) (hc : c = stepPos n d) (hb : inBounds g c) :
    Reach (setWall g c false) s c := by
  obtain ⟨m, hm⟩ := hn
  refine ⟨m + 1, (@stepsTo_mono g (setWall g c false) rfl rfl
    (mazePres_setWall_false g c).2.2.1 s n m hm).tail ?_⟩
  exact ⟨⟨⟨d, hd⟩, hc⟩, hb, setWall_false_self g c⟩

/-- The wall between a cell and the cell two steps away is in bounds
whenever both are. -/
theorem between_inBounds {g : Grid} {p q : Pos} {d : Nat} (hd : d < 4)
    (hp : inBounds g p) (hq : inBounds g q)
    (hqe : q = (p.1 + 2 * dxv d, p.2 + 2 * dyv d)) : inBounds g (stepPos p d) := by
  subst hqe
  unfold inBounds stepPos at *
  interval_cases d <;> simp [dxv, dyv] at * <;> omega

theorem stepPos_twice (p : Pos) (d : Nat) :
    (p.1 + 2 * dxv d, p.2 + 2 * dyv d) = stepPos (stepPos p d) d := by
  unfold stepPos
  refine Prod.ext ?_ ?_ <;> simp <;> ring

/-- Direction loop of `carvePath` preserves the connectivity invariant
and the generator bookkeeping, given that every recursive `carveGo`
call at the next fuel level does (`ihgo`). -/
theorem carveFold_master (rows cols : Nat) (σ : Nat → Nat) (s epos : Pos) (fuel : Nat)
    (ihgo : ∀ (p : Pos) (k : Nat) (g : Grid) (vis : Pos → Bool),
      g.rows = rows → g.cols = cols → MazeConn s epos g → inBounds g p →
      Reach (setWall g p false) s p →
      MazePres g (carveGo rows cols σ fuel p k g vis).1 ∧
      MazeConn s epos (carveGo rows cols σ fuel p k g vis).1) :
    ∀ (ds : List Nat), (∀ d ∈ ds, d < 4) →
      ∀ (p : Pos) (k : Nat) (g : Grid) (vis : Pos → Bool),
      g.rows = rows → g.cols = cols → MazeConn s epos g → inBounds g p →
      (g.cell p).isWall = false → Reach g s p →
      MazePres g (carveFold rows cols σ fuel p ds k g vis).1 ∧
      MazeConn s epos (carveFold rows cols σ fuel p ds k g vis).1 := by
  intro ds
  induction ds with
  | nil =>
    intro _ p k g vis _ _ hI _ _ _
    rw [carveFold]
    exact ⟨mazePres_refl g, hI⟩
  | cons d ds ih =>
    intro hds p k g vis hdr hdc hI hbp hpw hrp
    by_cases hcond : (0 ≤ p.1 + 2 * dxv d ∧ p.1 + 2 * dxv d < (rows : Int) ∧
        0 ≤ p.2 + 2 * dyv d ∧ p.2 + 2 * dyv d < (cols : Int)) ∧
        vis (p.1 + 2 * dxv d, p.2 + 2 * dyv d) = false
    · have hd4 : d < 4 := hds d (by simp)
      have hbq : inBounds g (p.1 + 2 * dxv d, p.2 + 2 * dyv d) := by
        rw [inBounds_mk, hdr, hdc]
        exact hcond.1
      have hbb : inBounds g (stepPos p d) := between_inBounds hd4 hbp hbq rfl
      have hrb : Reach (setWall g (stepPos p d) false) s (stepPos p d) :=
        reach_openStep hrp (stepPos p d) d hd4 rfl hbb
      have hI2 : MazeConn s epos (setWall g (stepPos p d) false) :=
        mazeConn_open hI (stepPos p d) (fun _ => hrb)
      have hbq2 : inBounds (setWall g (stepPos p d) false)
          (p.1 + 2 * dxv d, p.2 + 2 * dyv d) := hbq
      have hrq : Reach (setWall (setWall g (stepPos p d) false)
          (p.1 + 2 * dxv d, p.2 + 2 * dyv d) false) s
          (p.1 + 2 * dxv d, p.2 + 2 * dyv d) :=
        reach_openStep hrb _ d hd4 (stepPos_twice p d) hbq2
      set R := carveGo rows cols σ fuel (p.1 + 2 * dxv d, p.2 + 2 * dyv d) k
        (setWall g (stepPos p d) false) vis with hR
      obtain ⟨hpresR, hIR⟩ := ihgo (p.1 + 2 * dxv d, p.2 + 2 * dyv d) k
        (setWall g (stepPos p d) false) vis hdr hdc hI2 hbq2 hrq
      rw [← hR] at hpresR hIR
      have hpresGR : MazePres g R.1 :=
        mazePres_trans (mazePres_setWall_false g (stepPos p d)) hpresR
      have heq : carveFold rows cols σ fuel p (d :: ds) k g vis =
          carveFold rows cols σ fuel p ds R.2.2 R.1 R.2.1 := by
        rw [carveFold]
        rw [if_pos hcond]
      rw [heq]
      obtain ⟨hpresF, hIF⟩ := ih (fun x hx => hds x (by simp [hx])) p R.2.2 R.1 R.2.1
        (hpresGR.1.trans hdr) (hpresGR.2.1.trans hdc) hIR
        ((inBounds_of_dims hpresGR.1 hpresGR.2.1 p).mpr hbp)
        (hpresGR.2.2.1 p hpw)
        (reach_mono hpresGR.1 hpresGR.2.1 hpresGR.2.2.1 hrp)
      exact ⟨mazePres_trans hpresGR hpresF, hIF⟩
    · have heq : carveFold rows cols σ fuel p (d :: ds) k g vis =
          carveFold rows cols σ fuel p ds k g vis := by
        rw [carveFold]
        rw [if_neg hcond]
      rw [heq]
      exact ih (fun x hx => hds x (by simp [hx])) p k g vis hdr hdc hI hbp hpw hrp

/-- Main carving invariant: `carvePath` only ever opens cells adjacent
to already-reachable open cells, so the connectivity invariant, the
dimensions, the open cells and the flags all survive the whole
backtracking recursion. -/
theorem carveGo_master (rows cols : Nat) (σ : Nat → Nat) (s epos : Pos) :
    ∀ (fuel : Nat) (p : Pos) (k : Nat) (g : Grid) (vis : Pos → Bool),
      g.rows = rows → g.cols = cols → MazeConn s epos g → inBounds g p →
      Reach (setWall g p false) s p →
      MazePres g (carveGo rows cols σ fuel p k g vis).1 ∧
      MazeConn s epos (carveGo rows cols σ fuel p k g vis).1 := by
  intro fuel
  induction fuel with
  | zero =>
    intro p k g vis _ _ hI _ _
    rw [carveGo]
    exact ⟨mazePres_refl g, hI⟩
  | succ fuel ih =>
    intro p k g vis hdr hdc hI hbp hrp
    have heq : carveGo rows cols σ (fuel + 1) p k g vis =
        carveFold rows cols σ fuel p (shuffleDirs σ k) (k + 4)
          (setWall g p false) (fun x => if x = p then true else vis x) := by
      rw [carveGo]
    rw [heq]
    have hds : ∀ d ∈ shuffleDirs σ k, d < 4 := by
      intro d hd
      have h2 := mem_shuffleDirs.mp hd
      simp at h2
      omega
    obtain ⟨hpresF, hIF⟩ := carveFold_master rows cols σ s epos fuel ih
      (shuffleDirs σ k) hds p (k + 4) (setWall g p false)
      (fun x => if x = p then true else vis x)
      hdr hdc (mazeConn_open hI p (fun _ => hrp)) hbp (setWall_false_self g p) hrp
    exact ⟨mazePres_trans (mazePres_setWall_false g p) hpresF, hIF⟩

/-- Every cell of a valid chain from an open start is open and
reachable. -/
theorem validChain_mem_props {g : Grid} {s : Pos} (hs : (g.cell s).isWall = false) :
    ∀ (l : List Pos), ValidChain g s l →
      ∀ c ∈ l, (g.cell c).isWall = false ∧ Reach g s c := by
  intro l
  induction l using List.reverseRecOn with
  | nil => intro _ c hc; simp at hc
  | append_singleton t q ih =>
    intro h c hc
    cases t with
    | nil =>
      obtain ⟨h1, _⟩ := h
      simp at h1
      subst h1
      simp at hc
      subst hc
      exact ⟨hs, ⟨0, .refl⟩⟩
    | cons a r =>
      obtain ⟨h1, h2⟩ := h
      have hsplit := List.chain'_append.mp
        (show List.Chain' (gstep g) ((a :: r) ++ [q]) from h2)
      have hlast2 : (a :: r).getLast? = some ((a :: r).getLast (by simp)) :=
        List.getLast?_eq_getLast _ _
      have hchain : ValidChain g s (a :: r) := ⟨by simpa using h1, hsplit.1⟩
      have hstep : gstep g ((a :: r).getLast (by simp)) q := hsplit.2.2 _ hlast2 _ rfl
      rcases List.mem_append.mp hc with hct | hcq
      · exact ih hchain c hct
      · have hcq2 : c = q := by simpa using hcq
        subst hcq2
        obtain ⟨n, hn⟩ := (ih hchain _ (List.getLast_mem (by simp))).2
        exact ⟨hstep.2.2, ⟨n + 1, hn.tail hstep⟩⟩

/-- Behaviour of the `ensurePathExists` BFS: with sufficient fuel it
either returns a valid chain from the start that ends at the end cell,
or returns nothing with the end cell unvisited.  The queue invariant is
that every entry carries a valid chain ending at its own cell; the
liveness invariant is that the end cell is unvisited or queued. -/
theorem ensureGo_master (g : Grid) (spos epos : Pos) :
    ∀ (fuel : Nat) (q : List (Pos × List Pos)) (vis : Pos → Bool),
      (∀ e ∈ q, ValidChain g spos e.2 ∧ e.2.getLast? = some e.1) →
      (vis epos = false ∨ ∃ e ∈ q, e.1 = epos) →
      unvisitedCard g vis + q.length < fuel →
      (∃ path, (ensureGo g epos fuel q vis).1 = some path ∧
        ValidChain g spos path ∧ path.getLast? = some epos) ∨
      ((ensureGo g epos fuel q vis).1 = none ∧
        (ensureGo g epos fuel q vis).2 epos = false) := by
  intro fuel
  induction fuel with
  | zero => intro q vis _ _ hpot; omega
  | succ fuel ih =>
    intro q vis hq hJ hpot
    cases q with
    | nil =>
      right
      refine ⟨by rw [ensureGo], ?_⟩
      rcases hJ with h | ⟨e, he, _⟩
      · rw [ensureGo]; exact h
      · simp at he
    | cons e rest =>
      obtain ⟨p, path⟩ := e
      by_cases hp : p = epos
      · left
        have hhead := hq (p, path) (by simp)
        have heq : ensureGo g epos (fuel + 1) ((p, path) :: rest) vis =
            (some path, vis) := by
          rw [ensureGo]
          rw [if_pos hp]
        refine ⟨path, by rw [heq], hhead.1, ?_⟩
        have h2 : path.getLast? = some p := hhead.2
        rw [h2, hp]
      · obtain ⟨ws, h1, h2, h3, h4, h5⟩ := expandNeighbors_spec g p path [0, 1, 2, 3]
          vis (by intro d hd; fin_cases hd <;> norm_num)
        have heq : ensureGo g epos (fuel + 1) ((p, path) :: rest) vis =
            ensureGo g epos fuel
              (rest ++ (expandNeighbors g vis p path [0, 1, 2, 3]).2)
              (expandNeighbors g vis p path [0, 1, 2, 3]).1 := by
          rw [ensureGo]
          rw [if_neg hp]
        rw [heq]
        apply ih
        · intro e he
          rcases List.mem_append.mp he with h | h
          · exact hq e (by simp [h])
          · rw [h1] at h
            obtain ⟨w, hw, hwe⟩ := List.mem_map.mp h
            subst hwe
            exact ⟨validChain_append (hq (p, path) (by simp)).1
              (hq (p, path) (by simp)).2 (h3 w hw).1, by simp⟩
        · rcases hJ with hJv | ⟨e, he, he1⟩
          · by_cases hew : epos ∈ ws
            · right
              refine ⟨(epos, path ++ [epos]), ?_, rfl⟩
              rw [List.mem_append, h1]
              right
              exact List.mem_map.mpr ⟨epos, hew, rfl⟩
            · left
              rw [h4]
              simp [hJv, hew]
          · rcases List.mem_cons.mp he with hee | her
            · exfalso
              apply hp
              rw [hee] at he1
              exact he1
            · right
              exact ⟨e, by simp [her], he1⟩
        · have hbd : ∀ w ∈ ws, inBounds g w := fun w hw => (h3 w hw).1.2.1
          have hcard := unvisitedCard_expand h4 h2 (fun w hw => (h3 w hw).2) hbd
          have hlen : (expandNeighbors g vis p path [0, 1, 2, 3]).2.length = ws.length := by
            rw [h1, List.length_map]
          rw [List.length_append, hlen]
          simp only [List.length_cons] at hpot
          omega

/-- Opening a list of already-open reachable cells (the found-path loop
of `ensurePathExists`) changes no fact the generator relies on. -/
theorem mazeFold_open (s epos : Pos) :
    ∀ (l : List Pos) (g : Grid), MazeConn s epos g →
      (∀ c ∈ l, (g.cell c).isWall = false ∧ Reach g s c) →
      MazePres g (l.foldl (fun gg c => setWall gg c false) g) ∧
      MazeConn s epos (l.foldl (fun gg c => setWall gg c false) g) := by
  intro l
  induction l with
  | nil => intro g hI _; exact ⟨mazePres_refl g, hI⟩
  | cons c t ih =>
    intro g hI hl
    rw [List.foldl_cons]
    have hc := hl c (by simp)
    have hmono := (mazePres_setWall_false g c).2.2.1
    have hI2 : MazeConn s epos (setWall g c false) :=
      mazeConn_open hI c (fun _ => @reach_mono g (setWall g c false) rfl rfl hmono s c hc.2)
    have hl2 : ∀ x ∈ t, ((setWall g c false).cell x).isWall = false ∧
        Reach (setWall g c false) s x := by
      intro x hx
      exact ⟨hmono x (hl x (by simp [hx])).1,
        @reach_mono g (setWall g c false) rfl rfl hmono s x (hl x (by simp [hx])).2⟩
    obtain ⟨hp, hc2⟩ := ih (setWall g c false) hI2 hl2
    exact ⟨mazePres_trans (mazePres_setWall_false g c) hp, hc2⟩

/-- One fallback step is a legal single move. -/
theorem fallbackNext_step (cur epos : Pos) :
    ∃ d : Nat, d < 4 ∧ fallbackNext cur epos = stepPos cur d := by
  unfold fallbackNext
  by_cases h1 : cur.1 < epos.1
  · refine ⟨2, by norm_num, ?_⟩
    rw [if_pos h1]
    refine Prod.ext ?_ ?_ <;> simp [stepPos, dxv, dyv]
  · rw [if_neg h1]
    by_cases h2 : epos.1 < cur.1
    · refine ⟨0, by norm_num, ?_⟩
      rw [if_pos h2]
      refine Prod.ext ?_ ?_ <;> simp [stepPos, dxv, dyv]
      ring
    · rw [if_neg h2]
      by_cases h3 : cur.2 < epos.2
      · refine ⟨1, by norm_num, ?_⟩
        rw [if_pos h3]
        refine Prod.ext ?_ ?_ <;> simp [stepPos, dxv, dyv]
      · refine ⟨3, by norm_num, ?_⟩
        rw [if_neg h3]
        refine Prod.ext ?_ ?_ <;> simp [stepPos, dxv, dyv]
        ring

/-- Each fallback step decreases the taxicab distance to the end. -/
theorem fallbackNext_dist (cur epos : Pos) (h : cur ≠ epos) :
    (epos.1 - (fallbackNext cur epos).1).natAbs +
      (epos.2 - (fallbackNext cur epos).2).natAbs + 1 =
    (epos.1 - cur.1).natAbs + (epos.2 - cur.2).natAbs := by
  have hne : cur.1 ≠ epos.1 ∨ cur.2 ≠ epos.2 := by
    by_contra hc
    push_neg at hc
    exact h (Prod.ext hc.1 hc.2)
  unfold fallbackNext
  by_cases h1 : cur.1 < epos.1
  · rw [if_pos h1]; simp only; omega
  · rw [if_neg h1]
    by_cases h2 : epos.1 < cur.1
    · rw [if_pos h2]; simp only; omega
    · rw [if_neg h2]
      by_cases h3 : cur.2 < epos.2
      · rw [if_pos h3]; simp only; omega
      · rw [if_neg h3]; simp only; omega

/-- The fallback step stays inside the grid. -/
theorem fallbackNext_inBounds {g : Grid} (cur epos : Pos) (h : cur ≠ epos)
    (hc : inBounds g cur) (he : inBounds g epos) :
    inBounds g (fallbackNext cur epos) := by
  have hne : cur.1 ≠ epos.1 ∨ cur.2 ≠ epos.2 := by
    by_contra hcc
    push_neg at hcc
    exact h (Prod.ext hcc.1 hcc.2)
  unfold inBounds at hc he
  unfold fallbackNext
  by_cases h1 : cur.1 < epos.1
  · rw [if_pos h1]; rw [inBounds_mk]; omega
  · rw [if_neg h1]
    by_cases h2 : epos.1 < cur.1
    · rw [if_pos h2]; rw [inBounds_mk]; omega
    · rw [if_neg h2]
      by_cases h3 : cur.2 < epos.2
      · rw [if_pos h3]; rw [inBounds_mk]; omega
      · rw [if_neg h3]
        rw [inBounds_mk]
        rcases hne with h4 | h4 <;> omega

/-- Behaviour of the fallback walk: it only opens cells adjacent to the
(reachable) previous cell, so the connectivity invariant and the
bookkeeping survive; and with fuel exceeding the taxicab distance the
walk reaches the end cell, which is then reachable from the start. -/
theorem fallbackGo_master (s epos : Pos) :
    ∀ (fuel : Nat) (cur : Pos) (g : Grid),
      MazeConn s epos g → Reach g s cur → inBounds g cur → inBounds g epos →
      MazePres g (fallbackGo epos fuel cur g) ∧
      MazeConn s epos (fallbackGo epos fuel cur g) ∧
      ((epos.1 - cur.1).natAbs + (epos.2 - cur.2).natAbs < fuel →
        Reach (fallbackGo epos fuel cur g) s epos) := by
  intro fuel
  induction fuel with
  | zero =>
    intro cur g hI _ _ _
    rw [fallbackGo]
    exact ⟨mazePres_refl g, hI, fun h => (Nat.not_lt_zero _ h).elim⟩
  | succ fuel ih =>
    intro cur g hI hr hbc hbe
    by_cases hcur : cur = epos
    · have heq : fallbackGo epos (fuel + 1) cur g = g := by
        rw [fallbackGo]
        rw [if_pos hcur]
      rw [heq]
      exact ⟨mazePres_refl g, hI, fun _ => hcur ▸ hr⟩
    · obtain ⟨d, hd4, hnd⟩ := fallbackNext_step cur epos
      have hbn : inBounds g (fallbackNext cur epos) :=
        fallbackNext_inBounds cur epos hcur hbc hbe
      have hrn : Reach (setWall g (fallbackNext cur epos) false) s
          (fallbackNext cur epos) :=
        reach_openStep hr (fallbackNext cur epos) d hd4 hnd hbn
      have hI2 : MazeConn s epos (setWall g (fallbackNext cur epos) false) :=
        mazeConn_open hI (fallbackNext cur epos) (fun _ => hrn)
      have heq : fallbackGo epos (fuel + 1) cur g =
          fallbackGo epos fuel (fallbackNext cur epos)
            (setWall g (fallbackNext cur epos) false) := by
        rw [fallbackGo]
        rw [if_neg hcur]
      rw [heq]
      obtain ⟨hp2, hI3, hrE⟩ := ih (fallbackNext cur epos)
        (setWall g (fallbackNext cur epos) false) hI2 hrn hbn hbe
      refine ⟨mazePres_trans (mazePres_setWall_false g (fallbackNext cur epos)) hp2,
        hI3, ?_⟩
      intro hdist
      apply hrE
      have hdec := fallbackNext_dist cur epos hcur
      omega

/-- Combined behaviour of `ensurePathExists`: the bookkeeping and the
connectivity invariant survive, and afterwards the end cell is
reachable from the start -- either along the BFS-found path or along
the freshly opened fallback walk. -/
theorem ensurePathExists_master (g : Grid) (spos epos : Pos)
    (hI : MazeConn spos epos g) (hbs : inBounds g spos) (hbe : inBounds g epos)
    (hsnw : (g.cell spos).isWall = false) (hne : spos ≠ epos)
    (hdist : (epos.1 - spos.1).natAbs + (epos.2 - spos.2).natAbs <
      g.rows + g.cols + 2) :
    MazePres g (ensurePathExists g spos epos) ∧
    MazeConn spos epos (ensurePathExists g spos epos) ∧
    Reach (ensurePathExists g spos epos) spos epos := by
  have hqi : ∀ e ∈ [(spos, [spos])], ValidChain g spos e.2 ∧
      e.2.getLast? = some e.1 := by
    intro e he
    simp at he
    subst he
    exact ⟨validChain_singleton g spos, by simp⟩
  have hJ : (fun x => decide (x = spos)) epos = false ∨
      ∃ e ∈ [(spos, [spos])], e.1 = epos := by
    left
    simp only [decide_eq_false_iff_not]
    exact fun h2 => hne h2.symm
  have hcardle : unvisitedCard g (fun x => decide (x = spos)) ≤ g.rows * g.cols := by
    unfold unvisitedCard
    rw [← boundsFinset_card g]
    exact Finset.card_filter_le _ _
  have hpot : unvisitedCard g (fun x => decide (x = spos)) +
      [(spos, [spos])].length < g.rows * g.cols + 2 := by
    simp only [List.length_singleton]
    omega
  rcases ensureGo_master g spos epos (g.rows * g.cols + 2) [(spos, [spos])]
      (fun x => decide (x = spos)) hqi hJ hpot with
    ⟨path, hfound, hchain, hlast⟩ | ⟨hnone, hvz⟩
  · have hg : ensurePathExists g spos epos =
        path.foldl (fun gg c => setWall gg c false) g := by
      unfold ensurePathExists
      rw [hfound]
      rfl
    rw [hg]
    obtain ⟨hp, hI2⟩ := mazeFold_open spos epos path g hI
      (validChain_mem_props hsnw path hchain)
    refine ⟨hp, hI2, ?_⟩
    have hre : Reach g spos epos := ⟨path.length - 1, validChain_stepsTo hchain hlast⟩
    exact reach_mono hp.1 hp.2.1 hp.2.2.1 hre
  · have hg : ensurePathExists g spos epos =
        fallbackGo epos (g.rows + g.cols + 2) spos g := by
      unfold ensurePathExists
      rw [hnone]
      rw [ensureApply]
      rw [if_pos hvz]
    rw [hg]
    obtain ⟨hp, hI2, hrE⟩ := fallbackGo_master spos epos (g.rows + g.cols + 2)
      spos g hI ⟨0, .refl⟩ hbs hbe
    exact ⟨hp, hI2, hrE hdist⟩

/-- C1: for all rows, cols at least 5, the grid returned by
`generateMaze(rows, cols)` has exactly one start flag, at `(0, 1)`,
exactly one end flag, at `(rows-1, cols-2)`, and every in-bounds
non-wall cell is reachable from the start cell along orthogonal steps
between non-wall cells; in particular the end cell is reachable from
the start, whatever the random stream did. -/
theorem C1_generateMaze (rows cols : Nat) (σ : Nat → Nat)
    (hr : 5 ≤ rows) (hc : 5 ≤ cols) :
    UniqueStart (generateMaze rows cols σ) ((0 : Int), (1 : Int)) ∧
    UniqueEnd (generateMaze rows cols σ) ((rows : Int) - 1, (cols : Int) - 2) ∧
    (∀ x, inBounds (generateMaze rows cols σ) x →
      ((generateMaze rows cols σ).cell x).isWall = false →
      Reach (generateMaze rows cols σ) ((0 : Int), (1 : Int)) x) ∧
    Reach (generateMaze rows cols σ) ((0 : Int), (1 : Int))
      ((rows : Int) - 1, (cols : Int) - 2) := by
  have hrows : (mazeInit rows cols).rows = rows := rfl
  have hcols : (mazeInit rows cols).cols = cols := rfl
  have hbs0 : inBounds (mazeInit rows cols) ((0 : Int), (1 : Int)) := by
    rw [inBounds_mk, hrows, hcols]
    omega
  have hbe0 : inBounds (mazeInit rows cols) ((rows : Int) - 1, (cols : Int) - 2) := by
    rw [inBounds_mk, hrows, hcols]
    omega
  have hb11 : inBounds (mazeInit rows cols) ((1 : Int), (1 : Int)) := by
    rw [inBounds_mk, hrows, hcols]
    omega
  have hI0 : MazeConn ((0 : Int), (1 : Int)) ((rows : Int) - 1, (cols : Int) - 2)
      (mazeInit rows cols) := by
    intro x _ hwx hxe
    simp only [mazeInit] at hwx
    simp at hwx
    by_cases hxs : x = ((0 : Int), (1 : Int))
    · rw [hxs]
      exact ⟨0, .refl⟩
    · exact (hxe (hwx hxs)).elim
  have hstart_nw : ((mazeInit rows cols).cell ((0 : Int), (1 : Int))).isWall = false := by
    simp [mazeInit]
  have hreach11 : Reach (setWall (mazeInit rows cols) ((1 : Int), (1 : Int)) false)
      ((0 : Int), (1 : Int)) ((1 : Int), (1 : Int)) := by
    refine reach_openStep ⟨0, .refl⟩ ((1 : Int), (1 : Int)) 2 (by norm_num) ?_ hb11
    refine Prod.ext ?_ ?_ <;> simp [stepPos, dxv, dyv]
  obtain ⟨hpres1, hI1⟩ := carveGo_master rows cols σ ((0 : Int), (1 : Int))
    ((rows : Int) - 1, (cols : Int) - 2) (rows * cols + 1) ((1 : Int), (1 : Int)) 0
    (mazeInit rows cols) (fun _ => false) rfl rfl hI0 hb11 hreach11
  set g1 := (carveGo rows cols σ (rows * cols + 1) ((1 : Int), (1 : Int)) 0
    (mazeInit rows cols) (fun _ => false)).1 with hg1
  have hd1r : g1.rows = rows := hpres1.1
  have hd1c : g1.cols = cols := hpres1.2.1
  have hbs1 : inBounds g1 ((0 : Int), (1 : Int)) :=
    (inBounds_of_dims hpres1.1 hpres1.2.1 _).mpr hbs0
  have hbe1 : inBounds g1 ((rows : Int) - 1, (cols : Int) - 2) :=
    (inBounds_of_dims hpres1.1 hpres1.2.1 _).mpr hbe0
  have hsnw1 : (g1.cell ((0 : Int), (1 : Int))).isWall = false :=
    hpres1.2.2.1 _ hstart_nw
  have hne : ((0 : Int), (1 : Int)) ≠ (((rows : Int) - 1, (cols : Int) - 2) : Pos) := by
    intro h
    have h1 := congrArg Prod.fst h
    simp at h1
    omega
  have hdist : ((((rows : Int) - 1, (cols : Int) - 2) : Pos).1 -
        (((0 : Int), (1 : Int)) : Pos).1).natAbs +
      ((((rows : Int) - 1, (cols : Int) - 2) : Pos).2 -
        (((0 : Int), (1 : Int)) : Pos).2).natAbs < g1.rows + g1.cols + 2 := by
    rw [hd1r, hd1c]
    dsimp only
    omega
  obtain ⟨hpres2, hI2, hre2⟩ := ensurePathExists_master g1 ((0 : Int), (1 : Int))
    ((rows : Int) - 1, (cols : Int) - 2) hI1 hbs1 hbe1 hsnw1 hne hdist
  have hgen : generateMaze rows cols σ =
      ensurePathExists g1 ((0 : Int), (1 : Int)) ((rows : Int) - 1, (cols : Int) - 2) := by
    rw [generateMaze]
  rw [hgen]
  have hpres02 : MazePres (mazeInit rows cols)
      (ensurePathExists g1 ((0 : Int), (1 : Int)) ((rows : Int) - 1, (cols : Int) - 2)) :=
    mazePres_trans hpres1 hpres2
  refine ⟨⟨(inBounds_of_dims hpres02.1 hpres02.2.1 _).mpr hbs0, ?_, ?_⟩,
    ⟨(inBounds_of_dims hpres02.1 hpres02.2.1 _).mpr hbe0, ?_, ?_⟩, ?_, hre2⟩
  · rw [hpres02.2.2.2.1]
    simp [mazeInit]
  · intro q _ hqs
    rw [hpres02.2.2.2.1 q] at hqs
    simp [mazeInit] at hqs
    exact hqs
  · rw [hpres02.2.2.2.2]
    simp [mazeInit]
  · intro q _ hqe
    rw [hpres02.2.2.2.2 q] at hqe
    simp [mazeInit] at hqe
    exact hqe
  · intro x hbx hwx
    by_cases hxe : x = (((rows : Int) - 1, (cols : Int) - 2) : Pos)
    · rw [hxe]
      exact hre2
    · exact hI2 x hbx hwx hxe

/-- Witness for C1: the 5-by-5 maze with the all-zero random stream. -/
theorem C1_generateMaze_witness :
    (5 : Nat) ≤ 5 ∧ (5 : Nat) ≤ 5 ∧
      (UniqueStart (generateMaze 5 5 (fun _ => 0)) ((0 : Int), (1 : Int)) ∧
      UniqueEnd (generateMaze 5 5 (fun _ => 0))
        ((((5 : Nat) : Int)) - 1, (((5 : Nat) : Int)) - 2) ∧
      (∀ x, inBounds (generateMaze 5 5 (fun _ => 0)) x →
        ((generateMaze 5 5 (fun _ => 0)).cell x).isWall = false →
        Reach (generateMaze 5 5 (fun _ => 0)) ((0 : Int), (1 : Int)) x) ∧
      Reach (generateMaze 5 5 (fun _ => 0)) ((0 : Int), (1 : Int))
        ((((5 : Nat) : Int)) - 1, (((5 : Nat) : Int)) - 2)) :=
  ⟨by decide, by decide, C1_generateMaze 5 5 (fun _ => 0) (by decide) (by decide)⟩

end Maze
